import Mathlib

/-!
Verification of the sabre-go compiler core against its specification.

The Go sources are shallowly embedded below.  Pointer-linked IR objects
(modules, functions, basic blocks) are represented by value, with the Go
pointer graph replaced by integer IDs; Go maps are represented by
association lists with overwrite-on-insert semantics; Go `panic` sites are
either modelled with `Option` or excluded by explicit hypotheses, as noted
at each definition.
-/

set_option maxRecDepth 4000

namespace spirv

/-- SPIR-V object IDs (`type ID int32` in the source; values stay tiny). -/
abbrev ID := Int

/-- `StorageClassFunction StorageClass = 7` from `IR.go`. -/
def StorageClassFunction : Int := 7

/-- Opcodes used by the embedded instructions, with their numeric codes from
the source's `Opcode` constant block. -/
inductive Opcode where
  | opConstantTrue | opConstantFalse
  | opFunction | opFunctionParameter | opFunctionEnd | opFunctionCall
  | opVariable | opLoad | opStore
  | opIAdd
  | opLabel
  | opReturn | opReturnValue | opUnreachable
  | opSelectionMerge | opBranchConditional | opBranch | opLoopMerge | opSwitch
  deriving DecidableEq, Repr

/-- Numeric opcode values (SPIR-V 1.3 codes as listed in the source). -/
def Opcode.code : Opcode → Nat
  | .opConstantTrue => 41
  | .opConstantFalse => 42
  | .opFunction => 54
  | .opFunctionParameter => 55
  | .opFunctionEnd => 56
  | .opFunctionCall => 57
  | .opVariable => 59
  | .opLoad => 61
  | .opStore => 62
  | .opIAdd => 128
  | .opLabel => 248
  | .opReturn => 253
  | .opReturnValue => 254
  | .opUnreachable => 255
  | .opSelectionMerge => 247
  | .opBranchConditional => 250
  | .opBranch => 249
  | .opLoopMerge => 246
  | .opSwitch => 251

/-- Modelled from the spec: the repository snapshot contains only the call
sites of `Opcode.IsTerminator`, not its definition.  The spec states
"Terminator opcodes are `Return, ReturnValue, Branch, BranchConditional,
Switch, Unreachable`". -/
def Opcode.isTerminator : Opcode → Bool
  | .opReturn | .opReturnValue | .opBranch | .opBranchConditional
  | .opSwitch | .opUnreachable => true
  | _ => false

/-- The instruction records from the source that the claims exercise.
Each mirrors the fields of the corresponding Go struct (IDs only). -/
inductive SInstr where
  | variableI (resultType resultId : ID) (storageClass : Int) (initializer : ID)
  | load (resultType resultId pointer : ID)
  | store (pointer object : ID)
  | iadd (resultType resultId op1 op2 : ID)
  | ret
  | retValue (value : ID)
  | unreachableI
  | branch (targetLabel : ID)
  | branchConditional (condition trueLabel falseLabel : ID)
  | selectionMerge (mergeBlock : ID) (control : Int)
  | loopMerge (mergeBlock continueBlock : ID) (control : Int)
  | switchI (selector default : ID) (labels : List ID)
  deriving DecidableEq, Repr

def SInstr.opcode : SInstr → Opcode
  | .variableI .. => .opVariable
  | .load .. => .opLoad
  | .store .. => .opStore
  | .iadd .. => .opIAdd
  | .ret => .opReturn
  | .retValue _ => .opReturnValue
  | .unreachableI => .opUnreachable
  | .branch _ => .opBranch
  | .branchConditional .. => .opBranchConditional
  | .selectionMerge .. => .opSelectionMerge
  | .loopMerge .. => .opLoopMerge
  | .switchI .. => .opSwitch

/-- `Instruction.SuccessorIDs` from the source: only the merge and branch
family report successors; every other instruction inherits
`DefaultInstruction`'s `nil`. -/
def SInstr.successorIDs : SInstr → List ID
  | .selectionMerge m _ => [m]
  | .branchConditional _ t f => [t, f]
  | .branch t => [t]
  | .loopMerge m c _ => [m, c]
  | .switchI _ d labels => d :: labels
  | _ => []

/-- Whether an instruction is a `SelectionMergeInstruction` or a
`LoopMergeInstruction` (the two cases of the type switch in
`Block.SuccessorIDs`). -/
def SInstr.isMerge : SInstr → Bool
  | .selectionMerge .. => true
  | .loopMerge .. => true
  | _ => false

/-- A basic block: `Block{BaseObject, Function, Instructions}` with the
back-pointer to the function dropped (it is only used for `NewBlock`). -/
structure SBlock where
  id : ID
  name : String
  instructions : List SInstr
  deriving DecidableEq, Repr

/-- `Block.Push`. -/
def SBlock.push (b : SBlock) (i : SInstr) : SBlock :=
  { b with instructions := b.instructions ++ [i] }

/-- `Block.IsTerminated`. -/
def SBlock.isTerminated (b : SBlock) : Bool :=
  match b.instructions.getLast? with
  | none => false
  | some i => i.opcode.isTerminator

/-- `Block.SuccessorIDs`: the last instruction's successors, plus the
second-to-last instruction's successors when it is a merge instruction. -/
def SBlock.successorIDs (b : SBlock) : List ID :=
  match b.instructions.reverse with
  | [] => []
  | last :: rest =>
    let res := last.successorIDs
    match rest with
    | second :: _ => if second.isMerge then res ++ second.successorIDs else res
    | [] => res

/-- A function parameter object (`FuncParam`). -/
structure SFuncParam where
  id : ID
  name : String
  typeId : ID
  deriving DecidableEq, Repr

/-- The pieces of `FuncType` that the claims read (`ID`, `ReturnType.ID`,
whether the return type is `*VoidType`). -/
structure SFuncType where
  id : ID
  returnTypeId : ID
  returnIsVoid : Bool
  deriving DecidableEq, Repr

/-- `Function{BaseObject, Module, Type, Params, Blocks}` with the module
back-pointer dropped. -/
structure SFunction where
  id : ID
  name : String
  type : SFuncType
  params : List SFuncParam
  blocks : List SBlock
  deriving DecidableEq, Repr

end spirv

section ListHelpers

/-- First-occurrence duplicate removal, as the `seen` map in `CFG.addEdges`
performs. -/
def eraseDupsFirst (l : List spirv.ID) : List spirv.ID :=
  go [] l
where
  go (seen : List spirv.ID) : List spirv.ID → List spirv.ID
    | [] => []
    | x :: xs => if x ∈ seen then go seen xs else x :: go (x :: seen) xs

/-- Association-list lookup mirroring a Go map read (`m[k]`, comma-ok form). -/
def alistFind {α : Type} (key : spirv.ID) : List (spirv.ID × α) → Option α
  | [] => none
  | (k, v) :: rest => if k = key then some v else alistFind key rest

/-- Association-list lookup keyed by strings. -/
def salistFind {α : Type} (key : String) : List (String × α) → Option α
  | [] => none
  | (k, v) :: rest => if k = key then some v else salistFind key rest

end ListHelpers

namespace spirv

/-- Structural shape of a SPIR-V type, used to compute `HashKey` strings.
The Go objects link to other type objects by pointer; the shape is the
pointer graph unfolded. -/
inductive SType where
  | void
  | boolT
  | intT (bitWidth : Int) (isSigned : Bool)
  | floatT (bitWidth : Int)
  | ptr (target : SType) (sc : Int)
  deriving DecidableEq, Repr

def commaJoin : List String → String
  | [] => ""
  | [s] => s
  | s :: rest => s ++ "," ++ commaJoin rest

/-- The `HashKey` methods of the type objects. -/
def SType.hashKey : SType → String
  | .void => "void"
  | .boolT => "bool"
  | .intT bits signed =>
      if signed then "int" ++ toString bits else "uint" ++ toString bits
  | .floatT bits => "float" ++ toString bits
  | .ptr target sc => "ptr(" ++ target.hashKey ++ "," ++ toString sc ++ ")"

/-- A finite float64 value is a dyadic rational
`(-1)^neg * num / 2^exp`; `fmt.Sprintf("%f", v)` then renders its exact
decimal rounding to six fractional digits (ties to even), which
`goFmtF` below implements. -/
structure GoFloat where
  neg : Bool
  num : Nat
  exp : Nat
  deriving DecidableEq, Repr

/-- Round `n / d` (with `d > 0`) to the nearest integer, ties to even. -/
def roundHalfEven (n d : Nat) : Nat :=
  let q := n / d
  let r := n % d
  if 2 * r < d then q
  else if d < 2 * r then q + 1
  else if q % 2 = 0 then q else q + 1

/-- Zero-pad a fractional part to six digits. -/
def padSixDigits (f : Nat) : String :=
  let s := toString f
  String.mk (List.replicate (6 - s.length) '0') ++ s

/-- `fmt.Sprintf("%f", value)` on a finite float64. -/
def goFmtF (v : GoFloat) : String :=
  let scaled := roundHalfEven (v.num * 1000000) (2 ^ v.exp)
  (if v.neg then "-" else "") ++ toString (scaled / 1000000) ++ "." ++
    padSixDigits (scaled % 1000000)

/-- `strings.ReplaceAll(valueFmt, ".", "_")`. -/
def replaceDotWithUnderscore (s : String) : String :=
  s.map fun c => if c = '.' then '_' else c

/-- The objects a module can hold (`Module.Objects` entries).  Functions and
blocks appear both here and inside their owners in the Go pointer graph;
the embedding stores them by value and mirrors every mutation. -/
inductive SObject where
  | typeO (id : ID) (name : String) (ty : SType)
  | constBool (id : ID) (name : String) (typeId : ID) (value : Bool)
  | constInt (id : ID) (name : String) (typeId : ID) (value : Int)
  | constFloat (id : ID) (name : String) (typeId : ID) (value : GoFloat)
  | variableO (id : ID) (name : String) (ptrTypeId : ID) (storageClass : Int)
  | funcParamO (p : SFuncParam)
  | funcO (fn : SFunction)
  | blockO (b : SBlock)
  | runtimeValue (id : ID) (name : String) (typeId : ID)
  deriving DecidableEq, Repr

def SObject.objId : SObject → ID
  | .typeO i _ _ => i
  | .constBool i _ _ _ => i
  | .constInt i _ _ _ => i
  | .constFloat i _ _ _ => i
  | .variableO i _ _ _ => i
  | .funcParamO p => p.id
  | .funcO fn => fn.id
  | .blockO b => b.id
  | .runtimeValue i _ _ => i

def SObject.objName : SObject → String
  | .typeO _ n _ => n
  | .constBool _ n _ _ => n
  | .constInt _ n _ _ => n
  | .constFloat _ n _ _ => n
  | .variableO _ n _ _ => n
  | .funcParamO p => p.name
  | .funcO fn => fn.name
  | .blockO b => b.name
  | .runtimeValue _ n _ => n

/-- Objects implementing the `Type` interface. -/
def SObject.isType : SObject → Bool
  | .typeO .. => true
  | _ => false

/-- Objects implementing the `ConstantValue` interface. -/
def SObject.isConstantValue : SObject → Bool
  | .constBool .. => true
  | .constInt .. => true
  | .constFloat .. => true
  | _ => false

/-- The float64 payload of a `FloatConstant` object, if any. -/
def SObject.floatValue? : SObject → Option GoFloat
  | .constFloat _ _ _ v => some v
  | _ => none

/-- `Module` from the source: the id generator, the insertion-ordered object
list, and the three lookup maps (modelled as association lists whose most
recent binding is found first, matching Go map overwrite semantics). -/
structure SModule where
  idGenerator : Int
  objects : List SObject
  objectsByID : List (ID × Nat)
  typesByKey : List (String × Nat)
  constantsByKey : List (String × Nat)
  capabilities : List Int
  addressingModel : Int
  memoryModel : Int
  deriving DecidableEq, Repr

/-- `NewModule`. -/
def newModule (addressingModel memoryModel : Int) : SModule :=
  { idGenerator := 0, objects := [], objectsByID := [], typesByKey := [],
    constantsByKey := [], capabilities := [],
    addressingModel := addressingModel, memoryModel := memoryModel }

/-- `Module.NewID`. -/
def SModule.newID (m : SModule) : ID × SModule :=
  (m.idGenerator + 1, { m with idGenerator := m.idGenerator + 1 })

/-- `Module.GetObject`. -/
def SModule.getObject (m : SModule) (id : ID) : Option SObject :=
  match alistFind id m.objectsByID with
  | some index => m.objects[index]?
  | none => none

/-- `Module.addObject`. -/
def SModule.addObject (m : SModule) (obj : SObject) : SModule :=
  let index := m.objects.length
  let typesByKey :=
    if obj.isType then
      match obj with
      | .typeO _ _ ty => (ty.hashKey, index) :: m.typesByKey
      | _ => m.typesByKey
    else m.typesByKey
  let constantsByKey :=
    if obj.isConstantValue then (obj.objName, index) :: m.constantsByKey
    else m.constantsByKey
  { m with
    objects := m.objects ++ [obj],
    objectsByID := (obj.objId, index) :: m.objectsByID,
    typesByKey := typesByKey,
    constantsByKey := constantsByKey }

/-- `Module.AddCapability`: scan the list; return unchanged when the
capability is already present, otherwise append. -/
def SModule.addCapability (m : SModule) (cap : Int) : SModule :=
  if cap ∈ m.capabilities then m
  else { m with capabilities := m.capabilities ++ [cap] }

/-- `Module.RemoveObjects`: nil out the slot `objectsByID[id]` points at (a
missing key reads as Go's zero value `0`), drop the nil slots, and rebuild
the id index from the surviving objects. -/
def SModule.removeObjects (m : SModule) (ids : List ID) : SModule :=
  let marked : List (Option SObject) :=
    ids.foldl
      (fun objs id => objs.set ((alistFind id m.objectsByID).getD 0) none)
      (m.objects.map some)
  let objects := marked.filterMap id
  let objectsByID :=
    (objects.enum.foldl (fun acc p => (p.2.objId, p.1) :: acc) [])
  { m with objects := objects, objectsByID := objectsByID }

/-- The constant-pool key `fmt.Sprintf("const_%v_%v", t.HashKey(), valueName)`
computed by `InternFloatConstant`. -/
def floatConstKey (tBits : Int) (value : GoFloat) : String :=
  "const_" ++ SType.hashKey (.floatT tBits) ++ "_" ++
    replaceDotWithUnderscore (goFmtF value)

/-- `Module.InternFloatConstant`: key the constant by the `%f` rendering of
the value with `.` replaced by `_`; return the existing object on a key
hit, otherwise allocate, register, and return a fresh `FloatConstant`.
The Go code's `.(*FloatConstant)` assertion on the hit path is not
modelled; the raw object is returned. -/
def SModule.internFloatConstant (m : SModule) (value : GoFloat)
    (tId : ID) (tBits : Int) : Option SObject × SModule :=
  let key := floatConstKey tBits value
  match salistFind key m.constantsByKey with
  | some index => (m.objects[index]?, m)
  | none =>
    let (id, m1) := m.newID
    let constant : SObject := .constFloat id key tId value
    (some constant, m1.addObject constant)

/-- `Module.InternIntConstant`. -/
def SModule.internIntConstant (m : SModule) (value : Int)
    (tId : ID) (tBits : Int) (tSigned : Bool) : Option SObject × SModule :=
  let key := "const_" ++ SType.hashKey (.intT tBits tSigned) ++ "_" ++
    toString value
  match salistFind key m.constantsByKey with
  | some index => (m.objects[index]?, m)
  | none =>
    let (id, m1) := m.newID
    let constant : SObject := .constInt id key tId value
    (some constant, m1.addObject constant)

/-- `Module.InternPtr`: intern by hash key; on a miss allocate an id and
register a fresh pointer type object.  (The source names the object with
`TypeName()`, whose definition is not part of the snapshot; the name is
not observed by any claim and the hash key is used instead.) -/
def SModule.internPtr (m : SModule) (target : SType) (sc : Int) :
    (ID × SModule) :=
  let t : SType := .ptr target sc
  match salistFind t.hashKey m.typesByKey with
  | some index =>
    match m.objects[index]? with
    | some obj => (obj.objId, m)
    | none => (0, m)
  | none =>
    let (id, m1) := m.newID
    (id, m1.addObject (.typeO id t.hashKey t))

/-- `Module.InternInt`. -/
def SModule.internInt (m : SModule) (bitWidth : Int) (isSigned : Bool) :
    (ID × SModule) :=
  let t : SType := .intT bitWidth isSigned
  match salistFind t.hashKey m.typesByKey with
  | some index =>
    match m.objects[index]? with
    | some obj => (obj.objId, m)
    | none => (0, m)
  | none =>
    let (id, m1) := m.newID
    (id, m1.addObject (.typeO id t.hashKey t))

/-- `Module.NewVariable`. -/
def SModule.newVariable (m : SModule) (name : String) (ptrTypeId : ID)
    (sc : Int) : (ID × SModule) :=
  let (id, m1) := m.newID
  (id, m1.addObject (.variableO id name ptrTypeId sc))

end spirv

namespace spirv

/-- Truncate a Go integer to a 32-bit word (`Word(x)` conversions in
`BinaryPrinter.go`). -/
def intToWord (i : Int) : Nat := (i % (2 ^ 32)).toNat

/-- `BinaryPrinter.emitOp`: one instruction as its word group,
`(wordCount << 16) | opcode` followed by the operand words. -/
def binEmitOp (opcode : Nat) (operands : List Nat) : List Nat :=
  (((1 + operands.length) <<< 16 ||| opcode) % 2 ^ 32) :: operands

/-- `BinaryPrinter.emitCapabilities`: one `OpCapability` (opcode 17) word
group per entry of the module's capability list, in order. -/
def binEmitCapabilities (m : SModule) : List (List Nat) :=
  m.capabilities.map fun c => binEmitOp 17 [intToWord c]

/-- `AddCapability` leaves a list containing no duplicates when starting
from a fresh module. -/
theorem addCapability_foldl_nodup (addr mem : Int) (cs : List Int) :
    ((cs.foldl SModule.addCapability (newModule addr mem)).capabilities).Nodup := by
  have step : ∀ (m : SModule) (c : Int), m.capabilities.Nodup →
      (m.addCapability c).capabilities.Nodup := by
    intro m c h
    unfold SModule.addCapability
    split
    · exact h
    · next hmem =>
      simp only [List.nodup_append, List.nodup_cons, List.nodup_nil]
      exact ⟨h, by simp, by intro a ha hb; simp at hb; subst hb; exact hmem ha⟩
  have gen : ∀ (cs : List Int) (m : SModule), m.capabilities.Nodup →
      ((cs.foldl SModule.addCapability m).capabilities).Nodup := by
    intro cs
    induction cs with
    | nil => intro m h; simpa using h
    | cons c rest ih =>
      intro m h
      simpa using ih (m.addCapability c) (step m c h)
  exact gen cs _ (by simp [newModule])

end spirv

/-- C9: `Module.AddCapability` is idempotent — adding a capability already
present leaves the list unchanged — so a capability list built from a fresh
module by any sequence of `AddCapability` calls has no duplicates, each
capability occurs at most once, and the binary serializer emits exactly one
`OpCapability` word group per list entry (hence each capability is
serialized at most once). -/
theorem C9_addCapability_idempotent :
    (∀ (m : spirv.SModule) (c : Int), c ∈ m.capabilities →
        (m.addCapability c).capabilities = m.capabilities)
    ∧ (∀ (addr mem : Int) (cs : List Int) (c : Int),
        ((cs.foldl spirv.SModule.addCapability
            (spirv.newModule addr mem)).capabilities).count c ≤ 1)
    ∧ (∀ (m : spirv.SModule),
        spirv.binEmitCapabilities m =
          m.capabilities.map fun c => spirv.binEmitOp 17 [spirv.intToWord c]) := by
  refine ⟨?_, ?_, ?_⟩
  · intro m c h
    simp [spirv.SModule.addCapability, h]
  · intro addr mem cs c
    exact List.nodup_iff_count_le_one.mp
      (spirv.addCapability_foldl_nodup addr mem cs) c
  · intro m
    rfl

/-- Witness for C9 at a concrete module: capability `5` (Linkage) is already
present, and re-adding it leaves the list `[1, 5]` unchanged. -/
theorem C9_addCapability_idempotent_witness :
    (5 : Int) ∈ [(1 : Int), 5] ∧
    (spirv.SModule.addCapability
        { spirv.newModule 0 1 with capabilities := [1, 5] } 5).capabilities
      = [(1 : Int), 5] :=
  ⟨by decide,
   C9_addCapability_idempotent.1
     { spirv.newModule 0 1 with capabilities := [1, 5] } 5 (by decide)⟩

/-- C10: `InternFloatConstant` keys constants by the six-fractional-digit
`%f` rendering: two distinct float64 values with equal renderings share
one constant object — the second interning call returns the object created
by the first and leaves the module untouched, and no object holding the
second value is ever added. -/
theorem salistFind_cons_self {α : Type} (k : String) (v : α)
    (rest : List (String × α)) : salistFind k ((k, v) :: rest) = some v := by
  simp [salistFind]

theorem C10_internFloatConstant_keyed_by_fmt
    (m : spirv.SModule) (tId : spirv.ID) (tBits : Int)
    (v1 v2 : spirv.GoFloat)
    (hfmt : spirv.goFmtF v1 = spirv.goFmtF v2) (hne : v1 ≠ v2)
    (hclean : ∀ o ∈ m.objects, o.floatValue? ≠ some v2) :
    ((m.internFloatConstant v1 tId tBits).2.internFloatConstant v2 tId tBits).1
        = (m.internFloatConstant v1 tId tBits).1
    ∧ ((m.internFloatConstant v1 tId tBits).2.internFloatConstant v2 tId tBits).2
        = (m.internFloatConstant v1 tId tBits).2
    ∧ ∀ o ∈ ((m.internFloatConstant v1 tId tBits).2.internFloatConstant
          v2 tId tBits).2.objects, o.floatValue? ≠ some v2 := by
  have hkey : spirv.floatConstKey tBits v2 = spirv.floatConstKey tBits v1 := by
    simp [spirv.floatConstKey, hfmt]
  cases hfind : salistFind (spirv.floatConstKey tBits v1) m.constantsByKey with
  | some index =>
    refine ⟨?_, ?_, ?_⟩ <;>
      simp only [spirv.SModule.internFloatConstant, hkey, hfind]
    intro o ho
    exact hclean o ho
  | none =>
    set c1 : spirv.SObject :=
      .constFloat m.newID.1 (spirv.floatConstKey tBits v1) tId v1 with hc1
    set m1 : spirv.SModule := m.newID.2.addObject c1 with hm1
    have hco : m1.constantsByKey =
        (spirv.floatConstKey tBits v1, m.objects.length) :: m.constantsByKey := by
      simp [hm1, hc1, spirv.SModule.addObject, spirv.SObject.isConstantValue,
        spirv.SModule.newID, spirv.SObject.objName]
    have hobjs : m1.objects = m.objects ++ [c1] := by
      simp [hm1, spirv.SModule.addObject, spirv.SModule.newID]
    have hfind2 : salistFind (spirv.floatConstKey tBits v1) m1.constantsByKey
        = some m.objects.length := by
      rw [hco]; exact salistFind_cons_self _ _ _
    have hget : m1.objects[m.objects.length]? = some c1 := by
      rw [hobjs]
      rw [List.getElem?_append_right (Nat.le_refl _)]
      simp
    refine ⟨?_, ?_, ?_⟩ <;>
      simp only [spirv.SModule.internFloatConstant, hkey, hfind, hfind2, hget,
        ← hc1, ← hm1]
    intro o ho
    rw [hobjs] at ho
    rcases List.mem_append.mp ho with ho | ho
    · exact hclean o ho
    · rw [List.mem_singleton] at ho
      subst ho
      simp only [hc1, spirv.SObject.floatValue?, Option.some.injEq]
      intro hv
      exact hne (Option.some.inj hv)

/-- Witness for C10: `1 + 2^-30` and `1 + 2^-29` are distinct float64
values whose `%f` renderings are both `1.000000`; interning the second
returns the first's object and leaves the module unchanged. -/
theorem C10_internFloatConstant_keyed_by_fmt_witness :
    spirv.goFmtF ⟨false, 2 ^ 30 + 1, 30⟩ = spirv.goFmtF ⟨false, 2 ^ 29 + 1, 29⟩
    ∧ (⟨false, 2 ^ 30 + 1, 30⟩ : spirv.GoFloat) ≠ ⟨false, 2 ^ 29 + 1, 29⟩
    ∧ (((spirv.newModule 0 1).internFloatConstant ⟨false, 2 ^ 30 + 1, 30⟩ 1
          32).2.internFloatConstant ⟨false, 2 ^ 29 + 1, 29⟩ 1 32).1
        = ((spirv.newModule 0 1).internFloatConstant ⟨false, 2 ^ 30 + 1, 30⟩ 1
          32).1 :=
  ⟨by decide, by decide,
   (C10_internFloatConstant_keyed_by_fmt (spirv.newModule 0 1) 1 32
      ⟨false, 2 ^ 30 + 1, 30⟩ ⟨false, 2 ^ 29 + 1, 29⟩ (by decide) (by decide)
      (by simp [spirv.newModule])).1⟩

namespace compiler

/-- The checker's address modes (`AddressMode` in the source). -/
inductive AMode where
  | invalid | noValue | typeM | constant | variable | computedValue
  deriving DecidableEq, Repr

/-- The checker-side types the swizzle code touches: the builtin scalars and
the builtin vector singletons.  A `vector` carries the source singleton's
`UnderlyingType` field, `Width`, and `name` exactly as initialised in
`Type.go` — including the fact that the three `f64` vector singletons are
initialised with `UnderlyingType: BuiltinFloat32Type`. -/
inductive SabreType where
  | void | boolS | intS | uintS | float32S | float64S | stringS
  | vector (underlying : SabreType) (width : Nat) (name : String)
  deriving DecidableEq, Repr

def BuiltinF32x2 : SabreType := .vector .float32S 2 "f32x2"
def BuiltinF32x3 : SabreType := .vector .float32S 3 "f32x3"
def BuiltinF32x4 : SabreType := .vector .float32S 4 "f32x4"
def BuiltinF64x2 : SabreType := .vector .float32S 2 "f64x2"
def BuiltinF64x3 : SabreType := .vector .float32S 3 "f64x3"
def BuiltinF64x4 : SabreType := .vector .float32S 4 "f64x4"
def BuiltinI32x2 : SabreType := .vector .intS 2 "i32x2"
def BuiltinI32x3 : SabreType := .vector .intS 3 "i32x3"
def BuiltinI32x4 : SabreType := .vector .intS 4 "i32x4"
def BuiltinU32x2 : SabreType := .vector .uintS 2 "u32x2"
def BuiltinU32x3 : SabreType := .vector .uintS 3 "u32x3"
def BuiltinU32x4 : SabreType := .vector .uintS 4 "u32x4"
def BuiltinB32x2 : SabreType := .vector .boolS 2 "b32x2"
def BuiltinB32x3 : SabreType := .vector .boolS 3 "b32x3"
def BuiltinB32x4 : SabreType := .vector .boolS 4 "b32x4"

/-- `getStyle` from `resolveVectorSwizzle`: the style set of a swizzle
character, or the empty string for a character in no set. -/
def getStyle (r : Char) : String :=
  match r with
  | 'x' | 'y' | 'z' | 'w' => "xyzw"
  | 'r' | 'g' | 'b' | 'a' => "rgba"
  | 's' | 't' | 'q' | 'p' => "stqp"
  | _ => ""

/-- `inRange` from `resolveVectorSwizzle`: scan `style[0..numComponents-1]`
for the character.  Go indexes `style[i]` unconditionally, so when the
style string is shorter than `numComponents` (the empty style for an
unstyled first character) the loop panics — modelled as `none`. -/
def inRangeGo (style : List Char) (numComponents : Nat) (r : Char) :
    Option Bool :=
  match numComponents, style with
  | 0, _ => some false
  | _ + 1, [] => none
  | n + 1, c :: rest => if c = r then some true else inRangeGo rest n r

/-- The character loop of `isValidSwizzle`: every character must be in
range of the style set chosen by the first character. -/
def swizzleCharsOk (style : List Char) (numComponents : Nat) :
    List Char → Option Bool
  | [] => some true
  | c :: rest =>
    match inRangeGo style numComponents c with
    | none => none
    | some true => swizzleCharsOk style numComponents rest
    | some false => some false

/-- `isValidSwizzle`: non-empty, and every character in range of the first
character's style set.  There is no upper bound on the length. -/
def isValidSwizzle (swizzle : List Char) (numComponents : Nat) :
    Option Bool :=
  match swizzle with
  | [] => some false
  | first :: _ =>
    swizzleCharsOk (getStyle first).toList numComponents swizzle

/-- `getSwizzleResultType`: the component type at length 1; the builtin
vector singleton selected by the component type at lengths 2–4 (falling
through to `BuiltinVoidType` for other lengths); a panic (`none`) for a
non-builtin component type. -/
def getSwizzleResultType (componentType : SabreType) (swizzleLength : Nat) :
    Option SabreType :=
  if swizzleLength = 1 then some componentType
  else
    match componentType with
    | .float32S =>
      match swizzleLength with
      | 2 => some BuiltinF32x2
      | 3 => some BuiltinF32x3
      | 4 => some BuiltinF32x4
      | _ => some .void
    | .float64S =>
      match swizzleLength with
      | 2 => some BuiltinF64x2
      | 3 => some BuiltinF64x3
      | 4 => some BuiltinF64x4
      | _ => some .void
    | .intS =>
      match swizzleLength with
      | 2 => some BuiltinI32x2
      | 3 => some BuiltinI32x3
      | 4 => some BuiltinI32x4
      | _ => some .void
    | .uintS =>
      match swizzleLength with
      | 2 => some BuiltinU32x2
      | 3 => some BuiltinU32x3
      | 4 => some BuiltinU32x4
      | _ => some .void
    | .boolS =>
      match swizzleLength with
      | 2 => some BuiltinB32x2
      | 3 => some BuiltinB32x3
      | 4 => some BuiltinB32x4
      | _ => some .void
    | _ => none

/-- Result of `Checker.resolveVectorSwizzle`: the `TypeAndValue` produced,
plus the error appended to the unit, if any. -/
structure SwizzleOutcome where
  mode : AMode
  type : SabreType
  errorMsg : Option String
  deriving DecidableEq, Repr

/-- `Checker.resolveVectorSwizzle` on a base of vector type with the given
`UnderlyingType` field, `Width`, and printed name.  `none` models the two
panic sites (`style[i]` out of range, unexpected component type). -/
def resolveVectorSwizzle (swizzle : String) (underlying : SabreType)
    (width : Nat) (vecName : String) : Option SwizzleOutcome :=
  match isValidSwizzle swizzle.toList width with
  | none => none
  | some false =>
    some { mode := .invalid, type := .void,
           errorMsg := some ("invalid swizzle '" ++ swizzle ++ "' for " ++
             toString width ++ "-component vector '" ++ vecName ++ "'") }
  | some true =>
    match getSwizzleResultType underlying swizzle.toList.length with
    | none => none
    | some t => some { mode := .computedValue, type := t, errorMsg := none }

end compiler

namespace compiler

/-- The `inRange` scan decides membership in the first `w` characters of
the style, provided the style is long enough (no panic). -/
theorem inRangeGo_eq (style : List Char) (w : Nat) (c : Char)
    (h : w ≤ style.length) :
    inRangeGo style w c = some (decide (c ∈ style.take w)) := by
  induction w generalizing style with
  | zero => simp [inRangeGo]
  | succ n ih =>
    cases style with
    | nil => simp at h
    | cons d rest =>
      by_cases hdc : d = c
      · subst hdc
        simp [inRangeGo]
      · simp only [inRangeGo, if_neg hdc]
        rw [ih rest (by simpa using h)]
        simp [List.mem_cons, hdc, Ne.symm hdc]

/-- The character loop decides that every character lies in the first `w`
characters of the style. -/
theorem swizzleCharsOk_eq (style : List Char) (w : Nat) (l : List Char)
    (h : w ≤ style.length) :
    swizzleCharsOk style w l = some (decide (∀ c ∈ l, c ∈ style.take w)) := by
  induction l with
  | nil => simp [swizzleCharsOk]
  | cons ch rest ih =>
    simp only [swizzleCharsOk]
    rw [inRangeGo_eq style w ch h]
    by_cases hch : ch ∈ style.take w
    · rw [ih]
      simp only [decide_eq_true_eq] at *
      by_cases hrest : ∀ c ∈ rest, c ∈ style.take w
      · simp [hch, hrest]
      · simp [hch, hrest]
    · simp [hch]

/-- `getStyle` yields one of the three four-character style strings or the
empty string. -/
theorem getStyle_cases (c : Char) :
    getStyle c = "" ∨ getStyle c = "xyzw" ∨ getStyle c = "rgba" ∨
      getStyle c = "stqp" := by
  unfold getStyle
  split <;> simp

end compiler

/-- C5 counterexample: the selector `xxxxx` on the four-component vector
`f32x4` is five characters long — violating the claimed 1..4 length
condition — yet the checker accepts it without any error, producing a
computed value of type void. -/
theorem C5_swizzle_counterexample :
    "xxxxx".toList.length = 5 ∧
    compiler.resolveVectorSwizzle "xxxxx" .float32S 4 "f32x4"
      = some { mode := .computedValue, type := .void, errorMsg := none } := by
  constructor
  · rfl
  · rfl

/-- C5 amended: for a vector selector whose first character belongs to a
style set (widths are 2–4 in practice, `w ≤ 4` suffices), the checker
panics on nothing and accepts the selector exactly when every character
lies within the first `w` characters of that style set — with no upper
bound on the selector length.  Accepted selectors yield a computed value
whose type is the vector's recorded `UnderlyingType` field at length 1
(for the builtin `f64` vectors that field is `float32`), some builtin
vector singleton of matching width at lengths 2–4, and void at length 5 or
more.  Rejected selectors yield an invalid void result and one error whose
message starts with "invalid swizzle". -/
theorem C5_swizzle_amended (s : String) (u : compiler.SabreType) (w : Nat)
    (nm : String) (hw : w ≤ 4)
    (hu : u = .float32S ∨ u = .float64S ∨ u = .intS ∨ u = .uintS ∨
      u = .boolS)
    (hfirst : ∃ c rest, s.toList = c :: rest ∧ compiler.getStyle c ≠ "") :
    ∃ o, compiler.resolveVectorSwizzle s u w nm = some o ∧
      (o.errorMsg = none ↔
        ∀ ch ∈ s.toList,
          ch ∈ (compiler.getStyle s.toList.head!).toList.take w) ∧
      (o.errorMsg = none →
        o.mode = .computedValue ∧
        (s.toList.length = 1 → o.type = u) ∧
        (2 ≤ s.toList.length → s.toList.length ≤ 4 →
          ∃ comp nm2, o.type = .vector comp s.toList.length nm2) ∧
        (5 ≤ s.toList.length → o.type = .void)) ∧
      (o.errorMsg ≠ none →
        o.mode = .invalid ∧ o.type = .void ∧
        ∃ r, o.errorMsg = some ("invalid swizzle" ++ r)) := by
  obtain ⟨c, rest, hs, hstyle⟩ := hfirst
  have hlen4 : (compiler.getStyle c).toList.length = 4 := by
    rcases compiler.getStyle_cases c with h | h | h | h
    · exact absurd h hstyle
    all_goals rw [h]; rfl
  have hwle : w ≤ (compiler.getStyle c).toList.length := by omega
  have hvalid : compiler.isValidSwizzle (c :: rest) w
      = some (decide (∀ ch ∈ c :: rest,
          ch ∈ (compiler.getStyle c).toList.take w)) := by
    show compiler.swizzleCharsOk (compiler.getStyle c).toList w (c :: rest) = _
    exact compiler.swizzleCharsOk_eq _ _ _ hwle
  have hhead : (c :: rest).head! = c := rfl
  unfold compiler.resolveVectorSwizzle
  rw [hs, hvalid, hhead]
  by_cases hP : ∀ ch ∈ c :: rest, ch ∈ (compiler.getStyle c).toList.take w
  · have hPd : decide (∀ ch ∈ c :: rest,
        ch ∈ (compiler.getStyle c).toList.take w) = true := decide_eq_true hP
    rw [hPd]
    have hres : ∃ t, compiler.getSwizzleResultType u (c :: rest).length
        = some t ∧
        ((c :: rest).length = 1 → t = u) ∧
        (2 ≤ (c :: rest).length → (c :: rest).length ≤ 4 →
          ∃ comp nm2, t = .vector comp (c :: rest).length nm2) ∧
        (5 ≤ (c :: rest).length → t = .void) := by
      rcases hnv : (c :: rest).length with _ | (_ | (_ | (_ | (_ | m))))
      · simp at hnv
      · exact ⟨u, rfl, fun _ => rfl, by omega, by omega⟩
      · rcases hu with hu | hu | hu | hu | hu <;> subst hu <;>
          exact ⟨_, rfl, by omega, fun _ _ => ⟨_, _, rfl⟩, by omega⟩
      · rcases hu with hu | hu | hu | hu | hu <;> subst hu <;>
          exact ⟨_, rfl, by omega, fun _ _ => ⟨_, _, rfl⟩, by omega⟩
      · rcases hu with hu | hu | hu | hu | hu <;> subst hu <;>
          exact ⟨_, rfl, by omega, fun _ _ => ⟨_, _, rfl⟩, by omega⟩
      · refine ⟨.void, ?_, by omega, by omega, fun _ => rfl⟩
        rcases hu with hu | hu | hu | hu | hu <;> subst hu <;> rfl
    obtain ⟨t, ht, ht1, ht24, ht5⟩ := hres
    rw [ht]
    refine ⟨_, rfl, ?_, ?_, ?_⟩
    · exact iff_of_true rfl hP
    · intro _
      exact ⟨rfl, ht1, ht24, ht5⟩
    · intro hcontra
      exact absurd rfl hcontra
  · have hPd : decide (∀ ch ∈ c :: rest,
        ch ∈ (compiler.getStyle c).toList.take w) = false := by
      simpa using hP
    rw [hPd]
    refine ⟨_, rfl, ?_, ?_, ?_⟩
    · simp only [Option.some_ne_none, false_iff]
      exact hP
    · intro h
      simp at h
    · intro _
      refine ⟨rfl, rfl, ?_⟩
      refine ⟨" '" ++ s ++ "' for " ++ toString w ++ "-component vector '" ++
        nm ++ "'", ?_⟩
      have hlit : ("invalid swizzle" ++ " '" : String) = "invalid swizzle '" := by
        decide
      simp only [Option.some.injEq, ← String.append_assoc, hlit]

/-- Witness for the amended C5 at the selector `xy` on `f32x4`. -/
theorem C5_swizzle_amended_witness :
    (4 ≤ 4) ∧
    ("xy".toList = 'x' :: ['y'] ∧ compiler.getStyle 'x' ≠ "") ∧
    (∃ o, compiler.resolveVectorSwizzle "xy" .float32S 4 "f32x4" = some o ∧
      (o.errorMsg = none ↔
        ∀ ch ∈ "xy".toList,
          ch ∈ (compiler.getStyle "xy".toList.head!).toList.take 4) ∧
      (o.errorMsg = none →
        o.mode = .computedValue ∧
        ("xy".toList.length = 1 → o.type = .float32S) ∧
        (2 ≤ "xy".toList.length → "xy".toList.length ≤ 4 →
          ∃ comp nm2, o.type = .vector comp "xy".toList.length nm2) ∧
        (5 ≤ "xy".toList.length → o.type = .void)) ∧
      (o.errorMsg ≠ none →
        o.mode = .invalid ∧ o.type = .void ∧
        ∃ r, o.errorMsg = some ("invalid swizzle" ++ r))) :=
  ⟨by decide, ⟨by decide, by decide⟩,
   C5_swizzle_amended "xy" .float32S 4 "f32x4" (by decide) (Or.inl rfl)
     ⟨'x', ['y'], by decide, by decide⟩⟩

namespace compiler

/-- Constant or identifier initialisers of the global `const` declarations
exercised by the resolver claims. -/
inductive CExpr where
  | lit (n : Int)
  | identE (name : String)
  deriving DecidableEq, Repr

/-- One global declaration `const <name> int = <rhs>`. -/
structure CDecl where
  name : String
  rhs : CExpr
  deriving DecidableEq, Repr

/-- `ResolveState` from the source. -/
inductive RState where
  | unresolved | resolving | resolved
  deriving DecidableEq, Repr

/-- A `ConstSymbol` in the global scope: name, resolve state, and its
initialiser expression (standing in for `SpecIndex`/`ExprIndex`). -/
structure CSym where
  name : String
  state : RState
  rhs : CExpr
  deriving DecidableEq, Repr

/-- `TypeAndValue` restricted to this fragment: the type is either
`BuiltinIntType` (`typeIsInt = true`) or `BuiltinVoidType`. -/
structure CTAV where
  mode : AMode
  typeIsInt : Bool
  value : Option Int
  deriving DecidableEq, Repr

/-- `&TypeAndValue{Mode: AddressModeInvalid, Type: BuiltinVoidType}`. -/
def invalidTAV : CTAV := ⟨.invalid, false, none⟩

/-- The checker state the resolver claims observe: the global scope's
insertion-ordered symbol list, the `typeOf` side table keyed by symbol,
`reachableSymbols` (as names), and the unit's error-message list. -/
structure CheckState where
  symbols : List CSym
  typeOf : List (String × CTAV)
  reachable : List String
  errors : List String
  deriving DecidableEq, Repr

/-- `Scope.ShallowFind`/`Find` in the single global scope. -/
def findSym (name : String) : List CSym → Option CSym
  | [] => none
  | sym :: rest => if sym.name = name then some sym else findSym name rest

/-- `Symbol.SetResolveState` through the shared symbol pointer: update the
named symbol's state in place. -/
def setSymState (name : String) (st' : RState) (syms : List CSym) :
    List CSym :=
  syms.map fun sym => if sym.name = name then { sym with state := st' } else sym

/-- `Checker.resolveExpr` on this fragment: int literals are `int`
constants; identifiers are looked up in scope and resolved.  The mutual
recursion back into `resolveSymbol` is supplied as `recur`. -/
def resolveExprCBody
    (recur : String → CheckState → CTAV × CheckState) :
    CExpr → CheckState → CTAV × CheckState
  | .lit n, st => (⟨.constant, true, some n⟩, st)
  | .identE x, st =>
    match findSym x st.symbols with
    | none =>
      (invalidTAV, { st with errors := st.errors ++ ["undeclared identifier"] })
    | some _ => recur x st

/-- `Checker.resolveConstSymbol` for a single-expression spec with declared
type `int`: resolve the initialiser, require a constant, then require the
declared type to equal the initialiser's type. -/
def resolveConstSymbolBody
    (recur : String → CheckState → CTAV × CheckState)
    (rhs : CExpr) (st : CheckState) : CTAV × CheckState :=
  let r := resolveExprCBody recur rhs st
  if r.1.mode ≠ .constant then
    (invalidTAV,
     { r.2 with errors := r.2.errors ++
         ["constant declaration requires a constant expression"] })
  else if r.1.typeIsInt = false then
    (invalidTAV,
     { r.2 with errors := r.2.errors ++
         ["type mismatch in constant declaration"] })
  else
    (⟨.constant, true, r.1.value⟩, r.2)

/-- `Checker.resolveSymbol` for global `ConstSymbol`s.  Go's unbounded
mutual recursion is modelled with fuel; the three-state machine bounds the
true depth by the number of symbols, so `Check`'s fuel never runs out. -/
def resolveSymbol : Nat → String → CheckState → CTAV × CheckState
  | 0, _, st => (invalidTAV, st)
  | fuel + 1, name, st =>
    match findSym name st.symbols with
    | none => (invalidTAV, st)
    | some sym =>
      if sym.state = .resolved then
        ((salistFind name st.typeOf).getD invalidTAV, st)
      else if sym.state = .resolving then
        (invalidTAV,
         { st with errors := st.errors ++
             ["symbol " ++ name ++ " has a cyclic dependency"] })
      else
        let st1 := { st with symbols := setSymState name .resolving st.symbols }
        let r2 := resolveConstSymbolBody (resolveSymbol fuel) sym.rhs st1
        let st3 := { r2.2 with
          symbols := setSymState name .resolved r2.2.symbols }
        (r2.1,
         { st3 with typeOf := (name, r2.1) :: st3.typeOf,
                    reachable := st3.reachable ++ [name] })

/-- `Checker.addSymbol`: report a redefinition, otherwise append to the
scope's ordered symbol list. -/
def addSymbolC (st : CheckState) (d : CDecl) : CheckState :=
  match findSym d.name st.symbols with
  | some _ =>
    { st with errors := st.errors ++
        ["symbol '" ++ d.name ++ "' redefinition"] }
  | none =>
    { st with symbols := st.symbols ++ [⟨d.name, .unresolved, d.rhs⟩] }

/-- Phase A (`Checker.shallowWalk`) on const-only globals. -/
def shallowWalk (decls : List CDecl) : CheckState :=
  decls.foldl addSymbolC ⟨[], [], [], []⟩

/-- `Checker.Check`: shallow-walk, then resolve every global symbol in
declaration order. -/
def check (decls : List CDecl) : CheckState :=
  let st := shallowWalk decls
  (st.symbols.map (·.name)).foldl
    (fun acc nm => (resolveSymbol (st.symbols.length + 1) nm acc).2) st

end compiler

/-- C6: whenever `resolveSymbol` meets a symbol in the `Resolving` state it
appends exactly one error — whose message contains "cyclic dependency" —
to the unit's error list and returns the invalid/void `TypeAndValue`
without dispatching to any kind-specific resolution; in particular the
program `const a int = b; const b int = a` yields a first error on `a`
reading "symbol a has a cyclic dependency". -/
theorem C6_resolveSymbol_cyclic :
    (∀ (fuel : Nat) (name : String) (st : compiler.CheckState)
        (sym : compiler.CSym),
      compiler.findSym name st.symbols = some sym →
      sym.state = .resolving →
      compiler.resolveSymbol (fuel + 1) name st =
        (compiler.invalidTAV,
         { st with errors := st.errors ++
             ["symbol " ++ name ++ " has a cyclic dependency"] }) ∧
      ∃ l r, ("symbol " ++ name ++ " has a cyclic dependency" : String)
        = l ++ ("cyclic dependency" ++ r))
    ∧ (compiler.check [⟨"a", .identE "b"⟩, ⟨"b", .identE "a"⟩]).errors.head?
        = some "symbol a has a cyclic dependency" := by
  constructor
  · intro fuel name st sym hfind hstate
    have h1 : ¬(sym.state = .resolved) := by rw [hstate]; decide
    constructor
    · simp only [compiler.resolveSymbol, hfind]
      rw [if_neg h1, if_pos hstate]
    · refine ⟨"symbol " ++ name ++ " has a ", "", ?_⟩
      have h2 : ("cyclic dependency" ++ "" : String) = "cyclic dependency" := by
        decide
      have h3 : (" has a " ++ "cyclic dependency" : String)
          = " has a cyclic dependency" := by decide
      rw [h2, String.append_assoc ("symbol " ++ name) " has a "
        "cyclic dependency", h3]
  · decide

/-- Witness for C6 at a concrete state whose symbol `a` is `Resolving`. -/
theorem C6_resolveSymbol_cyclic_witness :
    compiler.findSym "a"
        (compiler.CheckState.symbols
          ⟨[⟨"a", .resolving, .identE "b"⟩], [], [], []⟩)
      = some ⟨"a", .resolving, .identE "b"⟩ ∧
    (⟨"a", .resolving, .identE "b"⟩ : compiler.CSym).state = .resolving ∧
    (compiler.resolveSymbol 1 "a" ⟨[⟨"a", .resolving, .identE "b"⟩], [], [], []⟩
      = (compiler.invalidTAV,
         { (⟨[⟨"a", .resolving, .identE "b"⟩], [], [], []⟩ :
              compiler.CheckState) with
           errors := ([] : List String) ++
             ["symbol " ++ "a" ++ " has a cyclic dependency"] }) ∧
      ∃ l r, ("symbol " ++ "a" ++ " has a cyclic dependency" : String)
        = l ++ ("cyclic dependency" ++ r)) :=
  ⟨by decide, by decide,
   C6_resolveSymbol_cyclic.1 0 "a" ⟨[⟨"a", .resolving, .identE "b"⟩], [], [], []⟩
     ⟨"a", .resolving, .identE "b"⟩ (by decide) rfl⟩

/-- C8 counterexample: the program `const a int = b; const b int = 2` has no
cyclic dependency (the checker reports no error), yet `reachableSymbols`
is `[b, a]`, not the source declaration order `[a, b]`: `a`'s resolution
completes only after it has resolved `b`. -/
theorem C8_reachable_counterexample :
    (compiler.check [⟨"a", .identE "b"⟩, ⟨"b", .lit 2⟩]).errors = [] ∧
    (compiler.check [⟨"a", .identE "b"⟩, ⟨"b", .lit 2⟩]).reachable
      = ["b", "a"] ∧
    ([⟨"a", compiler.CExpr.identE "b"⟩,
      ⟨"b", compiler.CExpr.lit 2⟩].map compiler.CDecl.name) = ["a", "b"] ∧
    (["b", "a"] : List String) ≠ ["a", "b"] := by
  refine ⟨by decide, by decide, by decide, by decide⟩

namespace compiler

theorem findSym_eq_none_iff (n : String) (l : List CSym) :
    findSym n l = none ↔ ∀ s ∈ l, ¬(s.name = n) := by
  induction l with
  | nil => simp [findSym]
  | cons s rest ih =>
    by_cases h : s.name = n
    · simp [findSym, h]
    · simp [findSym, h, ih]

theorem findSym_append_left {n : String} {l1 : List CSym} {s : CSym}
    (l2 : List CSym) (h : findSym n l1 = some s) :
    findSym n (l1 ++ l2) = some s := by
  induction l1 with
  | nil => simp [findSym] at h
  | cons t rest ih =>
    by_cases ht : t.name = n
    · simp [findSym, ht] at h ⊢
      exact h
    · simp [findSym, ht] at h ⊢
      exact ih h

theorem findSym_append_right {n : String} {l1 : List CSym}
    (l2 : List CSym) (h : findSym n l1 = none) :
    findSym n (l1 ++ l2) = findSym n l2 := by
  induction l1 with
  | nil => simp
  | cons t rest ih =>
    by_cases ht : t.name = n
    · simp [findSym, ht] at h
    · simp [findSym, ht] at h ⊢
      exact ih h

theorem setSymState_of_not_mem {n : String} {l : List CSym}
    (st' : RState) (h : ∀ s ∈ l, ¬(s.name = n)) :
    setSymState n st' l = l := by
  induction l with
  | nil => rfl
  | cons t rest ih =>
    simp only [setSymState, List.map_cons]
    rw [if_neg (h t (by simp))]
    have := ih (fun s hs => h s (by simp [hs]))
    simp only [setSymState] at this
    rw [this]

theorem salistFind_cons_ne {α : Type} {k k' : String} (v : α)
    (l : List (String × α)) (h : ¬(k' = k)) :
    salistFind k ((k', v) :: l) = salistFind k l := by
  simp [salistFind, h]

end compiler

namespace compiler

theorem findSym_some_of_mem {n : String} {l : List CSym}
    (h : ∃ s ∈ l, s.name = n) :
    ∃ s, findSym n l = some s ∧ s ∈ l ∧ s.name = n := by
  induction l with
  | nil => simp at h
  | cons t rest ih =>
    by_cases ht : t.name = n
    · exact ⟨t, by simp [findSym, ht], by simp, ht⟩
    · obtain ⟨s, hs, hn⟩ := h
      rcases List.mem_cons.mp hs with rfl | hs
      · exact absurd hn ht
      · obtain ⟨s', h1, h2, h3⟩ := ih ⟨s, hs, hn⟩
        exact ⟨s', by simp [findSym, ht, h1], by simp [h2], h3⟩

/-- `ConstSymbol`s as `shallowWalk` creates them. -/
def toSymU (d : CDecl) : CSym := ⟨d.name, .unresolved, d.rhs⟩

/-- The same symbols once resolved. -/
def toSymR (d : CDecl) : CSym := ⟨d.name, .resolved, d.rhs⟩

/-- Invariant of `Check`'s resolution loop on a forward-reference-free
const program: after `k` completions the first `k` symbols are resolved
with interned constant `int` types, `reachableSymbols` lists exactly those
`k` symbols in declaration order, and no error has been reported. -/
def ResolveInv (decls : List CDecl) (k : Nat) (st : CheckState) : Prop :=
  st.symbols = (decls.take k).map toSymR ++ (decls.drop k).map toSymU
  ∧ (∀ d ∈ decls.take k, ∃ tav, salistFind d.name st.typeOf = some tav ∧
      tav.mode = .constant ∧ tav.typeIsInt = true)
  ∧ st.reachable = (decls.take k).map CDecl.name
  ∧ st.errors = []

theorem setSymState_append (n : String) (s : RState) (l1 l2 : List CSym) :
    setSymState n s (l1 ++ l2) = setSymState n s l1 ++ setSymState n s l2 := by
  simp [setSymState]

theorem setSymState_cons (n : String) (s : RState) (x : CSym)
    (xs : List CSym) :
    setSymState n s (x :: xs)
      = (if x.name = n then { x with state := s } else x) :: setSymState n s xs := by
  simp [setSymState]

theorem resolveSymbol_step (decls : List CDecl)
    (hnd : (decls.map CDecl.name).Nodup)
    (hord : ∀ (i : Nat) (hi : i < decls.length) (x : String),
      (decls.get ⟨i, hi⟩).rhs = .identE x →
      x ∈ (decls.take i).map CDecl.name)
    (k : Nat) (hk : k < decls.length) (fuel : Nat)
    (st : CheckState) (hinv : ResolveInv decls k st) :
    ResolveInv decls (k + 1)
      (resolveSymbol (fuel + 2) (decls.get ⟨k, hk⟩).name st).2 := by
  obtain ⟨hsym, htype, hreach, herr⟩ := hinv
  set d := decls.get ⟨k, hk⟩ with hd
  have hdrop : decls.drop k = d :: decls.drop (k + 1) :=
    List.drop_eq_getElem_cons hk
  have htake : decls.take (k + 1) = decls.take k ++ [d] := by
    rw [List.take_succ]
    simp [List.getElem?_eq_getElem hk, hd]
  have hsplit : decls.map CDecl.name
      = (decls.take k).map CDecl.name
        ++ (d.name :: (decls.drop (k + 1)).map CDecl.name) := by
    conv_lhs => rw [← List.take_append_drop k decls]
    rw [hdrop]
    simp
  have hnd' := hsplit ▸ hnd
  rw [List.nodup_append] at hnd'
  have hA : d.name ∉ (decls.take k).map CDecl.name := by
    intro hmem
    exact hnd'.2.2 hmem (by simp)
  have hB : d.name ∉ (decls.drop (k + 1)).map CDecl.name := by
    have := hnd'.2.1
    rw [List.nodup_cons] at this
    exact this.1
  have hRnone : findSym d.name ((decls.take k).map toSymR) = none := by
    rw [findSym_eq_none_iff]
    intro s hs he
    obtain ⟨d', hd', rfl⟩ := List.mem_map.mp hs
    exact hA (List.mem_map.mpr ⟨d', hd', he⟩)
  have hfind : findSym d.name st.symbols = some (toSymU d) := by
    rw [hsym, findSym_append_right _ hRnone, hdrop]
    simp [findSym, toSymU]
  have hnotR : ∀ s ∈ (decls.take k).map toSymR, ¬(s.name = d.name) := by
    intro s hs he
    obtain ⟨d', hd', rfl⟩ := List.mem_map.mp hs
    exact hA (List.mem_map.mpr ⟨d', hd', he⟩)
  have hnotU : ∀ s ∈ (decls.drop (k + 1)).map toSymU, ¬(s.name = d.name) := by
    intro s hs he
    obtain ⟨d', hd', rfl⟩ := List.mem_map.mp hs
    exact hB (List.mem_map.mpr ⟨d', hd', he⟩)
  have hsym1 : setSymState d.name RState.resolving st.symbols
      = (decls.take k).map toSymR
        ++ (⟨d.name, .resolving, d.rhs⟩ :: (decls.drop (k + 1)).map toSymU) := by
    rw [hsym, hdrop, setSymState_append,
      setSymState_of_not_mem _ hnotR, List.map_cons, setSymState_cons,
      setSymState_of_not_mem _ hnotU, if_pos (by simp [toSymU])]
    simp [toSymU]
  have hbody : ∃ v,
      resolveConstSymbolBody (resolveSymbol (fuel + 1)) d.rhs
        { st with symbols := setSymState d.name RState.resolving st.symbols }
      = (⟨.constant, true, v⟩,
         { st with symbols := setSymState d.name RState.resolving st.symbols }) := by
    cases hrhs : d.rhs with
    | lit n =>
      refine ⟨some n, ?_⟩
      simp [resolveConstSymbolBody, resolveExprCBody]
    | identE x =>
      have hx : x ∈ (decls.take k).map CDecl.name := hord k hk x (hd ▸ hrhs)
      obtain ⟨dx, hdx, hdxn⟩ := List.mem_map.mp hx
      have hfx : ∃ s, findSym x ((decls.take k).map toSymR) = some s ∧
          s ∈ (decls.take k).map toSymR ∧ s.name = x :=
        findSym_some_of_mem ⟨toSymR dx, List.mem_map.mpr ⟨dx, hdx, rfl⟩, hdxn⟩
      obtain ⟨s, hs1, hs2, hs3⟩ := hfx
      obtain ⟨dx', hdx', rfl⟩ := List.mem_map.mp hs2
      have hfx1 : findSym x (setSymState d.name RState.resolving st.symbols)
          = some (toSymR dx') := by
        rw [hsym1]
        exact findSym_append_left _ hs1
      obtain ⟨tav, htav1, htav2, htav3⟩ := htype dx' hdx'
      have htav1' : salistFind x st.typeOf = some tav := by
        rw [← hs3]
        exact htav1
      have hrec : resolveSymbol (fuel + 1) x
          { st with symbols := setSymState d.name RState.resolving st.symbols }
          = (tav,
             { st with
               symbols := setSymState d.name RState.resolving st.symbols }) := by
        simp only [resolveSymbol, hfx1]
        rw [if_pos (by simp [toSymR])]
        simp [htav1']
      refine ⟨tav.value, ?_⟩
      simp only [resolveConstSymbolBody, resolveExprCBody, hfx1, hrec]
      have hmode : ¬(tav.mode ≠ AMode.constant) := by simp [htav2]
      rw [if_neg hmode, if_neg (by simp [htav3])]
  obtain ⟨v, hbody⟩ := hbody
  have hmain : resolveSymbol (fuel + 2) d.name st
      = ((⟨.constant, true, v⟩ : CTAV),
         { symbols := setSymState d.name RState.resolved
             (setSymState d.name RState.resolving st.symbols),
           typeOf := (d.name, (⟨.constant, true, v⟩ : CTAV)) :: st.typeOf,
           reachable := st.reachable ++ [d.name],
           errors := st.errors }) := by
    rw [show fuel + 2 = (fuel + 1) + 1 from rfl, resolveSymbol.eq_2, hfind]
    simp only [toSymU]
    rw [hbody]
    rfl
  rw [hmain]
  refine ⟨?_, ?_, ?_, ?_⟩
  · show setSymState d.name RState.resolved
      (setSymState d.name RState.resolving st.symbols)
      = (decls.take (k + 1)).map toSymR ++ (decls.drop (k + 1)).map toSymU
    rw [hsym1, setSymState_append, setSymState_of_not_mem _ hnotR,
      setSymState_cons, setSymState_of_not_mem _ hnotU, if_pos rfl, htake]
    simp [toSymR]
  · intro d' hd'
    rw [htake] at hd'
    rcases List.mem_append.mp hd' with hd' | hd'
    · obtain ⟨tav, h1, h2, h3⟩ := htype d' hd'
      refine ⟨tav, ?_, h2, h3⟩
      show salistFind d'.name ((d.name, (⟨.constant, true, v⟩ : CTAV))
        :: st.typeOf) = some tav
      rw [salistFind_cons_ne]
      · exact h1
      · intro he
        exact hA (he ▸ List.mem_map.mpr ⟨d', hd', rfl⟩)
    · rw [List.mem_singleton] at hd'
      subst hd'
      exact ⟨⟨.constant, true, v⟩, by simp [salistFind], rfl, rfl⟩
  · show st.reachable ++ [d.name] = (decls.take (k + 1)).map CDecl.name
    rw [hreach, htake]
    simp
  · exact herr

theorem foldl_addSymbolC (decls : List CDecl) (syms0 : List CSym)
    (t : List (String × CTAV)) (r e : List String)
    (hdis : ∀ d ∈ decls, ∀ s ∈ syms0, ¬(s.name = d.name))
    (hnd : (decls.map CDecl.name).Nodup) :
    decls.foldl addSymbolC ⟨syms0, t, r, e⟩
      = ⟨syms0 ++ decls.map toSymU, t, r, e⟩ := by
  induction decls generalizing syms0 with
  | nil => simp
  | cons d rest ih =>
    have hnone : findSym d.name syms0 = none := by
      rw [findSym_eq_none_iff]
      intro s hs
      exact hdis d (by simp) s hs
    have hstep : addSymbolC ⟨syms0, t, r, e⟩ d
        = ⟨syms0 ++ [toSymU d], t, r, e⟩ := by
      simp [addSymbolC, hnone, toSymU]
    rw [List.foldl_cons, hstep]
    rw [List.map_cons, List.nodup_cons] at hnd
    have hdis' : ∀ d' ∈ rest, ∀ s ∈ syms0 ++ [toSymU d], ¬(s.name = d'.name) := by
      intro d' hd' s hs he
      rcases List.mem_append.mp hs with hs | hs
      · exact hdis d' (by simp [hd']) s hs he
      · rw [List.mem_singleton] at hs
        subst hs
        refine hnd.1 ?_
        rw [show d.name = d'.name from he]
        exact List.mem_map.mpr ⟨d', hd', rfl⟩
    rw [ih (syms0 ++ [toSymU d]) hdis' hnd.2]
    simp

theorem shallowWalk_eq (decls : List CDecl)
    (hnd : (decls.map CDecl.name).Nodup) :
    shallowWalk decls = ⟨decls.map toSymU, [], [], []⟩ := by
  unfold shallowWalk
  rw [foldl_addSymbolC decls [] [] [] [] (by simp) hnd]
  simp

theorem check_loop_inv (decls : List CDecl)
    (hnd : (decls.map CDecl.name).Nodup)
    (hord : ∀ (i : Nat) (hi : i < decls.length) (x : String),
      (decls.get ⟨i, hi⟩).rhs = .identE x →
      x ∈ (decls.take i).map CDecl.name) :
    ∀ (r k : Nat), k + r = decls.length →
      ∀ st, ResolveInv decls k st →
      ResolveInv decls decls.length
        (((decls.map CDecl.name).drop k).foldl
          (fun acc nm => (resolveSymbol (decls.length + 1) nm acc).2) st) := by
  intro r
  induction r with
  | zero =>
    intro k hkr st hinv
    have hk : k = decls.length := by omega
    subst hk
    rw [List.drop_eq_nil_of_le (by simp)]
    simpa using hinv
  | succ r ih =>
    intro k hkr st hinv
    have hk : k < decls.length := by omega
    have hdropn : (decls.map CDecl.name).drop k
        = (decls.get ⟨k, hk⟩).name :: (decls.map CDecl.name).drop (k + 1) := by
      rw [List.drop_eq_getElem_cons (by simp [hk])]
      simp
    rw [hdropn, List.foldl_cons]
    have hfuel : decls.length + 1 = (decls.length - 1) + 2 := by omega
    have hstep := resolveSymbol_step decls hnd hord k hk (decls.length - 1)
      st hinv
    rw [← hfuel] at hstep
    exact ih (k + 1) (by omega) _ hstep

end compiler

/-- C8 amended: after `Check`, `reachableSymbols` contains exactly the
global symbols whose resolution completed, in completion order; for a
compilation unit of constant declarations with distinct names in which
every initialiser references only earlier-declared globals, that order is
the source declaration order (and no error is reported).  The order
differs from declaration order as soon as a declaration references a
later one, even without any cycle. -/
theorem C8_reachable_amended (decls : List compiler.CDecl)
    (hnd : (decls.map compiler.CDecl.name).Nodup)
    (hord : ∀ (i : Nat) (hi : i < decls.length) (x : String),
      (decls.get ⟨i, hi⟩).rhs = .identE x →
      x ∈ (decls.take i).map compiler.CDecl.name) :
    (compiler.check decls).reachable = decls.map compiler.CDecl.name
    ∧ (compiler.check decls).errors = [] := by
  have hsw := compiler.shallowWalk_eq decls hnd
  have h0 : compiler.ResolveInv decls 0 ⟨decls.map compiler.toSymU, [], [], []⟩ := by
    exact ⟨by simp, by simp, by simp, rfl⟩
  have hnames : (decls.map compiler.toSymU).map compiler.CSym.name
      = decls.map compiler.CDecl.name := by
    simp [compiler.toSymU]
  have hlen : (decls.map compiler.toSymU).length = decls.length := by simp
  have hfinal := compiler.check_loop_inv decls hnd hord decls.length 0
    (by omega) _ h0
  rw [List.drop_zero] at hfinal
  obtain ⟨_, _, hreach, herr⟩ := hfinal
  have hcheck : compiler.check decls
      = (decls.map compiler.CDecl.name).foldl
          (fun acc nm =>
            (compiler.resolveSymbol (decls.length + 1) nm acc).2)
          ⟨decls.map compiler.toSymU, [], [], []⟩ := by
    unfold compiler.check
    rw [hsw]
    show ((decls.map compiler.toSymU).map compiler.CSym.name).foldl
        (fun acc nm =>
          (compiler.resolveSymbol ((decls.map compiler.toSymU).length + 1)
            nm acc).2) ⟨decls.map compiler.toSymU, [], [], []⟩ = _
    rw [hnames, hlen]
  constructor
  · rw [hcheck, hreach, List.take_length]
  · rw [hcheck, herr]

/-- Witness for the amended C8 at the backward-referencing program
`const a int = 7; const b int = a`. -/
theorem C8_reachable_amended_witness :
    ([⟨"a", compiler.CExpr.lit 7⟩, ⟨"b", compiler.CExpr.identE "a"⟩].map
        compiler.CDecl.name).Nodup ∧
    (compiler.check [⟨"a", .lit 7⟩, ⟨"b", .identE "a"⟩]).reachable
        = [⟨"a", compiler.CExpr.lit 7⟩,
           ⟨"b", compiler.CExpr.identE "a"⟩].map compiler.CDecl.name ∧
    (compiler.check [⟨"a", .lit 7⟩, ⟨"b", .identE "a"⟩]).errors = [] :=
  ⟨by decide,
   (C8_reachable_amended [⟨"a", .lit 7⟩, ⟨"b", .identE "a"⟩] (by decide)
      (by
        intro i hi x hx
        rcases i with _ | (_ | i)
        · simp at hx
        · simp at hx
          simp [hx]
        · exact absurd hi (by simp))).1,
   (C8_reachable_amended [⟨"a", .lit 7⟩, ⟨"b", .identE "a"⟩] (by decide)
      (by
        intro i hi x hx
        rcases i with _ | (_ | i)
        · simp at hx
        · simp at hx
          simp [hx]
        · exact absurd hi (by simp))).2⟩



namespace compiler

/-- `IREmitter` state for statement lowering: the module's id generator,
the enclosing function's name (used to name the fresh block created after
a `return`), the function's blocks in allocation order, and the emitter's
block stack (top first; the source appends to a slice and reads the last
element). -/
structure EmitState where
  nextId : spirv.ID
  fnName : String
  blocks : List spirv.SBlock
  blockStack : List spirv.ID
  deriving DecidableEq, Repr

/-- `IREmitter.enterBlock`. -/
def enterBlock (id : spirv.ID) (s : EmitState) : EmitState :=
  { s with blockStack := id :: s.blockStack }

/-- `IREmitter.leaveBlock` (a no-op on an empty stack, as in the source). -/
def leaveBlock (s : EmitState) : EmitState :=
  match s.blockStack with
  | [] => s
  | _ :: rest => { s with blockStack := rest }

/-- `IREmitter.currentBlock` (`nil` on an empty stack). -/
def currentBlock? (s : EmitState) : Option spirv.ID :=
  s.blockStack.head?

/-- `Function.NewBlock`: allocate a module id and append an empty block to
the function. -/
def newBlock (name : String) (s : EmitState) : spirv.ID × EmitState :=
  let id := s.nextId + 1
  (id, { s with nextId := id, blocks := s.blocks ++ [⟨id, name, []⟩] })

/-- Push an instruction onto the block with the given id (a `Block.Push`
through the shared pointer). -/
def pushTo (id : spirv.ID) (i : spirv.SInstr) (s : EmitState) : EmitState :=
  { s with blocks := s.blocks.map fun b => if b.id = id then b.push i else b }

/-- `ir.currentBlock().Push(...)`; the source would dereference a nil
pointer on an empty stack, which the well-formedness invariant excludes. -/
def pushCurrent (i : spirv.SInstr) (s : EmitState) : EmitState :=
  match currentBlock? s with
  | none => s
  | some id => pushTo id i s

/-- Look a block up by id among the function's blocks. -/
def findBlock (id : spirv.ID) (s : EmitState) : Option spirv.SBlock :=
  s.blocks.find? fun b => b.id = id

/-- The expressions this fragment lowers as `if` conditions and `return`
operands: identifiers bound to non-variable objects (e.g. function
parameters), for which `emitIdentifierExpr` returns the object directly
without emitting any instruction. -/
inductive MExpr where
  | preValue (id : spirv.ID)
  deriving DecidableEq, Repr

/-- `IREmitter.emitExpression` on this fragment. -/
def emitExpression (e : MExpr) (s : EmitState) : spirv.ID × EmitState :=
  match e with
  | .preValue id => (id, s)

/-- The statements this fragment lowers: `ReturnStmt`, `BlockStmt`,
`IfStmt` (an init clause, when present, is emitted first and does not
affect the block bookkeeping claimed here).  A `BlockStmt`'s statement
list is represented head/tail (`seq`, with `skip` for the empty list) so
the emitter below is structurally recursive; an absent else branch is
likewise `skip`, which emits nothing, exactly as the source's nil check. -/
inductive MStmt where
  | ret
  | retVal (e : MExpr)
  | skip
  | seq (first rest : MStmt)
  | ifStmt (cond : MExpr) (body els : MStmt)
  deriving DecidableEq, Repr

/-- `IREmitter.branchToMergeBlockIfNeeded`: push a `Branch` to the merge
block onto the given block unless it is already terminated. -/
def branchToMergeBlockIfNeeded (currentBlock mergeBlock : spirv.ID)
    (s : EmitState) : EmitState :=
  match findBlock currentBlock s with
  | none => s
  | some b =>
    if b.isTerminated then s
    else pushTo currentBlock (.branch mergeBlock) s

/-- `IREmitter.emitReturnStmt`: push `Return`/`ReturnValue` into the
current block, leave it, and create and enter a fresh block named after
the function. -/
def emitReturnStmtE (v : Option MExpr) (s : EmitState) : EmitState :=
  let s1 :=
    match v with
    | some e =>
      let r := emitExpression e s
      pushCurrent (.retValue r.1) r.2
    | none => pushCurrent .ret s
  let s2 := leaveBlock s1
  let r3 := newBlock s2.fnName s2
  enterBlock r3.1 r3.2

/-- `IREmitter.emitStatement` on this fragment; the `ifStmt` case is
`IREmitter.emitIfStmt` inlined (allocate true/false/merge blocks, push
`SelectionMerge` then `BranchConditional` into the block current at the
condition, emit each branch into its allocated block, add a `Branch` to
the merge from each allocated branch block unless it is terminated, and
continue in the merge block). -/
def emitStatement : MStmt → EmitState → EmitState
  | .ret, s => emitReturnStmtE none s
  | .retVal e, s => emitReturnStmtE (some e) s
  | .skip, s => s
  | .seq a b, s => emitStatement b (emitStatement a s)
  | .ifStmt cond body els, s =>
    let r0 := emitExpression cond s
    match currentBlock? r0.2 with
    | none => r0.2
    | some cur =>
      let r1 := newBlock "true_block" r0.2
      let r2 := newBlock "false_block" r1.2
      let r3 := newBlock "if_merge" r2.2
      let s4 := pushTo cur (.selectionMerge r3.1 0) r3.2
      let s5 := pushTo cur (.branchConditional r0.1 r1.1 r2.1) s4
      let s6 := leaveBlock s5
      let s7 := enterBlock r1.1 s6
      let s8 := emitStatement body s7
      let s9 := branchToMergeBlockIfNeeded r1.1 r3.1 s8
      let s10 := leaveBlock s9
      let s11 := enterBlock r2.1 s10
      let s12 := emitStatement els s11
      let s13 := branchToMergeBlockIfNeeded r2.1 r3.1 s12
      let s14 := leaveBlock s13
      enterBlock r3.1 s14

end compiler

namespace compiler

@[simp] theorem enterBlock_nextId (i : spirv.ID) (s : EmitState) :
    (enterBlock i s).nextId = s.nextId := rfl

@[simp] theorem enterBlock_fnName (i : spirv.ID) (s : EmitState) :
    (enterBlock i s).fnName = s.fnName := rfl

@[simp] theorem enterBlock_blocks (i : spirv.ID) (s : EmitState) :
    (enterBlock i s).blocks = s.blocks := rfl

@[simp] theorem enterBlock_blockStack (i : spirv.ID) (s : EmitState) :
    (enterBlock i s).blockStack = i :: s.blockStack := rfl

@[simp] theorem leaveBlock_nextId (s : EmitState) :
    (leaveBlock s).nextId = s.nextId := by
  rcases s with ⟨n, f, bs, stk⟩
  cases stk <;> rfl

@[simp] theorem leaveBlock_fnName (s : EmitState) :
    (leaveBlock s).fnName = s.fnName := by
  rcases s with ⟨n, f, bs, stk⟩
  cases stk <;> rfl

@[simp] theorem leaveBlock_blocks (s : EmitState) :
    (leaveBlock s).blocks = s.blocks := by
  rcases s with ⟨n, f, bs, stk⟩
  cases stk <;> rfl

@[simp] theorem leaveBlock_blockStack (s : EmitState) :
    (leaveBlock s).blockStack = s.blockStack.tail := by
  rcases s with ⟨n, f, bs, stk⟩
  cases stk <;> rfl

@[simp] theorem pushTo_nextId (i : spirv.ID) (ins : spirv.SInstr) (s : EmitState) :
    (pushTo i ins s).nextId = s.nextId := rfl

@[simp] theorem pushTo_fnName (i : spirv.ID) (ins : spirv.SInstr) (s : EmitState) :
    (pushTo i ins s).fnName = s.fnName := rfl

@[simp] theorem pushTo_blockStack (i : spirv.ID) (ins : spirv.SInstr) (s : EmitState) :
    (pushTo i ins s).blockStack = s.blockStack := rfl

theorem pushTo_blocks (i : spirv.ID) (ins : spirv.SInstr) (s : EmitState) :
    (pushTo i ins s).blocks
      = s.blocks.map (fun b => if b.id = i then b.push ins else b) := rfl

@[simp] theorem newBlock_fst (nm : String) (s : EmitState) :
    (newBlock nm s).1 = s.nextId + 1 := rfl

@[simp] theorem newBlock_nextId (nm : String) (s : EmitState) :
    (newBlock nm s).2.nextId = s.nextId + 1 := rfl

@[simp] theorem newBlock_fnName (nm : String) (s : EmitState) :
    (newBlock nm s).2.fnName = s.fnName := rfl

@[simp] theorem newBlock_blockStack (nm : String) (s : EmitState) :
    (newBlock nm s).2.blockStack = s.blockStack := rfl

@[simp] theorem newBlock_blocks (nm : String) (s : EmitState) :
    (newBlock nm s).2.blocks = s.blocks ++ [⟨s.nextId + 1, nm, []⟩] := rfl

@[simp] theorem pushCurrent_nextId (ins : spirv.SInstr) (s : EmitState) :
    (pushCurrent ins s).nextId = s.nextId := by
  unfold pushCurrent
  cases currentBlock? s <;> rfl

@[simp] theorem pushCurrent_fnName (ins : spirv.SInstr) (s : EmitState) :
    (pushCurrent ins s).fnName = s.fnName := by
  unfold pushCurrent
  cases currentBlock? s <;> rfl

@[simp] theorem pushCurrent_blockStack (ins : spirv.SInstr) (s : EmitState) :
    (pushCurrent ins s).blockStack = s.blockStack := by
  unfold pushCurrent
  cases currentBlock? s <;> rfl

theorem pushCurrent_of_head (ins : spirv.SInstr) (s : EmitState) (t : spirv.ID)
    (rest : List spirv.ID) (h : s.blockStack = t :: rest) :
    pushCurrent ins s = pushTo t ins s := by
  unfold pushCurrent
  rw [show currentBlock? s = some t from by simp [currentBlock?, h]]

@[simp] theorem branchToMerge_nextId (a m : spirv.ID) (s : EmitState) :
    (branchToMergeBlockIfNeeded a m s).nextId = s.nextId := by
  unfold branchToMergeBlockIfNeeded
  cases findBlock a s with
  | none => rfl
  | some b =>
    dsimp only
    split <;> rfl

@[simp] theorem branchToMerge_fnName (a m : spirv.ID) (s : EmitState) :
    (branchToMergeBlockIfNeeded a m s).fnName = s.fnName := by
  unfold branchToMergeBlockIfNeeded
  cases findBlock a s with
  | none => rfl
  | some b =>
    dsimp only
    split <;> rfl

@[simp] theorem branchToMerge_blockStack (a m : spirv.ID) (s : EmitState) :
    (branchToMergeBlockIfNeeded a m s).blockStack = s.blockStack := by
  unfold branchToMergeBlockIfNeeded
  cases findBlock a s with
  | none => rfl
  | some b =>
    dsimp only
    split <;> rfl

theorem mem_pushTo_of_ne {b : spirv.SBlock} {s : EmitState} {i : spirv.ID}
    (ins : spirv.SInstr) (hb : b ∈ s.blocks) (hne : b.id ≠ i) :
    b ∈ (pushTo i ins s).blocks := by
  rw [pushTo_blocks]
  exact List.mem_map.mpr ⟨b, hb, by simp [hne]⟩

theorem mem_branchToMerge_of_ne {b : spirv.SBlock} {s : EmitState}
    {a : spirv.ID} (m : spirv.ID) (hb : b ∈ s.blocks) (hne : b.id ≠ a) :
    b ∈ (branchToMergeBlockIfNeeded a m s).blocks := by
  unfold branchToMergeBlockIfNeeded
  cases findBlock a s with
  | none => exact hb
  | some c =>
    dsimp only
    split
    · exact hb
    · exact mem_pushTo_of_ne _ hb hne

end compiler

namespace compiler

/-- Blocks only ever grow: every block of `s` persists (same id and name,
instructions extended on the right) in `s'`. -/
def extendsB (s s' : EmitState) : Prop :=
  ∀ i n I, (⟨i, n, I⟩ : spirv.SBlock) ∈ s.blocks →
    ∃ J, (⟨i, n, I ++ J⟩ : spirv.SBlock) ∈ s'.blocks

theorem extendsB_refl (s : EmitState) : extendsB s s :=
  fun _ _ I h => ⟨[], by rw [List.append_nil]; exact h⟩

theorem extendsB_of_blocks_eq {s s' : EmitState} (h : s.blocks = s'.blocks) :
    extendsB s s' :=
  fun _ _ I hb => ⟨[], by rw [List.append_nil, ← h]; exact hb⟩

theorem extendsB_trans {s1 s2 s3 : EmitState}
    (h12 : extendsB s1 s2) (h23 : extendsB s2 s3) : extendsB s1 s3 := by
  intro i n I hb
  obtain ⟨J1, h1⟩ := h12 i n I hb
  obtain ⟨J2, h2⟩ := h23 i n (I ++ J1) h1
  exact ⟨J1 ++ J2, by rw [← List.append_assoc]; exact h2⟩

theorem extendsB_pushTo (i : spirv.ID) (ins : spirv.SInstr) (s : EmitState) :
    extendsB s (pushTo i ins s) := by
  intro j n I hb
  by_cases hj : j = i
  · refine ⟨[ins], ?_⟩
    rw [pushTo_blocks]
    exact List.mem_map.mpr ⟨⟨j, n, I⟩, hb, by simp [spirv.SBlock.push, hj]⟩
  · exact ⟨[], by rw [List.append_nil]; exact mem_pushTo_of_ne ins hb hj⟩

theorem extendsB_pushCurrent (ins : spirv.SInstr) (s : EmitState) :
    extendsB s (pushCurrent ins s) := by
  unfold pushCurrent
  cases currentBlock? s with
  | none => exact extendsB_refl s
  | some t => exact extendsB_pushTo t ins s

theorem extendsB_newBlock (nm : String) (s : EmitState) :
    extendsB s (newBlock nm s).2 := by
  intro i n I hb
  refine ⟨[], ?_⟩
  rw [List.append_nil, newBlock_blocks]
  exact List.mem_append_left _ hb

theorem extendsB_branchToMerge (a m : spirv.ID) (s : EmitState) :
    extendsB s (branchToMergeBlockIfNeeded a m s) := by
  unfold branchToMergeBlockIfNeeded
  cases findBlock a s with
  | none => exact extendsB_refl s
  | some c =>
    dsimp only
    split
    · exact extendsB_refl s
    · exact extendsB_pushTo a _ s

theorem int_le_add_one {x y : Int} (h : x ≤ y) : x ≤ y + 1 := by omega

theorem int_le_add_three {x y : Int} (h : x ≤ y) : x ≤ y + 3 := by omega

theorem int_ne_of_le {x n c : Int} (h : x ≤ n) (hc : 0 < c) : x ≠ n + c := by
  omega

/-- Well-formedness the emitter preserves: block ids are distinct and never
exceed the id generator. -/
def blocksWF (s : EmitState) : Prop :=
  (s.blocks.map (fun b => b.id)).Nodup ∧ ∀ b ∈ s.blocks, b.id ≤ s.nextId

theorem blocksWF_pushTo (i : spirv.ID) (ins : spirv.SInstr) {s : EmitState}
    (h : blocksWF s) : blocksWF (pushTo i ins s) := by
  obtain ⟨h1, h2⟩ := h
  constructor
  · rw [pushTo_blocks, List.map_map]
    have he : ((fun b : spirv.SBlock => b.id) ∘
        fun b => if b.id = i then b.push ins else b)
        = fun b : spirv.SBlock => b.id := by
      funext b
      by_cases hb : b.id = i <;> simp [hb, spirv.SBlock.push]
    rw [he]
    exact h1
  · intro b hb
    rw [pushTo_blocks] at hb
    obtain ⟨b0, hb0, rfl⟩ := List.mem_map.mp hb
    rw [pushTo_nextId]
    have he : (if b0.id = i then b0.push ins else b0).id = b0.id := by
      by_cases hc : b0.id = i <;> simp [hc, spirv.SBlock.push]
    rw [he]
    exact h2 b0 hb0

theorem blocksWF_newBlock (nm : String) {s : EmitState} (h : blocksWF s) :
    blocksWF (newBlock nm s).2 := by
  obtain ⟨h1, h2⟩ := h
  constructor
  · rw [newBlock_blocks, List.map_append, List.nodup_append]
    refine ⟨h1, List.nodup_singleton _, fun a ha hmem => ?_⟩
    obtain ⟨b0, hb0, rfl⟩ := List.mem_map.mp ha
    simp only [List.map_cons, List.map_nil, List.mem_singleton] at hmem
    exact absurd hmem (int_ne_of_le (h2 b0 hb0) one_pos)
  · intro b hb
    rw [newBlock_blocks] at hb
    rw [newBlock_nextId]
    rcases List.mem_append.mp hb with h' | h'
    · exact int_le_add_one (h2 b h')
    · simp only [List.mem_singleton] at h'
      rw [h']

theorem blocksWF_pushCurrent (ins : spirv.SInstr) {s : EmitState}
    (h : blocksWF s) : blocksWF (pushCurrent ins s) := by
  unfold pushCurrent
  cases currentBlock? s with
  | none => exact h
  | some t => exact blocksWF_pushTo t ins h

theorem blocksWF_branchToMerge (a m : spirv.ID) {s : EmitState}
    (h : blocksWF s) : blocksWF (branchToMergeBlockIfNeeded a m s) := by
  unfold branchToMergeBlockIfNeeded
  cases findBlock a s with
  | none => exact h
  | some c =>
    dsimp only
    split
    · exact h
    · exact blocksWF_pushTo a _ h

theorem blocksWF_congr {s s' : EmitState} (hb : s.blocks = s'.blocks)
    (hn : s.nextId = s'.nextId) (h : blocksWF s) : blocksWF s' := by
  obtain ⟨h1, h2⟩ := h
  constructor
  · rw [← hb]
    exact h1
  · intro b hbm
    rw [← hn]
    exact h2 b (by rw [hb]; exact hbm)

end compiler

namespace compiler

theorem int_add_one_one (x : Int) : x + 1 + 1 = x + 2 := by omega

theorem int_add_two_one (x : Int) : x + 2 + 1 = x + 3 := by omega

/-- The state `emitIfStmt` reaches just before emitting the true branch:
three fresh blocks allocated, `SelectionMerge` and `BranchConditional`
pushed into the block `t` that was current at the condition, that block
left and the allocated true block entered. -/
def ifPrologue (v t : spirv.ID) (s : EmitState) : EmitState :=
  enterBlock (s.nextId + 1) (leaveBlock
    (pushTo t (.branchConditional v (s.nextId + 1) (s.nextId + 2))
      (pushTo t (.selectionMerge (s.nextId + 3) 0)
        (newBlock "if_merge" (newBlock "false_block"
          (newBlock "true_block" s).2).2).2)))

@[simp] theorem ifPrologue_nextId (v t : spirv.ID) (s : EmitState) :
    (ifPrologue v t s).nextId = s.nextId + 3 := by
  unfold ifPrologue
  simp [int_add_one_one, int_add_two_one]

@[simp] theorem ifPrologue_fnName (v t : spirv.ID) (s : EmitState) :
    (ifPrologue v t s).fnName = s.fnName := by
  unfold ifPrologue
  simp

@[simp] theorem ifPrologue_blockStack (v t : spirv.ID) (s : EmitState) :
    (ifPrologue v t s).blockStack = (s.nextId + 1) :: s.blockStack.tail := by
  unfold ifPrologue
  simp

/-- Unfolding `emitStatement` on an `if` when a current block exists. -/
theorem emitStatement_ifStmt_some (v : spirv.ID) (body els : MStmt)
    (s : EmitState) (t : spirv.ID) (rest : List spirv.ID)
    (h : s.blockStack = t :: rest) :
    emitStatement (.ifStmt (.preValue v) body els) s =
      enterBlock (s.nextId + 3) (leaveBlock
        (branchToMergeBlockIfNeeded (s.nextId + 2) (s.nextId + 3)
          (emitStatement els (enterBlock (s.nextId + 2) (leaveBlock
            (branchToMergeBlockIfNeeded (s.nextId + 1) (s.nextId + 3)
              (emitStatement body (ifPrologue v t s)))))))) := by
  simp only [emitStatement, emitExpression]
  rw [show currentBlock? s = some t from by simp [currentBlock?, h]]
  simp only [ifPrologue, newBlock_fst, newBlock_nextId, int_add_one_one,
    int_add_two_one]

end compiler

namespace compiler

/-- Unfolding `emitStatement` on an `if` when the block stack is empty
(`currentBlock` is nil and the source would have crashed earlier; the
embedding returns the state unchanged). -/
theorem emitStatement_ifStmt_none (v : spirv.ID) (body els : MStmt)
    (s : EmitState) (h : s.blockStack = []) :
    emitStatement (.ifStmt (.preValue v) body els) s = s := by
  simp only [emitStatement, emitExpression]
  rw [show currentBlock? s = none from by simp [currentBlock?, h]]

/-- The id generator never decreases across statement emission. -/
theorem emitStatement_nextId_mono (st : MStmt) :
    ∀ s : EmitState, s.nextId ≤ (emitStatement st s).nextId := by
  induction st with
  | ret =>
    intro s
    simp only [emitStatement, emitReturnStmtE, enterBlock_nextId,
      newBlock_nextId, leaveBlock_nextId, pushCurrent_nextId]
    exact int_le_add_one (le_refl _)
  | retVal e =>
    intro s
    cases e with
    | preValue v =>
      simp only [emitStatement, emitReturnStmtE, emitExpression,
        enterBlock_nextId, newBlock_nextId, leaveBlock_nextId,
        pushCurrent_nextId]
      exact int_le_add_one (le_refl _)
  | skip =>
    intro s
    simp only [emitStatement]
    exact le_refl _
  | seq a b iha ihb =>
    intro s
    simp only [emitStatement]
    exact le_trans (iha s) (ihb (emitStatement a s))
  | ifStmt cond body els ih1 ih2 =>
    intro s
    cases cond with
    | preValue v =>
      rcases hstk : s.blockStack with _ | ⟨t, rest⟩
      · rw [emitStatement_ifStmt_none v body els s hstk]
      · rw [emitStatement_ifStmt_some v body els s t rest hstk]
        simp only [enterBlock_nextId, leaveBlock_nextId, branchToMerge_nextId]
        refine le_trans ?_ (ih2 _)
        simp only [enterBlock_nextId, leaveBlock_nextId, branchToMerge_nextId]
        refine le_trans ?_ (ih1 _)
        simp only [ifPrologue_nextId]
        exact (by omega : ∀ x : Int, x ≤ x + 3) _

/-- Statement emission replaces the top of the block stack (with the same
block or a freshly allocated one) and leaves the remainder alone. -/
theorem emitStatement_blockStack (st : MStmt) :
    ∀ (s : EmitState) (t : spirv.ID) (rest : List spirv.ID),
      s.blockStack = t :: rest →
      ∃ u, (emitStatement st s).blockStack = u :: rest ∧
        (u = t ∨ s.nextId < u) := by
  induction st with
  | ret =>
    intro s t rest h
    refine ⟨s.nextId + 1, ?_, Or.inr ((by omega : ∀ x : Int, x < x + 1) _)⟩
    simp only [emitStatement, emitReturnStmtE, enterBlock_blockStack,
      enterBlock_nextId, newBlock_blockStack, newBlock_nextId, newBlock_fst,
      leaveBlock_blockStack, leaveBlock_nextId, pushCurrent_blockStack,
      pushCurrent_nextId, h, List.tail_cons]
  | retVal e =>
    intro s t rest h
    cases e with
    | preValue v =>
      refine ⟨s.nextId + 1, ?_, Or.inr ((by omega : ∀ x : Int, x < x + 1) _)⟩
      simp only [emitStatement, emitReturnStmtE, emitExpression,
        enterBlock_blockStack, enterBlock_nextId, newBlock_blockStack,
        newBlock_nextId, newBlock_fst, leaveBlock_blockStack,
        leaveBlock_nextId, pushCurrent_blockStack, pushCurrent_nextId, h,
        List.tail_cons]
  | skip =>
    intro s t rest h
    exact ⟨t, by simp only [emitStatement]; exact h, Or.inl rfl⟩
  | seq a b iha ihb =>
    intro s t rest h
    obtain ⟨t1, h1, d1⟩ := iha s t rest h
    obtain ⟨t2, h2, d2⟩ := ihb _ t1 rest h1
    refine ⟨t2, by simp only [emitStatement]; exact h2, ?_⟩
    have hm := emitStatement_nextId_mono a s
    rcases d1 with rfl | d1
    · rcases d2 with rfl | d2
      · exact Or.inl rfl
      · exact Or.inr ((by omega : ∀ x y z : Int, x ≤ y → y < z → x < z)
          _ _ _ hm d2)
    · rcases d2 with rfl | d2
      · exact Or.inr d1
      · exact Or.inr ((by omega : ∀ x y z : Int, x ≤ y → y < z → x < z)
          _ _ _ hm d2)
  | ifStmt cond body els ih1 ih2 =>
    intro s t rest h
    cases cond with
    | preValue v =>
      refine ⟨s.nextId + 3, ?_, Or.inr ((by omega : ∀ x : Int, x < x + 3) _)⟩
      rw [emitStatement_ifStmt_some v body els s t rest h]
      simp only [enterBlock_blockStack, leaveBlock_blockStack,
        branchToMerge_blockStack]
      obtain ⟨tb, hb, -⟩ := ih1 (ifPrologue v t s) (s.nextId + 1) rest
        (by simp [h])
      obtain ⟨te, he, -⟩ := ih2 (enterBlock (s.nextId + 2) (leaveBlock
        (branchToMergeBlockIfNeeded (s.nextId + 1) (s.nextId + 3)
          (emitStatement body (ifPrologue v t s))))) (s.nextId + 2)
        rest (by simp [hb])
      simp [he]

end compiler

namespace compiler

theorem mem_ifPrologue_of_ne {b : spirv.SBlock} (v t : spirv.ID)
    (s : EmitState) (hb : b ∈ s.blocks) (hne : b.id ≠ t) :
    b ∈ (ifPrologue v t s).blocks := by
  unfold ifPrologue
  simp only [enterBlock_blocks, leaveBlock_blocks]
  refine mem_pushTo_of_ne _ (mem_pushTo_of_ne _ ?_ hne) hne
  simp only [newBlock_blocks]
  exact List.mem_append_left _ (List.mem_append_left _
    (List.mem_append_left _ hb))

theorem blocksWF_enterBlock (i : spirv.ID) {s : EmitState}
    (h : blocksWF s) : blocksWF (enterBlock i s) := h

theorem blocksWF_leaveBlock {s : EmitState} (h : blocksWF s) :
    blocksWF (leaveBlock s) := by
  refine blocksWF_congr ?_ ?_ h <;> simp

theorem ifPrologue_wf (v t : spirv.ID) {s : EmitState} (h : blocksWF s) :
    blocksWF (ifPrologue v t s) := by
  unfold ifPrologue
  exact blocksWF_enterBlock _ (blocksWF_leaveBlock (blocksWF_pushTo _ _
    (blocksWF_pushTo _ _ (blocksWF_newBlock _ (blocksWF_newBlock _
      (blocksWF_newBlock _ h))))))

theorem extendsB_ifPrologue (v t : spirv.ID) (s : EmitState) :
    extendsB s (ifPrologue v t s) := by
  unfold ifPrologue
  refine extendsB_trans (extendsB_newBlock "true_block" s) ?_
  refine extendsB_trans (extendsB_newBlock "false_block" _) ?_
  refine extendsB_trans (extendsB_newBlock "if_merge" _) ?_
  refine extendsB_trans (extendsB_pushTo t (.selectionMerge (s.nextId + 3) 0) _) ?_
  refine extendsB_trans (extendsB_pushTo t
    (.branchConditional v (s.nextId + 1) (s.nextId + 2)) _) ?_
  exact extendsB_of_blocks_eq (by simp)

end compiler

namespace compiler

/-- Frame property: a block that is neither the current block nor freshly
allocated is untouched by statement emission. -/
theorem emitStatement_frame (st : MStmt) :
    ∀ (s : EmitState) (t : spirv.ID) (rest : List spirv.ID)
      (b : spirv.SBlock), s.blockStack = t :: rest → b ∈ s.blocks →
      b.id ≠ t → b.id ≤ s.nextId → b ∈ (emitStatement st s).blocks := by
  induction st with
  | ret =>
    intro s t rest b h hb hne hle
    simp only [emitStatement, emitReturnStmtE, enterBlock_blocks,
      newBlock_blocks, leaveBlock_blocks]
    rw [pushCurrent_of_head _ s t rest h]
    exact List.mem_append_left _ (mem_pushTo_of_ne _ hb hne)
  | retVal e =>
    intro s t rest b h hb hne hle
    cases e with
    | preValue v =>
      simp only [emitStatement, emitReturnStmtE, emitExpression,
        enterBlock_blocks, newBlock_blocks, leaveBlock_blocks]
      rw [pushCurrent_of_head _ s t rest h]
      exact List.mem_append_left _ (mem_pushTo_of_ne _ hb hne)
  | skip =>
    intro s t rest b h hb hne hle
    simp only [emitStatement]
    exact hb
  | seq a c iha ihc =>
    intro s t rest b h hb hne hle
    simp only [emitStatement]
    obtain ⟨t1, h1, d1⟩ := emitStatement_blockStack a s t rest h
    have hb1 := iha s t rest b h hb hne hle
    have hne1 : b.id ≠ t1 := by
      rcases d1 with rfl | d1
      · exact hne
      · exact (by omega : ∀ x n u : Int, x ≤ n → n < u → x ≠ u) _ _ _ hle d1
    have hle1 : b.id ≤ (emitStatement a s).nextId :=
      le_trans hle (emitStatement_nextId_mono a s)
    exact ihc _ t1 rest b h1 hb1 hne1 hle1
  | ifStmt cond body els ih1 ih2 =>
    intro s t rest b h hb hne hle
    cases cond with
    | preValue v =>
      rw [emitStatement_ifStmt_some v body els s t rest h]
      have hX1stk : (ifPrologue v t s).blockStack = (s.nextId + 1) :: rest := by
        simp [h]
      obtain ⟨tb, hbstk, -⟩ :=
        emitStatement_blockStack body (ifPrologue v t s) (s.nextId + 1) rest
          hX1stk
      have hb8 : b ∈ (emitStatement body (ifPrologue v t s)).blocks :=
        ih1 _ (s.nextId + 1) rest b hX1stk
          (mem_ifPrologue_of_ne v t s hb hne)
          ((by omega : ∀ x n : Int, x ≤ n → x ≠ n + 1) _ _ hle)
          (by
            simp only [ifPrologue_nextId]
            exact (by omega : ∀ x n : Int, x ≤ n → x ≤ n + 3) _ _ hle)
      have hb9 : b ∈ (branchToMergeBlockIfNeeded (s.nextId + 1)
          (s.nextId + 3) (emitStatement body (ifPrologue v t s))).blocks :=
        mem_branchToMerge_of_ne _ hb8
          ((by omega : ∀ x n : Int, x ≤ n → x ≠ n + 1) _ _ hle)
      have hb12 : b ∈ (emitStatement els (enterBlock (s.nextId + 2)
          (leaveBlock (branchToMergeBlockIfNeeded (s.nextId + 1)
            (s.nextId + 3)
            (emitStatement body (ifPrologue v t s)))))).blocks := by
        refine ih2 _ (s.nextId + 2) rest b (by simp [hbstk]) ?_
          ((by omega : ∀ x n : Int, x ≤ n → x ≠ n + 2) _ _ hle) ?_
        · simpa using hb9
        · simp only [enterBlock_nextId, leaveBlock_nextId,
            branchToMerge_nextId]
          refine le_trans ((by omega : ∀ x n : Int, x ≤ n → x ≤ n + 3) _ _
            hle) ?_
          simpa using emitStatement_nextId_mono body (ifPrologue v t s)
      simp only [enterBlock_blocks, leaveBlock_blocks]
      exact mem_branchToMerge_of_ne _ hb12
        ((by omega : ∀ x n : Int, x ≤ n → x ≠ n + 2) _ _ hle)

/-- Statement emission only ever appends: every block persists with its
instruction list extended on the right. -/
theorem emitStatement_extends (st : MStmt) :
    ∀ (s : EmitState) (t : spirv.ID) (rest : List spirv.ID),
      s.blockStack = t :: rest → extendsB s (emitStatement st s) := by
  induction st with
  | ret =>
    intro s t rest h
    simp only [emitStatement, emitReturnStmtE]
    refine extendsB_trans (extendsB_pushCurrent spirv.SInstr.ret s) ?_
    refine extendsB_trans (extendsB_of_blocks_eq
      (leaveBlock_blocks _).symm) ?_
    refine extendsB_trans (extendsB_newBlock
      (leaveBlock (pushCurrent spirv.SInstr.ret s)).fnName _) ?_
    exact extendsB_of_blocks_eq (enterBlock_blocks _ _).symm
  | retVal e =>
    intro s t rest h
    cases e with
    | preValue v =>
      simp only [emitStatement, emitReturnStmtE, emitExpression]
      refine extendsB_trans (extendsB_pushCurrent (spirv.SInstr.retValue v) s) ?_
      refine extendsB_trans (extendsB_of_blocks_eq
        (leaveBlock_blocks _).symm) ?_
      refine extendsB_trans (extendsB_newBlock
        (leaveBlock (pushCurrent (spirv.SInstr.retValue v) s)).fnName _) ?_
      exact extendsB_of_blocks_eq (enterBlock_blocks _ _).symm
  | skip =>
    intro s t rest h
    simp only [emitStatement]
    exact extendsB_refl s
  | seq a c iha ihc =>
    intro s t rest h
    simp only [emitStatement]
    obtain ⟨t1, h1, -⟩ := emitStatement_blockStack a s t rest h
    exact extendsB_trans (iha s t rest h) (ihc _ t1 rest h1)
  | ifStmt cond body els ih1 ih2 =>
    intro s t rest h
    cases cond with
    | preValue v =>
      rw [emitStatement_ifStmt_some v body els s t rest h]
      have hX1stk : (ifPrologue v t s).blockStack = (s.nextId + 1) :: rest := by
        simp [h]
      obtain ⟨tb, hbstk, -⟩ :=
        emitStatement_blockStack body (ifPrologue v t s) (s.nextId + 1) rest
          hX1stk
      refine extendsB_trans (extendsB_ifPrologue v t s) ?_
      refine extendsB_trans (ih1 _ (s.nextId + 1) rest hX1stk) ?_
      refine extendsB_trans (extendsB_branchToMerge (s.nextId + 1)
        (s.nextId + 3) _) ?_
      refine extendsB_trans (extendsB_of_blocks_eq (show
        (branchToMergeBlockIfNeeded (s.nextId + 1) (s.nextId + 3)
          (emitStatement body (ifPrologue v t s))).blocks =
        (enterBlock (s.nextId + 2) (leaveBlock
          (branchToMergeBlockIfNeeded (s.nextId + 1) (s.nextId + 3)
            (emitStatement body (ifPrologue v t s))))).blocks
        from by simp)) ?_
      refine extendsB_trans (ih2 _ (s.nextId + 2) rest (by simp [hbstk])) ?_
      refine extendsB_trans (extendsB_branchToMerge (s.nextId + 2)
        (s.nextId + 3) _) ?_
      exact extendsB_of_blocks_eq (by simp)

/-- Statement emission preserves well-formedness of the block list. -/
theorem emitStatement_wf (st : MStmt) :
    ∀ (s : EmitState) (t : spirv.ID) (rest : List spirv.ID),
      s.blockStack = t :: rest → blocksWF s →
      blocksWF (emitStatement st s) := by
  induction st with
  | ret =>
    intro s t rest h hwf
    simp only [emitStatement, emitReturnStmtE]
    exact blocksWF_enterBlock _ (blocksWF_newBlock _
      (blocksWF_leaveBlock (blocksWF_pushCurrent _ hwf)))
  | retVal e =>
    intro s t rest h hwf
    cases e with
    | preValue v =>
      simp only [emitStatement, emitReturnStmtE, emitExpression]
      exact blocksWF_enterBlock _ (blocksWF_newBlock _
        (blocksWF_leaveBlock (blocksWF_pushCurrent _ hwf)))
  | skip =>
    intro s t rest h hwf
    simp only [emitStatement]
    exact hwf
  | seq a c iha ihc =>
    intro s t rest h hwf
    simp only [emitStatement]
    obtain ⟨t1, h1, -⟩ := emitStatement_blockStack a s t rest h
    exact ihc _ t1 rest h1 (iha s t rest h hwf)
  | ifStmt cond body els ih1 ih2 =>
    intro s t rest h hwf
    cases cond with
    | preValue v =>
      rw [emitStatement_ifStmt_some v body els s t rest h]
      have hX1stk : (ifPrologue v t s).blockStack = (s.nextId + 1) :: rest := by
        simp [h]
      obtain ⟨tb, hbstk, -⟩ :=
        emitStatement_blockStack body (ifPrologue v t s) (s.nextId + 1) rest
          hX1stk
      have hwf8 := ih1 _ (s.nextId + 1) rest hX1stk (ifPrologue_wf v t hwf)
      have hwf12 := ih2 (enterBlock (s.nextId + 2) (leaveBlock
        (branchToMergeBlockIfNeeded (s.nextId + 1) (s.nextId + 3)
          (emitStatement body (ifPrologue v t s))))) (s.nextId + 2) rest
        (by simp [hbstk])
        (blocksWF_enterBlock _ (blocksWF_leaveBlock
          (blocksWF_branchToMerge _ _ hwf8)))
      exact blocksWF_enterBlock _ (blocksWF_leaveBlock
        (blocksWF_branchToMerge _ _ hwf12))

end compiler

namespace compiler

theorem find_block_id (b : spirv.SBlock) :
    ∀ l : List spirv.SBlock, (l.map (fun x => x.id)).Nodup → b ∈ l →
      l.find? (fun x => x.id = b.id) = some b := by
  intro l
  induction l with
  | nil =>
    intro _ hb
    exact absurd hb (List.not_mem_nil b)
  | cons a l ih =>
    intro hnd hb
    rw [List.map_cons, List.nodup_cons] at hnd
    rcases List.mem_cons.mp hb with rfl | hb'
    · rw [List.find?_cons_of_pos _ (by simp)]
    · have hne : ¬ (a.id = b.id) := by
        intro he
        refine hnd.1 ?_
        rw [he]
        exact List.mem_map.mpr ⟨b, hb', rfl⟩
      rw [List.find?_cons_of_neg _ (by simp [hne])]
      exact ih hnd.2 hb'

theorem findBlock_eq_of_mem {s : EmitState} {b : spirv.SBlock}
    (hnd : (s.blocks.map (fun x => x.id)).Nodup) (hb : b ∈ s.blocks) :
    findBlock b.id s = some b :=
  find_block_id b s.blocks hnd hb

theorem isTerminated_append_branch (i m : spirv.ID) (n : String)
    (I : List spirv.SInstr) :
    (⟨i, n, I ++ [spirv.SInstr.branch m]⟩ : spirv.SBlock).isTerminated
      = true := by
  simp [spirv.SBlock.isTerminated, spirv.SInstr.opcode,
    spirv.Opcode.isTerminator]

/-- The allocated branch block is always terminated after
`branchToMergeBlockIfNeeded`: either it already was, or the `Branch` to
the merge block is appended. -/
theorem branchToMerge_terminates {s : EmitState} (a m : spirv.ID)
    (nm : String) (J : List spirv.SInstr)
    (hnd : (s.blocks.map (fun x => x.id)).Nodup)
    (hb : (⟨a, nm, J⟩ : spirv.SBlock) ∈ s.blocks) :
    ∃ bT ∈ (branchToMergeBlockIfNeeded a m s).blocks,
      bT.id = a ∧ bT.name = nm ∧ bT.isTerminated = true ∧
      (bT.instructions = J ∨
        bT.instructions = J ++ [spirv.SInstr.branch m]) := by
  have hfind : findBlock a s = some ⟨a, nm, J⟩ :=
    findBlock_eq_of_mem hnd hb
  unfold branchToMergeBlockIfNeeded
  rw [hfind]
  dsimp only
  by_cases ht : (⟨a, nm, J⟩ : spirv.SBlock).isTerminated = true
  · rw [if_pos ht]
    exact ⟨⟨a, nm, J⟩, hb, rfl, rfl, ht, Or.inl rfl⟩
  · rw [if_neg ht]
    refine ⟨⟨a, nm, J ++ [spirv.SInstr.branch m]⟩, ?_, rfl, rfl,
      isTerminated_append_branch a m nm J, Or.inr rfl⟩
    rw [pushTo_blocks]
    exact List.mem_map.mpr ⟨⟨a, nm, J⟩, hb, by simp [spirv.SBlock.push]⟩

theorem cond_mem_ifPrologue (v t : spirv.ID) {s : EmitState}
    {bc : spirv.SBlock} (hbc : bc ∈ s.blocks) (hid : bc.id = t) :
    (⟨t, bc.name, bc.instructions ++
        [spirv.SInstr.selectionMerge (s.nextId + 3) 0,
         spirv.SInstr.branchConditional v (s.nextId + 1) (s.nextId + 2)]⟩ :
      spirv.SBlock) ∈ (ifPrologue v t s).blocks := by
  unfold ifPrologue
  simp only [enterBlock_blocks, leaveBlock_blocks, pushTo_blocks,
    List.map_map]
  refine List.mem_map.mpr ⟨bc, ?_, ?_⟩
  · simp only [newBlock_blocks]
    exact List.mem_append_left _ (List.mem_append_left _
      (List.mem_append_left _ hbc))
  · simp [hid, spirv.SBlock.push]

theorem trueBlock_mem_ifPrologue (v t : spirv.ID) {s : EmitState}
    (hle : t ≤ s.nextId) :
    (⟨s.nextId + 1, "true_block", ([] : List spirv.SInstr)⟩ : spirv.SBlock)
      ∈ (ifPrologue v t s).blocks := by
  unfold ifPrologue
  simp only [enterBlock_blocks, leaveBlock_blocks]
  refine mem_pushTo_of_ne _ (mem_pushTo_of_ne _ ?_
      ((by omega : ∀ u n : Int, u ≤ n → n + 1 ≠ u) _ _ hle))
    ((by omega : ∀ u n : Int, u ≤ n → n + 1 ≠ u) _ _ hle)
  simp [int_add_one_one, int_add_two_one]

theorem falseBlock_mem_ifPrologue (v t : spirv.ID) {s : EmitState}
    (hle : t ≤ s.nextId) :
    (⟨s.nextId + 2, "false_block", ([] : List spirv.SInstr)⟩ : spirv.SBlock)
      ∈ (ifPrologue v t s).blocks := by
  unfold ifPrologue
  simp only [enterBlock_blocks, leaveBlock_blocks]
  refine mem_pushTo_of_ne _ (mem_pushTo_of_ne _ ?_
      ((by omega : ∀ u n : Int, u ≤ n → n + 2 ≠ u) _ _ hle))
    ((by omega : ∀ u n : Int, u ≤ n → n + 2 ≠ u) _ _ hle)
  simp [int_add_one_one, int_add_two_one]

theorem mergeBlock_mem_ifPrologue (v t : spirv.ID) {s : EmitState}
    (hle : t ≤ s.nextId) :
    (⟨s.nextId + 3, "if_merge", ([] : List spirv.SInstr)⟩ : spirv.SBlock)
      ∈ (ifPrologue v t s).blocks := by
  unfold ifPrologue
  simp only [enterBlock_blocks, leaveBlock_blocks]
  refine mem_pushTo_of_ne _ (mem_pushTo_of_ne _ ?_
      ((by omega : ∀ u n : Int, u ≤ n → n + 3 ≠ u) _ _ hle))
    ((by omega : ∀ u n : Int, u ≤ n → n + 3 ≠ u) _ _ hle)
  simp [int_add_one_one, int_add_two_one]

end compiler

/-- C3 (amended): lowering `if` with a current block `t` allocates the three
fresh blocks `nextId+1` (true), `nextId+2` (false), `nextId+3` (merge); the
block current at the condition receives `SelectionMerge(merge, None)`
immediately followed by `BranchConditional(cond, true, false)`; the
branch-unless-terminated check is applied to the ALLOCATED true and false
blocks (not to the block in which the branch body's emission ended), so both
allocated blocks are terminated afterwards; nothing is ever emitted into the
merge block by the `if` lowering itself, and the merge block is current when
the lowering returns. -/
theorem C3_emitIfStmt_amended
    (v : spirv.ID) (body els : compiler.MStmt) (s : compiler.EmitState)
    (t : spirv.ID) (rest : List spirv.ID) (bc : spirv.SBlock)
    (hstack : s.blockStack = t :: rest)
    (hwf : compiler.blocksWF s)
    (hbc : bc ∈ s.blocks) (hbct : bc.id = t) :
    (compiler.emitStatement (.ifStmt (.preValue v) body els) s).blockStack
        = (s.nextId + 3) :: rest
    ∧ (⟨t, bc.name, bc.instructions ++
          [spirv.SInstr.selectionMerge (s.nextId + 3) 0,
           spirv.SInstr.branchConditional v (s.nextId + 1) (s.nextId + 2)]⟩ :
        spirv.SBlock) ∈
        (compiler.emitStatement (.ifStmt (.preValue v) body els) s).blocks
    ∧ (⟨s.nextId + 3, "if_merge", ([] : List spirv.SInstr)⟩ : spirv.SBlock) ∈
        (compiler.emitStatement (.ifStmt (.preValue v) body els) s).blocks
    ∧ (∃ bT ∈ (compiler.emitStatement (.ifStmt (.preValue v) body els)
          s).blocks,
        bT.id = s.nextId + 1 ∧ bT.name = "true_block" ∧
          bT.isTerminated = true)
    ∧ (∃ bF ∈ (compiler.emitStatement (.ifStmt (.preValue v) body els)
          s).blocks,
        bF.id = s.nextId + 2 ∧ bF.name = "false_block" ∧
          bF.isTerminated = true) := by
  have hle : t ≤ s.nextId := by
    rw [← hbct]
    exact hwf.2 bc hbc
  rw [compiler.emitStatement_ifStmt_some v body els s t rest hstack]
  have hX1stk : (compiler.ifPrologue v t s).blockStack
      = (s.nextId + 1) :: rest := by
    simp [hstack]
  obtain ⟨tb, hbstk, -⟩ :=
    compiler.emitStatement_blockStack body (compiler.ifPrologue v t s)
      (s.nextId + 1) rest hX1stk
  have hX2stk : (compiler.enterBlock (s.nextId + 2) (compiler.leaveBlock
      (compiler.branchToMergeBlockIfNeeded (s.nextId + 1) (s.nextId + 3)
        (compiler.emitStatement body
          (compiler.ifPrologue v t s))))).blockStack
      = (s.nextId + 2) :: rest := by
    simp [hbstk]
  obtain ⟨te, hestk, -⟩ :=
    compiler.emitStatement_blockStack els _ (s.nextId + 2) rest hX2stk
  have hwf8 : compiler.blocksWF (compiler.emitStatement body
      (compiler.ifPrologue v t s)) :=
    compiler.emitStatement_wf body _ (s.nextId + 1) rest hX1stk
      (compiler.ifPrologue_wf v t hwf)
  have hmono8 : s.nextId + 3 ≤ (compiler.emitStatement body
      (compiler.ifPrologue v t s)).nextId := by
    simpa using compiler.emitStatement_nextId_mono body
      (compiler.ifPrologue v t s)
  have hwf12 : compiler.blocksWF (compiler.emitStatement els
      (compiler.enterBlock (s.nextId + 2) (compiler.leaveBlock
        (compiler.branchToMergeBlockIfNeeded (s.nextId + 1) (s.nextId + 3)
          (compiler.emitStatement body (compiler.ifPrologue v t s)))))) :=
    compiler.emitStatement_wf els _ (s.nextId + 2) rest hX2stk
      (compiler.blocksWF_enterBlock _ (compiler.blocksWF_leaveBlock
        (compiler.blocksWF_branchToMerge _ _ hwf8)))
  refine ⟨?_, ?_, ?_, ?_, ?_⟩
  · simp [hestk]
  · have h2a := compiler.cond_mem_ifPrologue v t hbc hbct
    have h2b := compiler.emitStatement_frame body _ (s.nextId + 1) rest _
      hX1stk h2a ((by omega : ∀ x n : Int, x ≤ n → x ≠ n + 1) _ _ hle)
      (by
        simp only [compiler.ifPrologue_nextId]
        exact (by omega : ∀ x n : Int, x ≤ n → x ≤ n + 3) _ _ hle)
    have h2c := compiler.mem_branchToMerge_of_ne (s.nextId + 3) h2b
      ((by omega : ∀ x n : Int, x ≤ n → x ≠ n + 1) _ _ hle)
    have h2d := compiler.emitStatement_frame els _ (s.nextId + 2) rest _
      hX2stk (by simpa using h2c)
      ((by omega : ∀ x n : Int, x ≤ n → x ≠ n + 2) _ _ hle)
      (by
        simp only [compiler.enterBlock_nextId, compiler.leaveBlock_nextId,
          compiler.branchToMerge_nextId]
        exact (by omega : ∀ x n y : Int, x ≤ n → n + 3 ≤ y → x ≤ y) _ _ _
          hle hmono8)
    have h2e := compiler.mem_branchToMerge_of_ne (s.nextId + 3) h2d
      ((by omega : ∀ x n : Int, x ≤ n → x ≠ n + 2) _ _ hle)
    simpa using h2e
  · have h3a := compiler.mergeBlock_mem_ifPrologue v t hle
    have h3b := compiler.emitStatement_frame body _ (s.nextId + 1) rest _
      hX1stk h3a ((by omega : ∀ n : Int, n + 3 ≠ n + 1) _)
      (by simp)
    have h3c := compiler.mem_branchToMerge_of_ne (s.nextId + 3) h3b
      ((by omega : ∀ n : Int, n + 3 ≠ n + 1) _)
    have h3d := compiler.emitStatement_frame els _ (s.nextId + 2) rest _
      hX2stk (by simpa using h3c)
      ((by omega : ∀ n : Int, n + 3 ≠ n + 2) _)
      (by
        simp only [compiler.enterBlock_nextId, compiler.leaveBlock_nextId,
          compiler.branchToMerge_nextId]
        exact le_trans (le_refl _) hmono8)
    have h3e := compiler.mem_branchToMerge_of_ne (s.nextId + 3) h3d
      ((by omega : ∀ n : Int, n + 3 ≠ n + 2) _)
    simpa using h3e
  · obtain ⟨J, hJ⟩ := compiler.emitStatement_extends body _ (s.nextId + 1)
      rest hX1stk (s.nextId + 1) "true_block" []
      (compiler.trueBlock_mem_ifPrologue v t hle)
    rw [List.nil_append] at hJ
    obtain ⟨bT, hbTmem, hbTid, hbTname, hbTterm, -⟩ :=
      compiler.branchToMerge_terminates (s.nextId + 1) (s.nextId + 3)
        "true_block" J hwf8.1 hJ
    have h4d := compiler.emitStatement_frame els _ (s.nextId + 2) rest bT
      hX2stk (by simpa using hbTmem)
      (by
        rw [hbTid]
        exact (by omega : ∀ n : Int, n + 1 ≠ n + 2) _)
      (by
        rw [hbTid]
        simp only [compiler.enterBlock_nextId, compiler.leaveBlock_nextId,
          compiler.branchToMerge_nextId]
        exact (by omega : ∀ n y : Int, n + 3 ≤ y → n + 1 ≤ y) _ _ hmono8)
    have h4e := compiler.mem_branchToMerge_of_ne (s.nextId + 3) h4d
      (by
        rw [hbTid]
        exact (by omega : ∀ n : Int, n + 1 ≠ n + 2) _)
    exact ⟨bT, by simpa using h4e, hbTid, hbTname, hbTterm⟩
  · have h5a := compiler.falseBlock_mem_ifPrologue v t hle
    have h5b := compiler.emitStatement_frame body _ (s.nextId + 1) rest _
      hX1stk h5a ((by omega : ∀ n : Int, n + 2 ≠ n + 1) _)
      (by
        simp only [compiler.ifPrologue_nextId]
        exact (by omega : ∀ n : Int, n + 2 ≤ n + 3) _)
    have h5c := compiler.mem_branchToMerge_of_ne (s.nextId + 3) h5b
      ((by omega : ∀ n : Int, n + 2 ≠ n + 1) _)
    obtain ⟨J, hJ⟩ := compiler.emitStatement_extends els _ (s.nextId + 2)
      rest hX2stk (s.nextId + 2) "false_block" [] (by simpa using h5c)
    rw [List.nil_append] at hJ
    obtain ⟨bF, hbFmem, hbFid, hbFname, hbFterm, -⟩ :=
      compiler.branchToMerge_terminates (s.nextId + 2) (s.nextId + 3)
        "false_block" J hwf12.1 hJ
    exact ⟨bF, by simpa using hbFmem, hbFid, hbFname, hbFterm⟩

/-- C3 counterexample.  Lowering `if p { return }` (no else) inside a
function `p` whose entry block is empty: the true branch's body is a
`return`, whose emission terminates the allocated true block (id 2) and
then creates and enters a fresh block (id 5, named after the function), so
the branch's emission ends in block 5.  Block 5 is not terminated, yet it
receives no `Branch` to the merge block: the branch-to-merge check was
applied to the allocated true block 2 (already terminated by the
`Return`), refuting the claim that the block in which the branch's
emission ended receives the `Branch`.  (The lowering also allocated four
fresh blocks, not three.) -/
theorem C3_emitIfStmt_counterexample :
    compiler.emitStatement (.ifStmt (.preValue 100) (.seq .ret .skip) .skip)
        ⟨1, "p", [⟨1, "entry_p", []⟩], [1]⟩ =
      ⟨5, "p",
        [⟨1, "entry_p", [.selectionMerge 4 0, .branchConditional 100 2 3]⟩,
         ⟨2, "true_block", [.ret]⟩,
         ⟨3, "false_block", [.branch 4]⟩,
         ⟨4, "if_merge", []⟩,
         ⟨5, "p", []⟩],
        [4]⟩
    ∧ compiler.currentBlock? (compiler.emitStatement (.seq .ret .skip)
        (compiler.ifPrologue 100 1 ⟨1, "p", [⟨1, "entry_p", []⟩], [1]⟩))
      = some 5
    ∧ (⟨5, "p", ([] : List spirv.SInstr)⟩ : spirv.SBlock).isTerminated
      = false := by
  decide

/-- Witness for the amended C3 at the lowering of `if p { return }` in a
function `p` with a single empty entry block. -/
theorem C3_emitIfStmt_amended_witness :
    (⟨1, "p", [⟨1, "entry_p", []⟩], [1]⟩ :
        compiler.EmitState).blockStack = 1 :: []
    ∧ compiler.blocksWF ⟨1, "p", [⟨1, "entry_p", []⟩], [1]⟩
    ∧ (⟨1, "entry_p", []⟩ : spirv.SBlock) ∈
        (⟨1, "p", [⟨1, "entry_p", []⟩], [1]⟩ :
          compiler.EmitState).blocks
    ∧ ((compiler.emitStatement (.ifStmt (.preValue 100) (.seq .ret .skip)
            .skip) ⟨1, "p", [⟨1, "entry_p", []⟩], [1]⟩).blockStack = 4 :: []
      ∧ (⟨1, "entry_p", [spirv.SInstr.selectionMerge 4 0,
            spirv.SInstr.branchConditional 100 2 3]⟩ : spirv.SBlock) ∈
          (compiler.emitStatement (.ifStmt (.preValue 100) (.seq .ret .skip)
            .skip) ⟨1, "p", [⟨1, "entry_p", []⟩], [1]⟩).blocks
      ∧ (⟨4, "if_merge", ([] : List spirv.SInstr)⟩ : spirv.SBlock) ∈
          (compiler.emitStatement (.ifStmt (.preValue 100) (.seq .ret .skip)
            .skip) ⟨1, "p", [⟨1, "entry_p", []⟩], [1]⟩).blocks
      ∧ (∃ bT ∈ (compiler.emitStatement (.ifStmt (.preValue 100)
            (.seq .ret .skip) .skip)
            ⟨1, "p", [⟨1, "entry_p", []⟩], [1]⟩).blocks,
          bT.id = 2 ∧ bT.name = "true_block" ∧ bT.isTerminated = true)
      ∧ (∃ bF ∈ (compiler.emitStatement (.ifStmt (.preValue 100)
            (.seq .ret .skip) .skip)
            ⟨1, "p", [⟨1, "entry_p", []⟩], [1]⟩).blocks,
          bF.id = 3 ∧ bF.name = "false_block" ∧ bF.isTerminated = true)) :=
  ⟨rfl, ⟨by decide, by decide⟩, by decide,
    C3_emitIfStmt_amended 100 (.seq .ret .skip) .skip
      ⟨1, "p", [⟨1, "entry_p", []⟩], [1]⟩ 1 [] ⟨1, "entry_p", []⟩
      rfl ⟨by decide, by decide⟩ (by decide) rfl⟩

namespace compiler

/-- The initialiser expressions `emitVar` distinguishes: the type switch in
its tail cares only about the top-level node (`*LiteralExpr`,
`*IdentifierExpr`, anything else).  `parenE` is `*ParenExpr`, whose
emission recurses into the base; `identE` stands for an identifier bound
to a non-variable object (e.g. a function parameter), which
`emitIdentifierExpr` returns directly. -/
inductive VExpr where
  | litE (value : Int)
  | identE (objId : spirv.ID)
  | parenE (base : VExpr)
  deriving DecidableEq, Repr

/-- The constant-pool key `InternIntConstant` computes for a 32-bit signed
int constant. -/
def intConstKey (c : Int) : String :=
  "const_" ++ spirv.SType.hashKey (.intT 32 true) ++ "_" ++ toString c

/-- `IREmitter.emitConstantValue` on an `int`-typed constant:
`emitType` interns the int type, then `InternIntConstant` interns the
value (`none` models the panic when the pool index is dangling). -/
def emitConstantValueInt (m : spirv.SModule) (c : Int) :
    Option (spirv.ID × spirv.SModule) :=
  let r1 := m.internInt 32 true
  let r2 := r1.2.internIntConstant c r1.1 32 true
  match r2.1 with
  | some o => some (o.objId, r2.2)
  | none => none

/-- `IREmitter.emitExpression` on this fragment (literals, non-variable
identifiers, parenthesised expressions). -/
def emitExpressionV : VExpr → spirv.SModule → Option (spirv.ID × spirv.SModule)
  | .litE c, m => emitConstantValueInt m c
  | .identE oid, m => some (oid, m)
  | .parenE e, m => emitExpressionV e m

/-- `IREmitter.emitVar` for an `int`-typed local symbol: intern the int
type and its pointer type, create the `Variable` object, compute the
static initialiser id when `InitTypeAndValue` is a constant, push the
`Variable` instruction into the current block, and push a `Store` of the
emitted initialiser value only when the initialiser expression is neither
a literal nor an identifier.  Returns the variable id, the module, and
the current block. -/
def emitVarInt (name : String) (initConst? : Option Int)
    (initExpr : Option VExpr) (sc : Int) (m : spirv.SModule)
    (block : spirv.SBlock) :
    Option (spirv.ID × spirv.SModule × spirv.SBlock) :=
  let r1 := m.internInt 32 true
  let r2 := r1.2.internPtr (.intT 32 true) sc
  let r3 := r2.2.newVariable name r2.1 sc
  let init :=
    match initConst? with
    | some c => emitConstantValueInt r3.2 c
    | none => some (0, r3.2)
  match init with
  | none => none
  | some (initValueID, m4) =>
    let b1 := block.push (.variableI r2.1 r3.1 sc initValueID)
    match initExpr with
    | none => some (r3.1, m4, b1)
    | some (.litE _) => some (r3.1, m4, b1)
    | some (.identE _) => some (r3.1, m4, b1)
    | some e =>
      match emitExpressionV e m4 with
      | none => none
      | some (rid, m5) => some (r3.1, m5, b1.push (.store r3.1 rid))

end compiler

namespace spirv

theorem getObject_addObject_self (m : SModule) (o : SObject) :
    (m.addObject o).getObject o.objId = some o := by
  simp [SModule.getObject, SModule.addObject, alistFind,
    List.getElem?_append_right (Nat.le_refl _)]

theorem getObject_addObject_ne (m : SModule) (o : SObject) (i : ID)
    (hne : ¬ (o.objId = i)) (x : SObject) (hx : m.getObject i = some x) :
    (m.addObject o).getObject i = some x := by
  unfold SModule.getObject at hx ⊢
  unfold SModule.addObject
  simp only [alistFind]
  rw [if_neg hne]
  cases hf : alistFind i m.objectsByID with
  | none =>
    rw [hf] at hx
    cases hx
  | some idx =>
    rw [hf] at hx
    dsimp only at hx ⊢
    have hlt : idx < m.objects.length := by
      rcases List.getElem?_eq_some.mp hx with ⟨hl, -⟩
      exact hl
    rw [List.getElem?_append_left hlt]
    exact hx

end spirv

namespace compiler

theorem internInt_constantsByKey (m : spirv.SModule) (b : Int) (sg : Bool) :
    (m.internInt b sg).2.constantsByKey = m.constantsByKey := by
  simp only [spirv.SModule.internInt]
  cases salistFind (spirv.SType.hashKey (.intT b sg)) m.typesByKey with
  | none => simp [spirv.SModule.newID, spirv.SModule.addObject,
      spirv.SObject.isConstantValue]
  | some idx =>
    dsimp only
    cases m.objects[idx]? <;> rfl

theorem internInt_idGenerator_mono (m : spirv.SModule) (b : Int)
    (sg : Bool) : m.idGenerator ≤ (m.internInt b sg).2.idGenerator := by
  simp only [spirv.SModule.internInt]
  cases salistFind (spirv.SType.hashKey (.intT b sg)) m.typesByKey with
  | none =>
    simp [spirv.SModule.newID, spirv.SModule.addObject]
  | some idx =>
    dsimp only
    cases m.objects[idx]? <;> exact le_refl _

theorem internPtr_constantsByKey (m : spirv.SModule) (t : spirv.SType)
    (sc : Int) : (m.internPtr t sc).2.constantsByKey = m.constantsByKey := by
  simp only [spirv.SModule.internPtr]
  cases salistFind (spirv.SType.hashKey (.ptr t sc)) m.typesByKey with
  | none => simp [spirv.SModule.newID, spirv.SModule.addObject,
      spirv.SObject.isConstantValue]
  | some idx =>
    dsimp only
    cases m.objects[idx]? <;> rfl

theorem newVariable_constantsByKey (m : spirv.SModule) (nm : String)
    (pid : spirv.ID) (sc : Int) :
    (m.newVariable nm pid sc).2.constantsByKey = m.constantsByKey := by
  simp [spirv.SModule.newVariable, spirv.SModule.newID,
    spirv.SModule.addObject, spirv.SObject.isConstantValue]

end compiler

namespace compiler

theorem internInt_getObject (m : spirv.SModule) (b : Int) (sg : Bool)
    (i : spirv.ID) (x : spirv.SObject) (hle : i ≤ m.idGenerator)
    (hx : m.getObject i = some x) :
    (m.internInt b sg).2.getObject i = some x := by
  simp only [spirv.SModule.internInt]
  cases salistFind (spirv.SType.hashKey (.intT b sg)) m.typesByKey with
  | none =>
    simp only [spirv.SModule.newID]
    refine spirv.getObject_addObject_ne _ _ _ ?_ _ hx
    simp only [spirv.SObject.objId]
    exact fun he =>
      absurd hle ((by omega : ∀ g j : Int, g + 1 = j → ¬ j ≤ g) _ _ he)
  | some idx =>
    dsimp only
    cases m.objects[idx]? <;> exact hx

theorem internIntConstant_getObject (m : spirv.SModule) (c : Int)
    (tid : spirv.ID) (b : Int) (sg : Bool) (i : spirv.ID)
    (x : spirv.SObject) (hle : i ≤ m.idGenerator)
    (hx : m.getObject i = some x) :
    (m.internIntConstant c tid b sg).2.getObject i = some x := by
  simp only [spirv.SModule.internIntConstant]
  cases salistFind ("const_" ++ spirv.SType.hashKey (.intT b sg) ++ "_"
      ++ toString c) m.constantsByKey with
  | none =>
    simp only [spirv.SModule.newID]
    refine spirv.getObject_addObject_ne _ _ _ ?_ _ hx
    simp only [spirv.SObject.objId]
    exact fun he =>
      absurd hle ((by omega : ∀ g j : Int, g + 1 = j → ¬ j ≤ g) _ _ he)
  | some idx => exact hx

theorem internIntConstant_idGenerator_mono (m : spirv.SModule) (c : Int)
    (tid : spirv.ID) (b : Int) (sg : Bool) :
    m.idGenerator ≤ (m.internIntConstant c tid b sg).2.idGenerator := by
  simp only [spirv.SModule.internIntConstant]
  cases salistFind ("const_" ++ spirv.SType.hashKey (.intT b sg) ++ "_"
      ++ toString c) m.constantsByKey with
  | none =>
    simp [spirv.SModule.newID, spirv.SModule.addObject]
  | some idx => exact le_refl _

/-- Expression emission only allocates fresh objects: registered objects
with in-range ids survive. -/
theorem emitExpressionV_getObject (e : VExpr) :
    ∀ (m m' : spirv.SModule) (rid : spirv.ID),
      emitExpressionV e m = some (rid, m') →
      ∀ (i : spirv.ID) (x : spirv.SObject), i ≤ m.idGenerator →
        m.getObject i = some x → m'.getObject i = some x := by
  induction e with
  | litE c =>
    intro m m' rid h i x hle hx
    simp only [emitExpressionV, emitConstantValueInt] at h
    cases hq : ((m.internInt 32 true).2.internIntConstant c
        (m.internInt 32 true).1 32 true).1 with
    | none => rw [hq] at h; cases h
    | some o =>
      rw [hq] at h
      dsimp only at h
      obtain ⟨-, hm'⟩ := Prod.mk.inj (Option.some.inj h)
      rw [← hm']
      refine internIntConstant_getObject _ _ _ _ _ _ _
        (le_trans hle (internInt_idGenerator_mono m 32 true)) ?_
      exact internInt_getObject m 32 true i x hle hx
  | identE oid =>
    intro m m' rid h i x hle hx
    simp only [emitExpressionV] at h
    obtain ⟨-, hm'⟩ := Prod.mk.inj (Option.some.inj h)
    rw [← hm']
    exact hx
  | parenE e ih =>
    intro m m' rid h i x hle hx
    simp only [emitExpressionV] at h
    exact ih m m' rid h i x hle hx

theorem emitExpressionV_idGenerator_mono (e : VExpr) :
    ∀ (m m' : spirv.SModule) (rid : spirv.ID),
      emitExpressionV e m = some (rid, m') →
      m.idGenerator ≤ m'.idGenerator := by
  induction e with
  | litE c =>
    intro m m' rid h
    simp only [emitExpressionV, emitConstantValueInt] at h
    cases hq : ((m.internInt 32 true).2.internIntConstant c
        (m.internInt 32 true).1 32 true).1 with
    | none => rw [hq] at h; cases h
    | some o =>
      rw [hq] at h
      dsimp only at h
      obtain ⟨-, hm'⟩ := Prod.mk.inj (Option.some.inj h)
      rw [← hm']
      exact le_trans (internInt_idGenerator_mono m 32 true)
        (internIntConstant_idGenerator_mono _ c _ 32 true)
  | identE oid =>
    intro m m' rid h
    simp only [emitExpressionV] at h
    obtain ⟨-, hm'⟩ := Prod.mk.inj (Option.some.inj h)
    rw [← hm']
  | parenE e ih =>
    intro m m' rid h
    simp only [emitExpressionV] at h
    exact ih m m' rid h

end compiler

/-- C4 (amended): `emitVar` for an int-typed local pushes one pointer-typed
`Variable` instruction in the given storage class (`Function` = 7 for local
declarations); the static `Initializer` field is the interned constant when
`InitTypeAndValue` is a constant and `0` (absent) otherwise; a `Store` of
the emitted initialiser value follows ONLY when the initialiser expression
is neither a literal nor an identifier — in particular `var a int = 2`
produces no `Store` (the constant travels in the `Initializer` field), and
a non-constant identifier initialiser produces neither a `Store` nor an
initialiser. -/
theorem C4_emitVar_amended
    (name : String) (initConst? : Option Int)
    (initExpr : Option compiler.VExpr) (sc : Int) (m : spirv.SModule)
    (block : spirv.SBlock) (r : spirv.ID × spirv.SModule × spirv.SBlock)
    (h : compiler.emitVarInt name initConst? initExpr sc m block = some r) :
    ∃ pid cinit,
      (match initExpr with
       | none => r.2.2.instructions =
           block.instructions ++ [spirv.SInstr.variableI pid r.1 sc cinit]
       | some (.litE _) => r.2.2.instructions =
           block.instructions ++ [spirv.SInstr.variableI pid r.1 sc cinit]
       | some (.identE _) => r.2.2.instructions =
           block.instructions ++ [spirv.SInstr.variableI pid r.1 sc cinit]
       | some (.parenE _) => ∃ rid, r.2.2.instructions =
           block.instructions ++ [spirv.SInstr.variableI pid r.1 sc cinit,
             spirv.SInstr.store r.1 rid])
      ∧ (initConst? = none → cinit = 0)
      ∧ (∀ c, initConst? = some c →
          salistFind (compiler.intConstKey c) m.constantsByKey = none →
          ∃ tid, r.2.1.getObject cinit =
            some (.constInt cinit (compiler.intConstKey c) tid c)) := by
  simp only [compiler.emitVarInt] at h
  cases initConst? with
  | none =>
    dsimp only at h
    cases initExpr with
    | none =>
      obtain rfl := Option.some.inj h
      refine ⟨((m.internInt 32 true).2.internPtr (spirv.SType.intT 32 true)
        sc).1, 0, ?_, fun _ => rfl, fun c hc => Option.noConfusion hc⟩
      dsimp only
      simp [spirv.SBlock.push]
    | some e =>
      cases e with
      | litE c0 =>
        obtain rfl := Option.some.inj h
        refine ⟨((m.internInt 32 true).2.internPtr (spirv.SType.intT 32 true)
          sc).1, 0, ?_, fun _ => rfl, fun c hc => Option.noConfusion hc⟩
        dsimp only
        simp [spirv.SBlock.push]
      | identE i0 =>
        obtain rfl := Option.some.inj h
        refine ⟨((m.internInt 32 true).2.internPtr (spirv.SType.intT 32 true)
          sc).1, 0, ?_, fun _ => rfl, fun c hc => Option.noConfusion hc⟩
        dsimp only
        simp [spirv.SBlock.push]
      | parenE e0 =>
        dsimp only at h
        cases hee : compiler.emitExpressionV (.parenE e0)
            (((m.internInt 32 true).2.internPtr (spirv.SType.intT 32 true)
              sc).2.newVariable name ((m.internInt 32 true).2.internPtr
                (spirv.SType.intT 32 true) sc).1 sc).2 with
        | none =>
          rw [hee] at h
          cases h
        | some p =>
          obtain ⟨rid, m5⟩ := p
          rw [hee] at h
          dsimp only at h
          obtain rfl := Option.some.inj h
          refine ⟨((m.internInt 32 true).2.internPtr
            (spirv.SType.intT 32 true) sc).1, 0, ?_, fun _ => rfl,
            fun c hc => Option.noConfusion hc⟩
          dsimp only
          refine ⟨rid, ?_⟩
          simp [spirv.SBlock.push]
  | some c =>
    dsimp only at h
    cases hcv : compiler.emitConstantValueInt
        (((m.internInt 32 true).2.internPtr (spirv.SType.intT 32 true)
          sc).2.newVariable name ((m.internInt 32 true).2.internPtr
            (spirv.SType.intT 32 true) sc).1 sc).2 c with
    | none =>
      rw [hcv] at h
      cases h
    | some q =>
      obtain ⟨cid, m4⟩ := q
      rw [hcv] at h
      dsimp only at h
      have hobj : salistFind (compiler.intConstKey c) m.constantsByKey
            = none →
          (∃ tid, m4.getObject cid =
            some (.constInt cid (compiler.intConstKey c) tid c)) ∧
          cid = m4.idGenerator := by
        intro hfresh
        have hck : (((((m.internInt 32 true).2.internPtr
            (spirv.SType.intT 32 true) sc).2.newVariable name
            ((m.internInt 32 true).2.internPtr (spirv.SType.intT 32 true)
              sc).1 sc).2).internInt 32 true).2.constantsByKey
            = m.constantsByKey := by
          rw [compiler.internInt_constantsByKey,
            compiler.newVariable_constantsByKey,
            compiler.internPtr_constantsByKey,
            compiler.internInt_constantsByKey]
        simp only [compiler.emitConstantValueInt,
          spirv.SModule.internIntConstant] at hcv
        rw [hck] at hcv
        rw [show ("const_" ++ spirv.SType.hashKey (spirv.SType.intT 32 true)
          ++ "_" ++ toString c) = compiler.intConstKey c from rfl] at hcv
        rw [hfresh] at hcv
        dsimp only [spirv.SModule.newID] at hcv
        obtain ⟨h1, h2⟩ := Prod.mk.inj (Option.some.inj hcv)
        constructor
        · refine ⟨(((((m.internInt 32 true).2.internPtr
            (spirv.SType.intT 32 true) sc).2.newVariable name
            ((m.internInt 32 true).2.internPtr (spirv.SType.intT 32 true)
              sc).1 sc).2).internInt 32 true).1, ?_⟩
          rw [← h2, ← h1]
          exact spirv.getObject_addObject_self _ _
        · rw [← h2, ← h1]
          simp [spirv.SModule.addObject, spirv.SObject.objId]
      cases initExpr with
      | none =>
        obtain rfl := Option.some.inj h
        refine ⟨((m.internInt 32 true).2.internPtr (spirv.SType.intT 32 true)
          sc).1, cid, ?_, fun hn => Option.noConfusion hn, ?_⟩
        · dsimp only
          simp [spirv.SBlock.push]
        · intro c' hc' hfresh
          obtain rfl := Option.some.inj hc'
          exact (hobj hfresh).1
      | some e =>
        cases e with
        | litE c0 =>
          obtain rfl := Option.some.inj h
          refine ⟨((m.internInt 32 true).2.internPtr
            (spirv.SType.intT 32 true) sc).1, cid, ?_, fun hn => Option.noConfusion hn,
            ?_⟩
          · dsimp only
            simp [spirv.SBlock.push]
          · intro c' hc' hfresh
            obtain rfl := Option.some.inj hc'
            exact (hobj hfresh).1
        | identE i0 =>
          obtain rfl := Option.some.inj h
          refine ⟨((m.internInt 32 true).2.internPtr
            (spirv.SType.intT 32 true) sc).1, cid, ?_, fun hn => Option.noConfusion hn,
            ?_⟩
          · dsimp only
            simp [spirv.SBlock.push]
          · intro c' hc' hfresh
            obtain rfl := Option.some.inj hc'
            exact (hobj hfresh).1
        | parenE e0 =>
          dsimp only at h
          cases hee : compiler.emitExpressionV (.parenE e0) m4 with
          | none =>
            rw [hee] at h
            cases h
          | some p =>
            obtain ⟨rid, m5⟩ := p
            rw [hee] at h
            dsimp only at h
            obtain rfl := Option.some.inj h
            refine ⟨((m.internInt 32 true).2.internPtr
              (spirv.SType.intT 32 true) sc).1, cid, ?_, ?_, ?_⟩
            · dsimp only
              refine ⟨rid, ?_⟩
              simp [spirv.SBlock.push]
            · intro hn
              exact Option.noConfusion hn
            · intro c' hc' hfresh
              obtain rfl := Option.some.inj hc'
              obtain ⟨⟨tid, hget⟩, hgen⟩ := hobj hfresh
              refine ⟨tid, ?_⟩
              dsimp only
              exact compiler.emitExpressionV_getObject (.parenE e0) m4 m5
                rid hee cid _ (le_of_eq hgen) hget

/-- C4 counterexample.  `var a int = 2` (constant `InitTypeAndValue`,
literal initialiser expression): the block receives exactly one
instruction — the `Variable` with the interned constant `2` as its static
`Initializer` (id 4) — and NO `Store` follows, contradicting the claimed
`Variable(func) a; Store a, 2` sequence.  Moreover `var x int = p` with a
non-constant identifier initialiser also gets no `Store` (and a zero
`Initializer`), contradicting `every non-constant initialiser expression
is emitted as a subsequent Store`. -/
theorem C4_emitVar_counterexample :
    (compiler.emitVarInt "a" (some 2) (some (.litE 2))
        spirv.StorageClassFunction (spirv.newModule 0 0)
        ⟨100, "entry_f", []⟩).map (fun r => (r.1, r.2.2))
      = some (3, ⟨100, "entry_f", [.variableI 2 3 7 4]⟩)
    ∧ (compiler.emitVarInt "a" (some 2) (some (.litE 2))
        spirv.StorageClassFunction (spirv.newModule 0 0)
        ⟨100, "entry_f", []⟩).map (fun r => r.2.1.getObject 4)
      = some (some (.constInt 4 "const_int32_2" 1 2))
    ∧ (compiler.emitVarInt "x" none (some (.identE 55))
        spirv.StorageClassFunction (spirv.newModule 0 0)
        ⟨100, "entry_f", []⟩).map (fun r => (r.1, r.2.2))
      = some (3, ⟨100, "entry_f", [.variableI 2 3 7 0]⟩) := by
  decide

/-- Witness for the amended C4 at `var a int = 2` from a fresh module. -/
theorem C4_emitVar_amended_witness :
    compiler.emitVarInt "a" (some 2) (some (.litE 2)) 7
        (spirv.newModule 0 0) ⟨100, "entry_f", []⟩
      = some (3,
          ⟨4,
           [.typeO 1 "int32" (.intT 32 true),
            .typeO 2 "ptr(int32,7)" (.ptr (.intT 32 true) 7),
            .variableO 3 "a" 2 7,
            .constInt 4 "const_int32_2" 1 2],
           [(4, 3), (3, 2), (2, 1), (1, 0)],
           [("ptr(int32,7)", 1), ("int32", 0)],
           [("const_int32_2", 3)], [], 0, 0⟩,
          ⟨100, "entry_f", [.variableI 2 3 7 4]⟩)
    ∧ ∃ pid cinit,
        ([spirv.SInstr.variableI 2 3 7 4] : List spirv.SInstr)
          = [] ++ [spirv.SInstr.variableI pid 3 7 cinit]
        ∧ ((some 2 : Option Int) = none → cinit = 0)
        ∧ (∀ c, (some 2 : Option Int) = some c →
            salistFind (compiler.intConstKey c)
              (spirv.newModule 0 0).constantsByKey = none →
            ∃ tid,
              spirv.SModule.getObject
                ⟨4,
                 [.typeO 1 "int32" (.intT 32 true),
                  .typeO 2 "ptr(int32,7)" (.ptr (.intT 32 true) 7),
                  .variableO 3 "a" 2 7,
                  .constInt 4 "const_int32_2" 1 2],
                 [(4, 3), (3, 2), (2, 1), (1, 0)],
                 [("ptr(int32,7)", 1), ("int32", 0)],
                 [("const_int32_2", 3)], [], 0, 0⟩ cinit
                = some (.constInt cinit (compiler.intConstKey c) tid c)) :=
  ⟨by decide,
    C4_emitVar_amended "a" (some 2) (some (.litE 2)) 7 (spirv.newModule 0 0)
      ⟨100, "entry_f", []⟩
      (3,
        ⟨4,
         [.typeO 1 "int32" (.intT 32 true),
          .typeO 2 "ptr(int32,7)" (.ptr (.intT 32 true) 7),
          .variableO 3 "a" 2 7,
          .constInt 4 "const_int32_2" 1 2],
         [(4, 3), (3, 2), (2, 1), (1, 0)],
         [("ptr(int32,7)", 1), ("int32", 0)],
         [("const_int32_2", 3)], [], 0, 0⟩,
        ⟨100, "entry_f", [.variableI 2 3 7 4]⟩) (by decide)⟩

namespace spirv

/-- `BinaryPrinter.emitInstruction` restricted to the embedded instruction
records: only `Return`, `ReturnValue` and `IAdd` are in the printer's type
switch; everything else (`Variable`, `Load`, `Store`, the branch and merge
family, `Unreachable`, `Switch`) falls into `default:
panic("unsupported instruction")`, modelled as `none`. -/
def binEmitInstruction : SInstr → Option (List Nat)
  | .ret => some (binEmitOp Opcode.opReturn.code [])
  | .retValue v => some (binEmitOp Opcode.opReturnValue.code [intToWord v])
  | .iadd t r a b => some (binEmitOp Opcode.opIAdd.code
      [intToWord t, intToWord r, intToWord a, intToWord b])
  | _ => none

def binEmitInstrs : List SInstr → Option (List (List Nat))
  | [] => some []
  | i :: rest => do
    let g ← binEmitInstruction i
    let gs ← binEmitInstrs rest
    return g :: gs

/-- `BinaryPrinter.emitBlock`: one `OpLabel` word group, then the block's
instructions in order. -/
def binEmitBlock (b : SBlock) : Option (List (List Nat)) := do
  let gs ← binEmitInstrs b.instructions
  return binEmitOp Opcode.opLabel.code [intToWord b.id] :: gs

def binEmitBlocks : List SBlock → Option (List (List Nat))
  | [] => some []
  | b :: rest => do
    let gs ← binEmitBlock b
    let rest' ← binEmitBlocks rest
    return gs ++ rest'

/-- `BinaryPrinter.emitFunction`: one `OpFunction` word group
(`ReturnType.ID`, function id, `FunctionControlNone = 0`, `Type.ID`), then
the blocks, then one `OpFunctionEnd` group.  The parameter list
`f.Params` is never consulted. -/
def binEmitFunction (f : SFunction) : Option (List (List Nat)) := do
  let blocks ← binEmitBlocks f.blocks
  return binEmitOp Opcode.opFunction.code
      [intToWord f.type.returnTypeId, intToWord f.id, 0,
        intToWord f.type.id]
    :: (blocks ++ [binEmitOp Opcode.opFunctionEnd.code []])

end spirv

/-- C7: the binary serializer emits, for a function with one parameter, an
`OpFunction` group (word `327734 = (5 <<< 16) ||| 54`), the block groups
(`OpLabel` `131320`, `OpReturn` `65789`), and `OpFunctionEnd` (`65592`) —
and not a single `OpFunctionParameter` (opcode `55`) group: the parameter
list is never consulted. -/
theorem C7_binary_no_function_parameters :
    spirv.binEmitFunction ⟨10, "f", ⟨9, 8, false⟩, [⟨5, "x", 7⟩],
        [⟨2, "entry_f", [.ret]⟩]⟩
      = some [[327734, 8, 10, 0, 9], [131320, 2], [65789], [65592]]
    ∧ (spirv.binEmitFunction ⟨10, "f", ⟨9, 8, false⟩, [⟨5, "x", 7⟩],
        [⟨2, "entry_f", [.ret]⟩]⟩).map
        (fun gs => gs.countP (fun g => g.headD 0 % 65536 = 55))
      = some 0
    ∧ 327734 % 65536 = 54 ∧ 131320 % 65536 = 248 ∧ 65789 % 65536 = 253
    ∧ 65592 % 65536 = 56 := by
  decide


namespace compiler

/-- `pullLocalVarsToFuncEntry`: delete every `OpVariable` instruction from
every block (collecting them in traversal order), then prepend the
collected variables to the entry block's remaining instructions.
`fn.Blocks[0]` panics on a function without blocks (`none`). -/
def pullLocalVarsToFuncEntryE (fn : spirv.SFunction) :
    Option spirv.SFunction :=
  let stripped := fn.blocks.map (fun bb =>
    { bb with instructions := (bb.instructions.filter
        (fun i => ¬ (i.opcode = spirv.Opcode.opVariable))) })
  let vars := fn.blocks.flatMap (fun bb =>
    bb.instructions.filter (fun i => i.opcode = spirv.Opcode.opVariable))
  match stripped with
  | [] => none
  | entry :: rest =>
    some { fn with blocks :=
      { entry with instructions := vars ++ entry.instructions } :: rest }

/-- The per-object loop shared by the module-level passes: apply `f` to
every `Function` object, keep everything else.  `none` propagates a panic
inside `f`. -/
def mapFuncObjsM (f : spirv.SFunction → Option spirv.SFunction) :
    List spirv.SObject → Option (List spirv.SObject)
  | [] => some []
  | o :: rest =>
    match o with
    | .funcO fn =>
      match f fn, mapFuncObjsM f rest with
      | some fn', some tail => some (.funcO fn' :: tail)
      | _, _ => none
    | _ =>
      match mapFuncObjsM f rest with
      | some tail => some (o :: tail)
      | none => none

/-- `PassPullLocalVarsToFuncEntry`.  The functions live inside
`mod.Objects`; the rewrite mutates them in place (the index is not
touched). -/
def PassPullLocalVarsToFuncEntryE (m : spirv.SModule) :
    Option spirv.SModule :=
  (mapFuncObjsM pullLocalVarsToFuncEntryE m.objects).map
    (fun objs => { m with objects := objs })

/-- `CFG.addEdges`' body for one block: deduplicate the successor ids with
the `seen` set, resolve each through `Module.GetObject` (panicking —
`none` — when the object is missing or not a block), and record the
resolved blocks' ids. -/
def resolveSuccs (m : spirv.SModule) : List spirv.ID →
    Option (List spirv.ID)
  | [] => some []
  | sid :: rest =>
    match m.getObject sid, resolveSuccs m rest with
    | some (.blockO b0), some others => some (b0.id :: others)
    | _, _ => none

/-- `BuildCFG`: successor edges per block, keyed by block id.  (The passes
only resolve blocks through the index, they never read their instruction
lists there, so the function's own — possibly rewritten — blocks carry
the instruction content.) -/
def buildCFGSuccsE (m : spirv.SModule) :
    List spirv.SBlock → Option (List (spirv.ID × List spirv.ID))
  | [] => some []
  | bb :: rest =>
    match resolveSuccs m (eraseDupsFirst bb.successorIDs),
        buildCFGSuccsE m rest with
    | some outs, some tail => some ((bb.id, outs) :: tail)
    | _, _ => none

/-- `CFG.ReachableBlocks`' worklist loop: pop the front, skip if already
marked, otherwise mark it and enqueue its unmarked successors.  The fuel
only bounds the iteration count: the Go loop pops once per iteration and
enqueues the entry once plus, per first marking of a block, at most that
block's successor-list length, so any fuel of at least
`1 + (total successor-list length)` runs the loop to completion. -/
def reachableLoop (succs : List (spirv.ID × List spirv.ID)) :
    Nat → List spirv.ID → List spirv.ID → List spirv.ID
  | 0, _, marked => marked
  | _ + 1, [], marked => marked
  | fuel + 1, current :: queue, marked =>
    if current ∈ marked then reachableLoop succs fuel queue marked
    else
      reachableLoop succs fuel
        (queue ++ ((alistFind current succs).getD []).filter
          (fun j => ¬ j ∈ marked))
        (marked ++ [current])

/-- `CFG.ReachableBlocks`: BFS from the entry block. -/
def reachableBlocksE (succs : List (spirv.ID × List spirv.ID))
    (blocks : List spirv.SBlock) : List spirv.ID :=
  match blocks with
  | [] => []
  | b0 :: _ =>
    reachableLoop succs
      (1 + blocks.length + (succs.map (fun p => p.2.length)).sum)
      [b0.id] []

/-- `removeUnreachableBlocks`: skip functions with at most one block,
otherwise build the CFG, mark the blocks reachable from the entry, keep
exactly the marked blocks and return the ids of the deleted ones in
traversal order. -/
def removeUnreachableBlocksE (m : spirv.SModule) (fn : spirv.SFunction) :
    Option (spirv.SFunction × List spirv.ID) :=
  if fn.blocks.length ≤ 1 then some (fn, [])
  else
    match buildCFGSuccsE m fn.blocks with
    | none => none
    | some succs =>
      let marked := reachableBlocksE succs fn.blocks
      some ({ fn with blocks :=
          fn.blocks.filter (fun bb => bb.id ∈ marked) },
        (fn.blocks.filter (fun bb => ¬ bb.id ∈ marked)).map
          (fun bb => bb.id))

/-- The object loop of `PassRemoveUnreachableBlocks`, carrying
`removedBBs`, which each function OVERWRITES (`removedBBs =
removeUnreachableBlocks(fn)` — not an append). -/
def passRemoveLoop (m : spirv.SModule) :
    List spirv.SObject → List spirv.ID →
    Option (List spirv.SObject × List spirv.ID)
  | [], removed => some ([], removed)
  | o :: rest, removed =>
    match o with
    | .funcO fn =>
      match removeUnreachableBlocksE m fn with
      | none => none
      | some r =>
        match passRemoveLoop m rest r.2 with
        | none => none
        | some tail => some (.funcO r.1 :: tail.1, tail.2)
    | _ =>
      match passRemoveLoop m rest removed with
      | none => none
      | some tail => some (o :: tail.1, tail.2)

/-- `PassRemoveUnreachableBlocks`: rewrite every function, then call
`Module.RemoveObjects` with whatever `removedBBs` ended up holding —
only the LAST function's removed block ids. -/
def PassRemoveUnreachableBlocksE (m : spirv.SModule) :
    Option spirv.SModule :=
  match passRemoveLoop m m.objects [] with
  | none => none
  | some r => some (({ m with objects := r.1 }).removeObjects r.2)

/-- `terminateBlocksForVoidFuncs`: append `Return` to every unterminated
block of a void-returning function, `Unreachable` otherwise. -/
def terminateBlocksForVoidFuncsE (fn : spirv.SFunction) :
    spirv.SFunction :=
  { fn with blocks := fn.blocks.map (fun bb =>
      if bb.isTerminated then bb
      else bb.push (if fn.type.returnIsVoid then .ret
        else .unreachableI)) }

def mapFuncObjs (f : spirv.SFunction → spirv.SFunction) :
    List spirv.SObject → List spirv.SObject
  | [] => []
  | o :: rest =>
    match o with
    | .funcO fn => .funcO (f fn) :: mapFuncObjs f rest
    | _ => o :: mapFuncObjs f rest

/-- `PassTerminateBlocks`. -/
def PassTerminateBlocksE (m : spirv.SModule) : spirv.SModule :=
  { m with objects := mapFuncObjs terminateBlocksForVoidFuncsE m.objects }

/-- `RewriteIR` (the three-pass version): pull variables to the entry,
remove unreachable blocks, terminate open blocks. -/
def rewriteIRE (m : spirv.SModule) : Option spirv.SModule :=
  match PassPullLocalVarsToFuncEntryE m with
  | none => none
  | some m1 =>
    match PassRemoveUnreachableBlocksE m1 with
    | none => none
    | some m2 => some (PassTerminateBlocksE m2)

end compiler

/-- C2: on a module with two functions, each with one unreachable block
(`u1` id 2 in `f1`, `u2` id 4 in `f2`), the pass deletes both blocks from
their functions' block lists (`f1` keeps `[1]`, `f2` keeps `[3]`), but
`removedBBs` is overwritten — not extended — per function, so
`Module.RemoveObjects` receives only the LAST function's `[4]`:
`GetObject 2` still returns `u1`'s block object while `GetObject 4`
returns nothing. -/
theorem C2_removeUnreachable_code_bug :
    (compiler.PassRemoveUnreachableBlocksE
      { idGenerator := 20,
        objects := [.funcO ⟨10, "f1", ⟨100, 101, true⟩, [],
            [⟨1, "e1", [.ret]⟩, ⟨2, "u1", [.ret]⟩]⟩,
          .blockO ⟨1, "e1", [.ret]⟩, .blockO ⟨2, "u1", [.ret]⟩,
          .funcO ⟨20, "f2", ⟨100, 101, true⟩, [],
            [⟨3, "e2", [.ret]⟩, ⟨4, "u2", [.ret]⟩]⟩,
          .blockO ⟨3, "e2", [.ret]⟩, .blockO ⟨4, "u2", [.ret]⟩],
        objectsByID := [(10, 0), (1, 1), (2, 2), (20, 3), (3, 4), (4, 5)],
        typesByKey := [], constantsByKey := [], capabilities := [],
        addressingModel := 0, memoryModel := 0 }).map (fun mp =>
      (mp.objects.filterMap (fun o => match o with
        | .funcO fn => some (fn.id, fn.blocks.map (fun b => b.id))
        | _ => none),
       mp.getObject 2, mp.getObject 4))
    = some ([(10, [1]), (20, [3])],
        some (.blockO ⟨2, "u1", [.ret]⟩), none) := by
  decide

namespace compiler

theorem alistFind_mem {α : Type} {k : spirv.ID} {v : α} :
    ∀ {l : List (spirv.ID × α)}, alistFind k l = some v → (k, v) ∈ l := by
  intro l
  induction l with
  | nil => intro h; cases h
  | cons p rest ih =>
    intro h
    obtain ⟨k0, v0⟩ := p
    simp only [alistFind] at h
    by_cases he : k0 = k
    · rw [if_pos he] at h
      rw [he] at *
      exact List.mem_cons.mpr (Or.inl (by rw [Option.some.inj h]))
    · rw [if_neg he] at h
      exact List.mem_cons.mpr (Or.inr (ih h))

theorem eraseDupsFirst_go_subset {x : spirv.ID} :
    ∀ (l seen : List spirv.ID), x ∈ eraseDupsFirst.go seen l → x ∈ l := by
  intro l
  induction l with
  | nil => intro seen h; cases h
  | cons a rest ih =>
    intro seen h
    simp only [eraseDupsFirst.go] at h
    by_cases ha : a ∈ seen
    · rw [if_pos ha] at h
      exact List.mem_cons.mpr (Or.inr (ih seen h))
    · rw [if_neg ha] at h
      rcases List.mem_cons.mp h with rfl | h'
      · exact List.mem_cons.mpr (Or.inl rfl)
      · exact List.mem_cons.mpr (Or.inr (ih _ h'))

theorem eraseDupsFirst_subset {x : spirv.ID} {l : List spirv.ID}
    (h : x ∈ eraseDupsFirst l) : x ∈ l :=
  eraseDupsFirst_go_subset l [] h

/-- The id index points at objects carrying the same id (true of every
module the emitter builds; `addObject` registers each object under its own
id). -/
def indexConsistent (m : spirv.SModule) : Bool :=
  m.objectsByID.all (fun p =>
    match m.objects[p.2]? with
    | some o => o.objId = p.1
    | none => true)

theorem getObject_consistent {m : spirv.SModule}
    (hc : indexConsistent m = true) {id : spirv.ID} {o : spirv.SObject}
    (h : m.getObject id = some o) : o.objId = id := by
  unfold spirv.SModule.getObject at h
  cases hf : alistFind id m.objectsByID with
  | none => rw [hf] at h; cases h
  | some idx =>
    rw [hf] at h
    dsimp only at h
    have hmem := alistFind_mem hf
    have := List.all_eq_true.mp hc _ hmem
    rw [h] at this
    simpa using this

/-- Instructions that are neither merges nor terminators report no
successors. -/
theorem successorIDs_eq_nil (i : spirv.SInstr)
    (hm : i.isMerge = false) (ht : i.opcode.isTerminator = false) :
    i.successorIDs = [] := by
  cases i <;> simp_all [spirv.SInstr.isMerge, spirv.SInstr.opcode,
    spirv.Opcode.isTerminator, spirv.SInstr.successorIDs]

end compiler

namespace compiler

/-- Sanity shape of a block's merge instructions (every block the emitter
builds satisfies it): a `SelectionMerge`/`LoopMerge` may only sit directly
before a terminating last instruction. -/
def blockMergeOK (b : spirv.SBlock) : Bool :=
  match b.instructions.reverse with
  | [] => true
  | last :: rest =>
    !last.isMerge &&
    (match rest with
     | [] => true
     | second :: rest2 =>
       (!second.isMerge || last.opcode.isTerminator) &&
       rest2.all (fun i => !i.isMerge))

/-- An open, merge-sane block has no successors. -/
theorem successorIDs_open (b : spirv.SBlock)
    (hterm : b.isTerminated = false) (hok : blockMergeOK b = true) :
    b.successorIDs = [] := by
  unfold spirv.SBlock.successorIDs
  unfold spirv.SBlock.isTerminated at hterm
  unfold blockMergeOK at hok
  cases hrev : b.instructions.reverse with
  | nil => rfl
  | cons last rest =>
    rw [hrev] at hok
    have hlast : b.instructions.getLast? = some last := by
      rw [List.getLast?_eq_head?_reverse, hrev]
      rfl
    rw [hlast] at hterm
    dsimp only at hok hterm ⊢
    have hok2 := hok
    simp only [Bool.and_eq_true] at hok2
    have hlm : last.isMerge = false := by
      simpa using hok2.1
    have hsucc0 : last.successorIDs = [] :=
      successorIDs_eq_nil last hlm hterm
    cases rest with
    | nil => simpa using hsucc0
    | cons second rest2 =>
      dsimp only
      simp only [Bool.and_eq_true, Bool.or_eq_true] at hok2
      have hsm : second.isMerge = false := by
        rcases hok2.2.1 with h | h
        · simpa using h
        · rw [h] at hterm; cases hterm
      rw [hsm]
      simpa using hsucc0

/-- Appending a successor-free non-merge terminator to an open,
merge-sane block leaves its successor list (empty) unchanged. -/
theorem successorIDs_push_open (b : spirv.SBlock) (t : spirv.SInstr)
    (hterm : b.isTerminated = false) (hok : blockMergeOK b = true)
    (ht1 : t.successorIDs = []) :
    (b.push t).successorIDs = b.successorIDs := by
  rw [successorIDs_open b hterm hok]
  unfold spirv.SBlock.successorIDs spirv.SBlock.push
  simp only [List.reverse_append, List.reverse_cons, List.reverse_nil,
    List.nil_append, List.singleton_append]
  rw [ht1]
  cases hrev : b.instructions.reverse with
  | nil => rfl
  | cons last rest2 =>
    unfold blockMergeOK at hok
    rw [hrev] at hok
    dsimp only at hok
    simp only [Bool.and_eq_true] at hok
    have hlm : last.isMerge = false := by
      simpa using hok.1
    dsimp only
    rw [hlm]
    rfl

end compiler

namespace compiler

/-- Reachability from the entry block along `Block.SuccessorIDs` edges —
the relation the claim's `no unreachable block remains` refers to. -/
inductive ReachB (blocks : List spirv.SBlock) : spirv.ID → Prop where
  | entry (b0 : spirv.SBlock) (h : blocks.head? = some b0) :
      ReachB blocks b0.id
  | step (i j : spirv.ID) (bb : spirv.SBlock) (hr : ReachB blocks i)
      (hm : bb ∈ blocks) (hid : bb.id = i) (hj : j ∈ bb.successorIDs) :
      ReachB blocks j

/-- Paths in the resolved successor map whose every edge source lies in
`S`. -/
inductive ReachVia (succs : List (spirv.ID × List spirv.ID))
    (S : List spirv.ID) (root : spirv.ID) : spirv.ID → Prop where
  | refl : ReachVia succs S root root
  | step (j k : spirv.ID) (outs : List spirv.ID)
      (h : ReachVia succs S root j) (hj : j ∈ S)
      (houts : (j, outs) ∈ succs) (hk : k ∈ outs) :
      ReachVia succs S root k

theorem reachVia_mono {succs : List (spirv.ID × List spirv.ID)}
    {S S' : List spirv.ID} {root j : spirv.ID}
    (hS : ∀ x ∈ S, x ∈ S') (h : ReachVia succs S root j) :
    ReachVia succs S' root j := by
  induction h with
  | refl => exact ReachVia.refl
  | step j k outs h hj houts hk ih =>
    exact ReachVia.step j k outs ih (hS j hj) houts hk

/-- The worklist loop only extends the marked list. -/
theorem reachableLoop_mono (succs : List (spirv.ID × List spirv.ID)) :
    ∀ (fuel : Nat) (queue marked : List spirv.ID) (x : spirv.ID),
      x ∈ marked → x ∈ reachableLoop succs fuel queue marked := by
  intro fuel
  induction fuel with
  | zero => intro queue marked x hx; exact hx
  | succ fuel ih =>
    intro queue marked x hx
    cases queue with
    | nil => exact hx
    | cons current queue =>
      simp only [reachableLoop]
      by_cases hc : current ∈ marked
      · rw [if_pos hc]
        exact ih queue marked x hx
      · rw [if_neg hc]
        exact ih _ _ x (List.mem_append_left _ hx)

/-- BFS soundness with explicit path witnesses: everything the loop marks
is reachable from `root` through marked edge sources. -/
theorem reachableLoop_via (succs : List (spirv.ID × List spirv.ID))
    (root : spirv.ID) :
    ∀ (fuel : Nat) (queue marked : List spirv.ID),
      (∀ i ∈ marked, ReachVia succs marked root i) →
      (∀ i ∈ queue, ReachVia succs marked root i) →
      ∀ i ∈ reachableLoop succs fuel queue marked,
        ReachVia succs (reachableLoop succs fuel queue marked) root i := by
  intro fuel
  induction fuel with
  | zero =>
    intro queue marked hm hq i hi
    exact hm i hi
  | succ fuel ih =>
    intro queue marked hm hq i hi
    cases queue with
    | nil => exact hm i hi
    | cons current queue =>
      simp only [reachableLoop] at hi ⊢
      by_cases hc : current ∈ marked
      · rw [if_pos hc] at hi ⊢
        exact ih queue marked hm (fun j hj => hq j (List.mem_cons_of_mem _ hj)) i hi
      · rw [if_neg hc] at hi ⊢
        refine ih _ (marked ++ [current]) ?_ ?_ i hi
        · intro j hj
          rcases List.mem_append.mp hj with hj | hj
          · exact reachVia_mono (fun x hx => List.mem_append_left _ hx)
              (hm j hj)
          · rw [List.mem_singleton.mp hj]
            exact reachVia_mono (fun x hx => List.mem_append_left _ hx)
              (hq current (List.mem_cons_self _ _))
        · intro j hj
          rcases List.mem_append.mp hj with hj | hj
          · exact reachVia_mono (fun x hx => List.mem_append_left _ hx)
              (hq j (List.mem_cons_of_mem _ hj))
          · rw [List.mem_filter] at hj
            cases hlk : alistFind current succs with
            | none =>
              rw [hlk] at hj
              cases hj.1
            | some outs =>
              rw [hlk] at hj
              refine ReachVia.step current j outs ?_ ?_ (alistFind_mem hlk)
                hj.1
              · exact reachVia_mono
                  (fun x hx => List.mem_append_left _ hx)
                  (hq current (List.mem_cons_self _ _))
              · exact List.mem_append_right _ (List.mem_singleton.mpr rfl)

theorem resolveSuccs_eq {m : spirv.SModule}
    (hc : indexConsistent m = true) :
    ∀ {l out : List spirv.ID}, resolveSuccs m l = some out → out = l := by
  intro l
  induction l with
  | nil =>
    intro out h
    simp only [resolveSuccs] at h
    exact (Option.some.inj h).symm
  | cons sid rest ih =>
    intro out h
    simp only [resolveSuccs] at h
    cases hg : m.getObject sid with
    | none => rw [hg] at h; cases h
    | some o =>
      rw [hg] at h
      cases o with
      | blockO b0 =>
        cases hr : resolveSuccs m rest with
        | none => rw [hr] at h; cases h
        | some others =>
          rw [hr] at h
          dsimp only at h
          rw [← Option.some.inj h, ih hr]
          have := getObject_consistent hc hg
          simp only [spirv.SObject.objId] at this
          rw [this]
      | typeO i n ty => cases h
      | constBool i n t v => cases h
      | constInt i n t v => cases h
      | constFloat i n t v => cases h
      | variableO i n p sc => cases h
      | funcParamO p => cases h
      | funcO fn => cases h
      | runtimeValue i n t => cases h

/-- Every edge of the built CFG comes from a block of the function and
stays within its `SuccessorIDs`. -/
theorem buildCFG_edges {m : spirv.SModule}
    (hc : indexConsistent m = true) :
    ∀ {blocks : List spirv.SBlock}
      {succs : List (spirv.ID × List spirv.ID)},
      buildCFGSuccsE m blocks = some succs →
      ∀ p ∈ succs, ∃ bb ∈ blocks, bb.id = p.1 ∧
        ∀ j ∈ p.2, j ∈ bb.successorIDs := by
  intro blocks
  induction blocks with
  | nil =>
    intro succs h p hp
    simp only [buildCFGSuccsE] at h
    rw [← Option.some.inj h] at hp
    cases hp
  | cons bb rest ih =>
    intro succs h p hp
    simp only [buildCFGSuccsE] at h
    cases hr : resolveSuccs m (eraseDupsFirst bb.successorIDs) with
    | none => rw [hr] at h; cases h
    | some outs =>
      rw [hr] at h
      cases ht : buildCFGSuccsE m rest with
      | none => rw [ht] at h; cases h
      | some tail =>
        rw [ht] at h
        dsimp only at h
        rw [← Option.some.inj h] at hp
        rcases List.mem_cons.mp hp with rfl | hp'
        · refine ⟨bb, List.mem_cons_self _ _, rfl, ?_⟩
          intro j hj
          rw [resolveSuccs_eq hc hr] at hj
          exact eraseDupsFirst_subset hj
        · obtain ⟨bb', hbm, hbid, hbj⟩ := ih ht p hp'
          exact ⟨bb', List.mem_cons_of_mem _ hbm, hbid, hbj⟩

end compiler

namespace compiler

theorem isTerminated_push_terminator (b : spirv.SBlock) (t : spirv.SInstr)
    (ht : t.opcode.isTerminator = true) :
    (b.push t).isTerminated = true := by
  simp [spirv.SBlock.push, spirv.SBlock.isTerminated, ht]

theorem entry_marked (succs : List (spirv.ID × List spirv.ID))
    (root : spirv.ID) (fuel : Nat) (hf : 1 ≤ fuel) :
    root ∈ reachableLoop succs fuel [root] [] := by
  cases fuel with
  | zero => cases hf
  | succ fuel =>
    simp only [reachableLoop]
    rw [if_neg (List.not_mem_nil root)]
    exact reachableLoop_mono succs fuel _ _ root
      (List.mem_singleton.mpr rfl)

/-- Transport a marked-sources path into claim-level reachability over the
kept block list. -/
theorem reachVia_to_reachB {succs : List (spirv.ID × List spirv.ID)}
    {blocks : List spirv.SBlock} {marked : List spirv.ID}
    {e : spirv.SBlock}
    (hkeptE : (blocks.filter (fun bb => bb.id ∈ marked)).head? = some e)
    (hedges : ∀ p ∈ succs, ∃ bb ∈ blocks, bb.id = p.1 ∧
      ∀ j ∈ p.2, j ∈ bb.successorIDs) :
    ∀ j, ReachVia succs marked e.id j →
      ReachB (blocks.filter (fun bb => bb.id ∈ marked)) j := by
  intro j h
  induction h with
  | refl => exact ReachB.entry e hkeptE
  | step mid k outs h hmid houts hk ih =>
    obtain ⟨bb, hbm, hbid, hbj⟩ := hedges _ houts
    refine ReachB.step mid k bb ih ?_ hbid (hbj k hk)
    refine List.mem_filter.mpr ⟨hbm, ?_⟩
    simp only [decide_eq_true_eq]
    rw [hbid]
    exact hmid

theorem removeUnreachable_facts {m : spirv.SModule}
    {fn fn2 : spirv.SFunction} {ids : List spirv.ID}
    (hc : indexConsistent m = true)
    (h : removeUnreachableBlocksE m fn = some (fn2, ids)) :
    fn2.id = fn.id ∧ fn2.type = fn.type ∧
    (∀ bb ∈ fn2.blocks, bb ∈ fn.blocks) ∧
    (∀ e r, fn.blocks = e :: r →
      ∃ r2, fn2.blocks = e :: r2 ∧ ∀ bb ∈ r2, bb ∈ r) ∧
    (∀ bb ∈ fn2.blocks, ReachB fn2.blocks bb.id) := by
  unfold removeUnreachableBlocksE at h
  by_cases hlen : fn.blocks.length ≤ 1
  · rw [if_pos hlen] at h
    obtain ⟨h1, -⟩ := Prod.mk.inj (Option.some.inj h)
    rw [← h1]
    refine ⟨rfl, rfl, fun bb hb => hb,
      fun e r he => ⟨r, he, fun bb hb => hb⟩, ?_⟩
    intro bb hb
    cases hbs : fn.blocks with
    | nil => rw [hbs] at hb; cases hb
    | cons e rest =>
      cases rest with
      | nil =>
        rw [hbs] at hb
        rcases List.mem_cons.mp hb with rfl | hb'
        · exact ReachB.entry bb rfl
        · cases hb'
      | cons x xs =>
        rw [hbs] at hlen
        simp at hlen
  · rw [if_neg hlen] at h
    cases hcfg : buildCFGSuccsE m fn.blocks with
    | none => rw [hcfg] at h; cases h
    | some succs =>
      rw [hcfg] at h
      dsimp only at h
      obtain ⟨e, rest, hbs⟩ : ∃ e rest, fn.blocks = e :: rest := by
        cases hx : fn.blocks with
        | nil => rw [hx] at hlen; simp at hlen
        | cons a b => exact ⟨a, b, rfl⟩
      rw [hbs] at h hcfg ⊢
      have hroot : reachableBlocksE succs (e :: rest) =
          reachableLoop succs
            (1 + (e :: rest).length +
              (succs.map (fun p => p.2.length)).sum) [e.id] [] := by
        unfold reachableBlocksE
        rfl
      have hem : e.id ∈ reachableBlocksE succs (e :: rest) := by
        rw [hroot]
        exact entry_marked succs e.id _ (by omega)
      obtain ⟨h1, -⟩ := Prod.mk.inj (Option.some.inj h)
      have hb2 : fn2.blocks = (e :: rest).filter
          (fun bb => bb.id ∈ reachableBlocksE succs (e :: rest)) := by
        rw [← h1]
      have hfc : (e :: rest).filter
          (fun bb => bb.id ∈ reachableBlocksE succs (e :: rest))
          = e :: rest.filter
            (fun bb => bb.id ∈ reachableBlocksE succs (e :: rest)) := by
        rw [List.filter_cons, if_pos]
        simp only [decide_eq_true_eq]
        exact hem
      refine ⟨by rw [← h1], by rw [← h1], ?_, ?_, ?_⟩
      · intro bb hb
        rw [hb2] at hb
        exact (List.mem_filter.mp hb).1
      · intro e' r' he'
        obtain ⟨he1, he2⟩ := List.cons.inj he'
        refine ⟨rest.filter
          (fun bb => bb.id ∈ reachableBlocksE succs (e :: rest)), ?_, ?_⟩
        · rw [hb2, hfc, ← he1]
        · intro bb hb
          rw [← he2]
          exact (List.mem_filter.mp hb).1
      · intro bb hb
        have hmarked : bb.id ∈ reachableBlocksE succs (e :: rest) := by
          rw [hb2] at hb
          have := (List.mem_filter.mp hb).2
          simpa using this
        have hvia : ReachVia succs (reachableBlocksE succs (e :: rest))
            e.id bb.id := by
          rw [hroot] at hmarked ⊢
          refine reachableLoop_via succs e.id _ [e.id] []
            (fun i hi => absurd hi (List.not_mem_nil i)) ?_ bb.id hmarked
          intro i hi
          rw [List.mem_singleton.mp hi]
          exact ReachVia.refl
        have hkeptE : ((e :: rest).filter
            (fun bb => bb.id ∈ reachableBlocksE succs (e :: rest))).head?
            = some e := by
          rw [hfc]
          rfl
        have := reachVia_to_reachB hkeptE (buildCFG_edges hc hcfg)
          bb.id hvia
        rw [hb2]
        exact this

end compiler

namespace compiler

theorem terminate_facts (fn : spirv.SFunction) :
    (terminateBlocksForVoidFuncsE fn).id = fn.id ∧
    (terminateBlocksForVoidFuncsE fn).type = fn.type ∧
    (∀ bb ∈ (terminateBlocksForVoidFuncsE fn).blocks,
      bb.isTerminated = true) ∧
    (∀ e r, fn.blocks = e :: r →
      ∃ e' r', (terminateBlocksForVoidFuncsE fn).blocks = e' :: r' ∧
        (e'.instructions = e.instructions ∨
          ∃ t, e'.instructions = e.instructions ++ [t] ∧
            (t = spirv.SInstr.ret ∨ t = spirv.SInstr.unreachableI)) ∧
        (∀ bb' ∈ r', ∃ bb ∈ r,
          bb'.instructions = bb.instructions ∨
          ∃ t, bb'.instructions = bb.instructions ++ [t] ∧
            (t = spirv.SInstr.ret ∨ t = spirv.SInstr.unreachableI))) := by
  refine ⟨rfl, rfl, ?_, ?_⟩
  · intro bb hb
    unfold terminateBlocksForVoidFuncsE at hb
    dsimp only at hb
    obtain ⟨bb0, hb0, rfl⟩ := List.mem_map.mp hb
    by_cases ht : bb0.isTerminated = true
    · rw [if_pos ht]
      exact ht
    · rw [if_neg ht]
      refine isTerminated_push_terminator _ _ ?_
      by_cases hv : fn.type.returnIsVoid = true
      · rw [if_pos hv]
        rfl
      · rw [if_neg hv]
        rfl
  · intro e r he
    unfold terminateBlocksForVoidFuncsE
    dsimp only
    rw [he, List.map_cons]
    refine ⟨_, _, rfl, ?_, ?_⟩
    · by_cases ht : e.isTerminated = true
      · rw [if_pos ht]
        exact Or.inl rfl
      · rw [if_neg ht]
        by_cases hv : fn.type.returnIsVoid = true
        · rw [if_pos hv]
          exact Or.inr ⟨spirv.SInstr.ret, rfl, Or.inl rfl⟩
        · rw [if_neg hv]
          exact Or.inr ⟨spirv.SInstr.unreachableI, rfl, Or.inr rfl⟩
    · intro bb' hb'
      obtain ⟨bb0, hb0, rfl⟩ := List.mem_map.mp hb'
      refine ⟨bb0, hb0, ?_⟩
      by_cases ht : bb0.isTerminated = true
      · rw [if_pos ht]
        exact Or.inl rfl
      · rw [if_neg ht]
        by_cases hv : fn.type.returnIsVoid = true
        · rw [if_pos hv]
          exact Or.inr ⟨spirv.SInstr.ret, rfl, Or.inl rfl⟩
        · rw [if_neg hv]
          exact Or.inr ⟨spirv.SInstr.unreachableI, rfl, Or.inr rfl⟩

theorem reachB_terminate (fn : spirv.SFunction)
    (hok : ∀ bb ∈ fn.blocks, blockMergeOK bb = true) :
    ∀ j, ReachB fn.blocks j →
      ReachB (terminateBlocksForVoidFuncsE fn).blocks j := by
  have hsucc : ∀ bb : spirv.SBlock, bb ∈ fn.blocks →
      (if bb.isTerminated then bb
        else bb.push (if fn.type.returnIsVoid then spirv.SInstr.ret
          else spirv.SInstr.unreachableI)).successorIDs
        = bb.successorIDs ∧
      (if bb.isTerminated then bb
        else bb.push (if fn.type.returnIsVoid then spirv.SInstr.ret
          else spirv.SInstr.unreachableI)).id = bb.id := by
    intro bb hb
    by_cases ht : bb.isTerminated = true
    · rw [if_pos ht]
      exact ⟨rfl, rfl⟩
    · rw [if_neg ht]
      constructor
      · refine successorIDs_push_open bb _ (by simpa using ht)
          (hok bb hb) ?_
        by_cases hv : fn.type.returnIsVoid = true
        · rw [if_pos hv]
          rfl
        · rw [if_neg hv]
          rfl
      · rfl
  intro j h
  induction h with
  | entry b0 hh =>
    cases hbs : fn.blocks with
    | nil => rw [hbs] at hh; cases hh
    | cons e rest =>
      rw [hbs] at hh
      have heb := Option.some.inj hh
      rw [← heb]
      have hid := (hsucc e (by rw [hbs]; exact List.mem_cons_self _ _)).2
      rw [← hid]
      refine ReachB.entry _ ?_
      unfold terminateBlocksForVoidFuncsE
      dsimp only
      rw [hbs, List.map_cons]
      rfl
  | step i j bb hr hm hid hj ih =>
    refine ReachB.step i j
      (if bb.isTerminated = true then bb
        else bb.push (if fn.type.returnIsVoid = true then spirv.SInstr.ret else spirv.SInstr.unreachableI))
      ih ?_ ?_ ?_
    · unfold terminateBlocksForVoidFuncsE
      dsimp only
      exact List.mem_map.mpr ⟨bb, hm, rfl⟩
    · rw [(hsucc bb hm).2]
      exact hid
    · rw [(hsucc bb hm).1]
      exact hj

theorem terminate_block_ids (fn : spirv.SFunction) :
    ∀ bb' ∈ (terminateBlocksForVoidFuncsE fn).blocks,
      ∃ bb ∈ fn.blocks, bb'.id = bb.id := by
  intro bb' hb'
  unfold terminateBlocksForVoidFuncsE at hb'
  dsimp only at hb'
  obtain ⟨bb, hb, rfl⟩ := List.mem_map.mp hb'
  refine ⟨bb, hb, ?_⟩
  by_cases ht : bb.isTerminated = true
  · rw [if_pos ht]
  · rw [if_neg ht]
    rfl

theorem filter_var_of_stripped (l : List spirv.SInstr) :
    (l.filter (fun i => ¬ (i.opcode = spirv.Opcode.opVariable))).filter
      (fun i => i.opcode = spirv.Opcode.opVariable) = [] := by
  induction l with
  | nil => rfl
  | cons a as ih =>
    by_cases ha : a.opcode = spirv.Opcode.opVariable
    · rw [List.filter_cons, if_neg (by simp [ha])]
      exact ih
    · rw [List.filter_cons, if_pos (by simp [ha]),
        List.filter_cons, if_neg (by simp [ha])]
      exact ih

theorem filter_var_of_vars (bs : List spirv.SBlock) :
    (bs.flatMap (fun bb => bb.instructions.filter
        (fun i => i.opcode = spirv.Opcode.opVariable))).filter
      (fun i => i.opcode = spirv.Opcode.opVariable)
      = bs.flatMap (fun bb => bb.instructions.filter
        (fun i => i.opcode = spirv.Opcode.opVariable)) := by
  refine List.filter_eq_self.mpr ?_
  intro a ha
  obtain ⟨bb, hbb, hin⟩ := List.mem_flatMap.mp ha
  exact (List.mem_filter.mp hin).2

theorem pull_facts {fn fn' : spirv.SFunction}
    (h : pullLocalVarsToFuncEntryE fn = some fn') :
    fn'.id = fn.id ∧ fn'.type = fn.type ∧
    ∃ e r, fn'.blocks = e :: r ∧
      e.instructions.filter
        (fun i => i.opcode = spirv.Opcode.opVariable)
        = fn.blocks.flatMap (fun bb => bb.instructions.filter
            (fun i => i.opcode = spirv.Opcode.opVariable)) ∧
      ∀ bb ∈ r, bb.instructions.filter
        (fun i => i.opcode = spirv.Opcode.opVariable) = [] := by
  cases hbs : fn.blocks with
  | nil =>
    simp only [pullLocalVarsToFuncEntryE, hbs, List.map_nil] at h
    exact Option.noConfusion h
  | cons b0 bs =>
    simp only [pullLocalVarsToFuncEntryE, hbs, List.map_cons] at h
    obtain rfl := (Option.some.inj h).symm
    refine ⟨rfl, rfl, _, _, rfl, ?_, ?_⟩
    · simp only [List.filter_append, filter_var_of_vars,
        filter_var_of_stripped, List.append_nil]
    · intro bb hb
      obtain ⟨bb0, hb0, rfl⟩ := List.mem_map.mp hb
      exact filter_var_of_stripped bb0.instructions

theorem mapFuncObjsM_cons_nonfunc {f : spirv.SFunction → Option spirv.SFunction}
    {o : spirv.SObject} (ho : ∀ fn, ¬ o = spirv.SObject.funcO fn)
    (rest : List spirv.SObject) :
    mapFuncObjsM f (o :: rest)
      = (mapFuncObjsM f rest).map (fun t => o :: t) := by
  cases o
  case funcO fn => exact absurd rfl (ho fn)
  all_goals (dsimp only [mapFuncObjsM]; cases mapFuncObjsM f rest <;> rfl)

theorem mem_mapFuncObjsM {f : spirv.SFunction → Option spirv.SFunction}
    {objs objs' : List spirv.SObject}
    (h : mapFuncObjsM f objs = some objs') :
    ∀ fn', spirv.SObject.funcO fn' ∈ objs' →
      ∃ fn, spirv.SObject.funcO fn ∈ objs ∧ f fn = some fn' := by
  induction objs generalizing objs' with
  | nil =>
    obtain rfl := (Option.some.inj h).symm
    intro fn' hm
    cases hm
  | cons o rest ih =>
    by_cases ho : ∃ fn, o = spirv.SObject.funcO fn
    · obtain ⟨fn, rfl⟩ := ho
      dsimp only [mapFuncObjsM] at h
      cases hf : f fn with
      | none => rw [hf] at h; dsimp only at h; cases h
      | some fn1 =>
        rw [hf] at h
        cases hr : mapFuncObjsM f rest with
        | none => rw [hr] at h; dsimp only at h; cases h
        | some tail =>
          rw [hr] at h
          dsimp only at h
          obtain rfl := (Option.some.inj h).symm
          intro fn' hm
          rcases List.mem_cons.mp hm with heq | hm2
          · obtain rfl := (spirv.SObject.funcO.inj heq).symm
            exact ⟨fn, List.mem_cons_self _ _, hf⟩
          · obtain ⟨fn0, h1, h2⟩ := ih hr fn' hm2
            exact ⟨fn0, List.mem_cons_of_mem _ h1, h2⟩
    · rw [mapFuncObjsM_cons_nonfunc (fun fn hfn => ho ⟨fn, hfn⟩)] at h
      cases hr : mapFuncObjsM f rest with
      | none => rw [hr] at h; cases h
      | some tail =>
        rw [hr] at h
        dsimp only [Option.map] at h
        obtain rfl := (Option.some.inj h).symm
        intro fn' hm
        rcases List.mem_cons.mp hm with heq | hm2
        · exact absurd ⟨fn', heq.symm⟩ ho
        · obtain ⟨fn0, h1, h2⟩ := ih hr fn' hm2
          exact ⟨fn0, List.mem_cons_of_mem _ h1, h2⟩

theorem passRemoveLoop_cons_nonfunc {m : spirv.SModule}
    {o : spirv.SObject} (ho : ∀ fn, ¬ o = spirv.SObject.funcO fn)
    (rest : List spirv.SObject) (acc : List spirv.ID) :
    passRemoveLoop m (o :: rest) acc
      = (passRemoveLoop m rest acc).map (fun t => (o :: t.1, t.2)) := by
  cases o
  case funcO fn => exact absurd rfl (ho fn)
  all_goals (dsimp only [passRemoveLoop]; cases passRemoveLoop m rest acc <;> rfl)

theorem mem_passRemoveLoop {m : spirv.SModule} :
    ∀ {objs : List spirv.SObject} {acc : List spirv.ID}
      {objs' : List spirv.SObject} {rm : List spirv.ID},
    passRemoveLoop m objs acc = some (objs', rm) →
    ∀ fn', spirv.SObject.funcO fn' ∈ objs' →
      ∃ fn ids, spirv.SObject.funcO fn ∈ objs ∧
        removeUnreachableBlocksE m fn = some (fn', ids) := by
  intro objs
  induction objs with
  | nil =>
    intro acc objs' rm h fn' hm
    obtain ⟨h1, -⟩ := Prod.mk.inj (Option.some.inj h)
    rw [← h1] at hm
    cases hm
  | cons o rest ih =>
    intro acc objs' rm h fn' hm
    by_cases ho : ∃ fn, o = spirv.SObject.funcO fn
    · obtain ⟨fn, rfl⟩ := ho
      dsimp only [passRemoveLoop] at h
      cases hr0 : removeUnreachableBlocksE m fn with
      | none => rw [hr0] at h; dsimp only at h; cases h
      | some r =>
        rw [hr0] at h
        dsimp only at h
        cases hloop : passRemoveLoop m rest r.2 with
        | none => rw [hloop] at h; dsimp only at h; cases h
        | some tail =>
          rw [hloop] at h
          dsimp only at h
          obtain ⟨h1, -⟩ := Prod.mk.inj (Option.some.inj h)
          rw [← h1] at hm
          rcases List.mem_cons.mp hm with heq | hm2
          · obtain rfl := (spirv.SObject.funcO.inj heq).symm
            exact ⟨fn, r.2, List.mem_cons_self _ _, hr0⟩
          · obtain ⟨fn0, ids0, h2, h3⟩ := ih hloop fn' hm2
            exact ⟨fn0, ids0, List.mem_cons_of_mem _ h2, h3⟩
    · rw [passRemoveLoop_cons_nonfunc (fun fn hfn => ho ⟨fn, hfn⟩)] at h
      cases hloop : passRemoveLoop m rest acc with
      | none => rw [hloop] at h; cases h
      | some tail =>
        rw [hloop] at h
        dsimp only [Option.map] at h
        obtain ⟨h1, -⟩ := Prod.mk.inj (Option.some.inj h)
        rw [← h1] at hm
        rcases List.mem_cons.mp hm with heq | hm2
        · exact absurd ⟨fn', heq.symm⟩ ho
        · obtain ⟨fn0, ids0, h2, h3⟩ := ih hloop fn' hm2
          exact ⟨fn0, ids0, List.mem_cons_of_mem _ h2, h3⟩

theorem mem_foldl_set_none {m : spirv.SModule} {ids : List spirv.ID}
    {start : List (Option spirv.SObject)}
    (hstart : ∀ x ∈ start, x = none ∨ ∃ o, x = some o ∧ o ∈ m.objects) :
    ∀ x ∈ ids.foldl (fun objs i =>
        objs.set ((alistFind i m.objectsByID).getD 0) none) start,
      x = none ∨ ∃ o, x = some o ∧ o ∈ m.objects := by
  induction ids generalizing start with
  | nil => exact hstart
  | cons i is ih =>
    intro x hx
    refine ih ?_ x hx
    intro y hy
    rcases List.mem_or_eq_of_mem_set hy with hy2 | rfl
    · exact hstart y hy2
    · exact Or.inl rfl

theorem mem_removeObjects {m : spirv.SModule} {ids : List spirv.ID}
    {o : spirv.SObject} (h : o ∈ (m.removeObjects ids).objects) :
    o ∈ m.objects := by
  simp only [spirv.SModule.removeObjects] at h
  obtain ⟨x, hx, hxo⟩ := List.mem_filterMap.mp h
  have hinv := mem_foldl_set_none ?_ x hx
  · rcases hinv with rfl | ⟨o2, rfl, ho2⟩
    · cases hxo
    · obtain rfl := (Option.some.inj hxo).symm
      exact ho2
  · intro y hy
    obtain ⟨o2, ho2, rfl⟩ := List.mem_map.mp hy
    exact Or.inr ⟨o2, rfl, ho2⟩

theorem mapFuncObjs_cons_nonfunc {f : spirv.SFunction → spirv.SFunction}
    {o : spirv.SObject} (ho : ∀ fn, ¬ o = spirv.SObject.funcO fn)
    (rest : List spirv.SObject) :
    mapFuncObjs f (o :: rest) = o :: mapFuncObjs f rest := by
  cases o
  case funcO fn => exact absurd rfl (ho fn)
  all_goals rfl

theorem mem_mapFuncObjs {f : spirv.SFunction → spirv.SFunction}
    {objs : List spirv.SObject} :
    ∀ fn', spirv.SObject.funcO fn' ∈ mapFuncObjs f objs →
      ∃ fn, spirv.SObject.funcO fn ∈ objs ∧ fn' = f fn := by
  induction objs with
  | nil =>
    intro fn' hm
    cases hm
  | cons o rest ih =>
    intro fn' hm
    by_cases ho : ∃ fn, o = spirv.SObject.funcO fn
    · obtain ⟨fn, rfl⟩ := ho
      dsimp only [mapFuncObjs] at hm
      rcases List.mem_cons.mp hm with heq | hm2
      · exact ⟨fn, List.mem_cons_self _ _, spirv.SObject.funcO.inj heq⟩
      · obtain ⟨fn0, h1, h2⟩ := ih fn' hm2
        exact ⟨fn0, List.mem_cons_of_mem _ h1, h2⟩
    · rw [mapFuncObjs_cons_nonfunc (fun fn hfn => ho ⟨fn, hfn⟩)] at hm
      rcases List.mem_cons.mp hm with heq | hm2
      · exact absurd ⟨fn', heq.symm⟩ ho
      · obtain ⟨fn0, h1, h2⟩ := ih fn' hm2
        exact ⟨fn0, List.mem_cons_of_mem _ h1, h2⟩

/-- Structural well-formedness of the lowered module that the pass chain
relies on: the object index points at objects carrying the indexed id,
and every function block is merge-shaped the way the emitter produces
them (a merge instruction appears at most once, second-to-last, and only
in a terminated block that is not itself ended by a merge). -/
def rewriteWF (m : spirv.SModule) : Bool :=
  indexConsistent m &&
    m.objects.all (fun o => match o with
      | .funcO fn => fn.blocks.all blockMergeOK
      | _ => true)

theorem filter_var_terminator {t : spirv.SInstr}
    (ht : t = spirv.SInstr.ret ∨ t = spirv.SInstr.unreachableI) :
    [t].filter (fun i => i.opcode = spirv.Opcode.opVariable) = [] := by
  rcases ht with rfl | rfl <;> rfl

/-- C1: when `RewriteIR`'s three passes succeed on a module whose
first-pass result has a consistent object index and emitter-shaped merge
placement (`rewriteWF`), then every function object of the output module
satisfies the structural law: every block ends in a terminator
(`Return`/`Unreachable` appended by the third pass), the function descends
from an input function whose `Variable` instructions all sit in the
output entry block in their original relative order with no `Variable`
in any later block, and every remaining block is reachable from the
entry block along successor edges. -/
theorem C1_rewriteIR {m m' : spirv.SModule}
    (h : rewriteIRE m = some m')
    (hwf : ∀ m1, PassPullLocalVarsToFuncEntryE m = some m1 →
      rewriteWF m1 = true) :
    ∀ fn', spirv.SObject.funcO fn' ∈ m'.objects →
      (∀ bb ∈ fn'.blocks, bb.isTerminated = true) ∧
      (∃ fn, spirv.SObject.funcO fn ∈ m.objects ∧
        fn'.id = fn.id ∧ fn'.type = fn.type ∧
        ∃ e r, fn'.blocks = e :: r ∧
          e.instructions.filter
            (fun i => i.opcode = spirv.Opcode.opVariable)
            = fn.blocks.flatMap (fun bb => bb.instructions.filter
                (fun i => i.opcode = spirv.Opcode.opVariable)) ∧
          (∀ bb ∈ r, bb.instructions.filter
            (fun i => i.opcode = spirv.Opcode.opVariable) = [])) ∧
      (∀ bb ∈ fn'.blocks, ReachB fn'.blocks bb.id) := by
  unfold rewriteIRE at h
  cases hp1 : PassPullLocalVarsToFuncEntryE m with
  | none => rw [hp1] at h; exact Option.noConfusion h
  | some m1 =>
    rw [hp1] at h
    dsimp only at h
    cases hp2 : PassRemoveUnreachableBlocksE m1 with
    | none => rw [hp2] at h; exact Option.noConfusion h
    | some m2 =>
      rw [hp2] at h
      dsimp only at h
      obtain rfl := (Option.some.inj h).symm
      have hwf1 := hwf m1 hp1
      unfold rewriteWF at hwf1
      rw [Bool.and_eq_true] at hwf1
      have hci := hwf1.1
      have hall := hwf1.2
      intro fn' hm'
      have hm'2 : spirv.SObject.funcO fn' ∈
          mapFuncObjs terminateBlocksForVoidFuncsE m2.objects := hm'
      obtain ⟨fn2, hfn2mem, rfl⟩ := mem_mapFuncObjs fn' hm'2
      unfold PassRemoveUnreachableBlocksE at hp2
      cases hloop : passRemoveLoop m1 m1.objects [] with
      | none => rw [hloop] at hp2; exact Option.noConfusion hp2
      | some r =>
        rw [hloop] at hp2
        dsimp only at hp2
        obtain rfl := (Option.some.inj hp2).symm
        have hfn2r : spirv.SObject.funcO fn2 ∈ r.1 :=
          mem_removeObjects (m := { m1 with objects := r.1 }) hfn2mem
        obtain ⟨fn1, ids, hfn1mem, hremove⟩ :=
          mem_passRemoveLoop
            (show passRemoveLoop m1 m1.objects [] = some (r.1, r.2) by
              rw [hloop]) fn2 hfn2r
        unfold PassPullLocalVarsToFuncEntryE at hp1
        cases hpm : mapFuncObjsM pullLocalVarsToFuncEntryE m.objects with
        | none => rw [hpm] at hp1; exact Option.noConfusion hp1
        | some objs1 =>
          rw [hpm] at hp1
          dsimp only [Option.map] at hp1
          have hm1eq := Option.some.inj hp1
          obtain ⟨fn0, hfn0mem, hpull0⟩ :=
            mem_mapFuncObjsM hpm fn1
              (by rw [← hm1eq] at hfn1mem; exact hfn1mem)
          obtain ⟨hid1, hty1, e1, r1, hb1, hfe1, hrv1⟩ := pull_facts hpull0
          obtain ⟨hid2, hty2, hsub2, hhead2, hreach2⟩ :=
            removeUnreachable_facts hci hremove
          have hok1 : ∀ bb ∈ fn1.blocks, blockMergeOK bb = true := by
            have h1 := List.all_eq_true.mp hall
              (spirv.SObject.funcO fn1) hfn1mem
            dsimp only at h1
            exact List.all_eq_true.mp h1
          have hok2 : ∀ bb ∈ fn2.blocks, blockMergeOK bb = true :=
            fun bb hb => hok1 bb (hsub2 bb hb)
          obtain ⟨htid, htty, hterm, hshape⟩ := terminate_facts fn2
          refine ⟨hterm, ?_, ?_⟩
          · obtain ⟨r2, hb2, hr2sub⟩ := hhead2 e1 r1 hb1
            obtain ⟨e', r', hb', he', hr'⟩ := hshape e1 r2 hb2
            refine ⟨fn0, hfn0mem, ?_, ?_, e', r', hb', ?_, ?_⟩
            · rw [htid, hid2, hid1]
            · rw [htty, hty2, hty1]
            · rcases he' with he' | ⟨t, he', htok⟩
              · rw [he', hfe1]
              · rw [he', List.filter_append, filter_var_terminator htok,
                  List.append_nil, hfe1]
            · intro bb hb
              obtain ⟨bb0, hbb0, hbi⟩ := hr' bb hb
              have hz : bb0.instructions.filter
                  (fun i => i.opcode = spirv.Opcode.opVariable) = [] :=
                hrv1 bb0 (hr2sub bb0 hbb0)
              rcases hbi with hbi | ⟨t, hbi, htok⟩
              · rw [hbi, hz]
              · rw [hbi, List.filter_append, filter_var_terminator htok,
                  List.append_nil, hz]
          · intro bb' hb'
            obtain ⟨bb2, hbb2, hbid⟩ := terminate_block_ids fn2 bb' hb'
            rw [hbid]
            exact reachB_terminate fn2 hok2 bb2.id (hreach2 bb2 hbb2)

end compiler



namespace compiler

/-- A lowered-shaped input for the rewrite chain: one void function whose
body block holds a local `Variable`, plus an unreachable block, each block
also registered in the module index. -/
def c1Mod : spirv.SModule :=
  { idGenerator := 20,
    objects := [
      spirv.SObject.funcO
        { id := 10, name := "f",
          type := { id := 100, returnTypeId := 99, returnIsVoid := true },
          params := [],
          blocks := [
            { id := 1, name := "entry",
              instructions := [spirv.SInstr.branch 2] },
            { id := 2, name := "body",
              instructions := [spirv.SInstr.variableI 7 8 7 0] },
            { id := 3, name := "dead",
              instructions := [spirv.SInstr.ret] } ] },
      spirv.SObject.blockO
        { id := 1, name := "entry",
          instructions := [spirv.SInstr.branch 2] },
      spirv.SObject.blockO
        { id := 2, name := "body",
          instructions := [spirv.SInstr.variableI 7 8 7 0] },
      spirv.SObject.blockO
        { id := 3, name := "dead",
          instructions := [spirv.SInstr.ret] } ],
    objectsByID := [(10, 0), (1, 1), (2, 2), (3, 3)],
    typesByKey := [], constantsByKey := [], capabilities := [],
    addressingModel := 0, memoryModel := 0 }

/-- The module `rewriteIRE` produces from `c1Mod`: the `Variable` moved
to the entry block, the unreachable block `dead` dropped from the block
list and the index, and `Return` appended to the open `body` block. -/
def c1Out : spirv.SModule :=
  { idGenerator := 20,
    objects := [
      spirv.SObject.funcO
        { id := 10, name := "f",
          type := { id := 100, returnTypeId := 99, returnIsVoid := true },
          params := [],
          blocks := [
            { id := 1, name := "entry",
              instructions := [spirv.SInstr.variableI 7 8 7 0,
                spirv.SInstr.branch 2] },
            { id := 2, name := "body",
              instructions := [spirv.SInstr.ret] } ] },
      spirv.SObject.blockO
        { id := 1, name := "entry",
          instructions := [spirv.SInstr.branch 2] },
      spirv.SObject.blockO
        { id := 2, name := "body",
          instructions := [spirv.SInstr.variableI 7 8 7 0] } ],
    objectsByID := [(2, 2), (1, 1), (10, 0)],
    typesByKey := [], constantsByKey := [], capabilities := [],
    addressingModel := 0, memoryModel := 0 }

theorem C1_rewriteIR_witness :
    rewriteIRE c1Mod = some c1Out ∧
    (∀ fn', spirv.SObject.funcO fn' ∈ c1Out.objects →
      (∀ bb ∈ fn'.blocks, bb.isTerminated = true) ∧
      (∃ fn, spirv.SObject.funcO fn ∈ c1Mod.objects ∧
        fn'.id = fn.id ∧ fn'.type = fn.type ∧
        ∃ e r, fn'.blocks = e :: r ∧
          e.instructions.filter
            (fun i => i.opcode = spirv.Opcode.opVariable)
            = fn.blocks.flatMap (fun bb => bb.instructions.filter
                (fun i => i.opcode = spirv.Opcode.opVariable)) ∧
          (∀ bb ∈ r, bb.instructions.filter
            (fun i => i.opcode = spirv.Opcode.opVariable) = [])) ∧
      (∀ bb ∈ fn'.blocks, ReachB fn'.blocks bb.id)) :=
  ⟨by decide,
    C1_rewriteIR (show rewriteIRE c1Mod = some c1Out by decide)
      (fun m1 hm1 => by
        have h2 : (PassPullLocalVarsToFuncEntryE c1Mod).map rewriteWF
            = some true := by decide
        rw [hm1] at h2
        exact Option.some.inj h2)⟩

end compiler
